import Mathlib

/-!
# pgx: the Timestamptz array codec and the pipelined batch session

A shallow embedding of `pgtype/timestamptz_array.go` and of the batch result
session exercised by `batch_test.go`.

Conventions of the embedding

* A Go `[]byte` or `string` is a `List Nat` whose entries are byte values
  (below 256).  A slice that may be `nil` is an `Option`.  The capacity of a
  slice is taken to be its length.
* Go `int32` values are integers reduced by `int32`, Go `int` values are
  integers reduced by `goInt` (64-bit platforms).
* A Go call either returns its `error` value or the runtime panics (index out
  of range, division by zero, negative `make` length): `Outcome`.
* The `io.Writer` handed to an encoder is an in-memory buffer: writes append and
  do not fail.  An encoder reports the bytes it appended.
* Code of the repository that `timestamptz_array.go` calls but that lives in
  other files (the element codec, the array header codec, the text tokenizer,
  the quoting helper, the dimension writer) is a field of `Codecs`; the
  array code is embedded over an arbitrary `Codecs`.
-/

namespace Pgtype

/-! ## Data model -/

/-- Byte strings: Go `[]byte` and `string`. -/
abbrev Bytes := List Nat

/-- Three-state presence marker of `pgtype`. -/
inductive Status where
  | Undefined
  | Null
  | Present
deriving DecidableEq, Repr

/-- Go `error` values that the array code can return: its own `errUndefined`,
whatever a collaborator reports, and the two `fmt.Errorf` errors of
`ConvertFrom` and `AssignTo` for a value they cannot handle. -/
inductive Error where
  | errUndefined
  | collaborator (code : Nat)
  | cannotConvert
  | cannotAssign
deriving DecidableEq, Repr

/-- How a Go call ends: it returns its `error` result (`none` is `nil`), or a
runtime panic unwinds it. -/
inductive Outcome where
  | returned (err : Option Error)
  | panicked
deriving DecidableEq, Repr

/-- Modelled from the spec: the element value `Timestamptz`, declared outside
`timestamptz_array.go`; an instant (microseconds) that carries its own presence
state. -/
structure Timestamptz where
  Time : Int
  Status : Status
deriving DecidableEq, Repr

/-- The `(length, lowerBound)` pair of one dimension; both are `int32`. -/
structure ArrayDimension where
  Length : Int
  LowerBound : Int
deriving DecidableEq, Repr

/-- The binary array header. -/
structure ArrayHeader where
  ContainsNull : Bool
  ElementOid : Int
  Dimensions : List ArrayDimension
deriving DecidableEq, Repr

/-- The result of the text tokenizer. -/
structure UntypedTextArray where
  Elements : List Bytes
  Dimensions : List ArrayDimension
deriving DecidableEq, Repr

/-- The Go struct `TimestamptzArray`. -/
structure TimestamptzArray where
  Elements : List Timestamptz
  Dimensions : List ArrayDimension
  Status : Status
deriving DecidableEq, Repr

/-- The collaborators of the array codec.  Element encoders report
`(null, bytes written to the element buffer)`; element decoders are applied to
a zero-valued destination and report the decoded value; the header decoder
reports the header and the read position after it. -/
structure Codecs where
  TimestamptzEncodeText : Timestamptz → Except Error (Bool × Bytes)
  TimestamptzEncodeBinary : Timestamptz → Except Error (Bool × Bytes)
  TimestamptzDecodeText : Option Bytes → Except Error Timestamptz
  TimestamptzDecodeBinary : Option Bytes → Except Error Timestamptz
  ArrayHeaderEncodeBinary : ArrayHeader → Bytes
  ArrayHeaderDecodeBinary : Bytes → Except Error (ArrayHeader × Nat)
  ParseUntypedTextArray : Bytes → Except Error UntypedTextArray
  QuoteArrayElementIfNeeded : Bytes → Bytes
  EncodeTextArrayDimensions : List ArrayDimension → Bytes
  TimestamptzOid : Int

/-- What an encoder did: the bytes appended to the writer, the `null` result
and how the call ended. -/
structure EncodeResult where
  written : Bytes
  null : Bool
  outcome : Outcome
deriving DecidableEq, Repr

/-- Why a helper loop stopped early. -/
inductive Fault where
  | err (e : Error)
  | panic
deriving DecidableEq, Repr

/-! ## Machine integers and `pgio` -/

/-- Conversion to Go `int32` (two's complement wrap-around). -/
def int32 (x : Int) : Int := (x + 2147483648) % 4294967296 - 2147483648

/-- Conversion to Go `int` on a 64-bit platform (two's complement wrap-around). -/
def goInt (x : Int) : Int := (x + 9223372036854775808) % 18446744073709551616 - 9223372036854775808

/-- Go `binary.BigEndian.Uint32(b)`: `none` is the bounds-check panic for fewer
than four bytes. -/
def BigEndianUint32 (b : Bytes) : Option Nat :=
  match b with
  | b0 :: b1 :: b2 :: b3 :: _ =>
      some (b0 % 256 * 16777216 + b1 % 256 * 65536 + b2 % 256 * 256 + b3 % 256)
  | _ => none

/-- Modelled from the spec: `pgio.WriteInt32`, which is not in
`timestamptz_array.go`; the four big-endian bytes of a 32-bit value. -/
def WriteInt32 (n : Int) : Bytes :=
  let u := (n % 4294967296).toNat
  [u / 16777216 % 256, u / 65536 % 256, u / 256 % 256, u % 256]

/-! ## Binary decode -/

/-- The element loop of `DecodeBinary`: `n` elements are still to be read and
`rp` is the read position in `src`. -/
def decodeElements (c : Codecs) (src : Bytes) : Nat → Nat → Except Fault (List Timestamptz)
  | 0, _ => .ok []
  | n + 1, rp =>
    match BigEndianUint32 (src.drop rp) with
    | none => .error .panic
    | some u =>
      let elemLen := int32 u
      let rp := rp + 4
      if 0 ≤ elemLen then
        if rp + elemLen.toNat ≤ src.length then
          match c.TimestamptzDecodeBinary (some ((src.drop rp).take elemLen.toNat)) with
          | .error e => .error (.err e)
          | .ok v =>
            match decodeElements c src n (rp + elemLen.toNat) with
            | .error f => .error f
            | .ok vs => .ok (v :: vs)
        else .error .panic
      else
        match c.TimestamptzDecodeBinary none with
        | .error e => .error (.err e)
        | .ok v =>
          match decodeElements c src n rp with
          | .error f => .error f
          | .ok vs => .ok (v :: vs)

/-- The `int32` running product `elementCount` of `DecodeBinary`, started at the
first dimension length. -/
def elementCount (d0 : ArrayDimension) (ds : List ArrayDimension) : Int :=
  ds.foldl (fun n d => int32 (n * d.Length)) d0.Length

/-- The method `(*TimestamptzArray).DecodeBinary`: the new value of `*dst` and
how the call ended. -/
def DecodeBinary (c : Codecs) (dst : TimestamptzArray) (src : Option Bytes) :
    TimestamptzArray × Outcome :=
  match src with
  | none => (⟨[], [], .Null⟩, .returned none)
  | some src =>
    match c.ArrayHeaderDecodeBinary src with
    | .error e => (dst, .returned (some e))
    | .ok (arrayHeader, rp) =>
      match arrayHeader.Dimensions with
      | [] => (⟨[], arrayHeader.Dimensions, .Present⟩, .returned none)
      | d0 :: ds =>
        if elementCount d0 ds < 0 then (dst, .panicked)
        else
          match decodeElements c src (elementCount d0 ds).toNat rp with
          | .error (.err e) => (dst, .returned (some e))
          | .error .panic => (dst, .panicked)
          | .ok elements => (⟨elements, arrayHeader.Dimensions, .Present⟩, .returned none)

/-! ## Binary encode -/

/-- The element loop of `encodeBinary`; `w` is what has been written so far. -/
def encodeBinaryElements (c : Codecs) : List Timestamptz → Bytes → EncodeResult
  | [], w => ⟨w, false, .returned none⟩
  | elem :: rest, w =>
    match c.TimestamptzEncodeBinary elem with
    | .error e => ⟨w, false, .returned (some e)⟩
    | .ok (null, elemBuf) =>
      if null then encodeBinaryElements c rest (w ++ WriteInt32 (-1))
      else encodeBinaryElements c rest (w ++ WriteInt32 (int32 elemBuf.length) ++ elemBuf)

/-- The method `(*TimestamptzArray).encodeBinary`. -/
def encodeBinary (c : Codecs) (src : TimestamptzArray) (elementOid : Int) : EncodeResult :=
  match src.Status with
  | .Null => ⟨[], true, .returned none⟩
  | .Undefined => ⟨[], false, .returned (some .errUndefined)⟩
  | .Present =>
    let arrayHeader : ArrayHeader :=
      ⟨src.Elements.any (fun e => decide (e.Status = .Null)), elementOid, src.Dimensions⟩
    encodeBinaryElements c src.Elements (c.ArrayHeaderEncodeBinary arrayHeader)

/-- The method `(*TimestamptzArray).EncodeBinary`. -/
def EncodeBinary (c : Codecs) (src : TimestamptzArray) : EncodeResult :=
  encodeBinary c src c.TimestamptzOid

/-! ## Text decode -/

/-- The byte string `NULL`. -/
def nullLiteral : Bytes := [78, 85, 76, 76]

/-- The element loop of `DecodeText` over the tokens of the tokenizer. -/
def decodeTextElements (c : Codecs) : List Bytes → Except Error (List Timestamptz)
  | [] => .ok []
  | s :: rest =>
    match c.TimestamptzDecodeText (if s ≠ nullLiteral then some s else none) with
    | .error e => .error e
    | .ok elem =>
      match decodeTextElements c rest with
      | .error e => .error e
      | .ok elems => .ok (elem :: elems)

/-- The method `(*TimestamptzArray).DecodeText`. -/
def DecodeText (c : Codecs) (dst : TimestamptzArray) (src : Option Bytes) :
    TimestamptzArray × Outcome :=
  match src with
  | none => (⟨[], [], .Null⟩, .returned none)
  | some src =>
    match c.ParseUntypedTextArray src with
    | .error e => (dst, .returned (some e))
    | .ok uta =>
      match decodeTextElements c uta.Elements with
      | .error e => (dst, .returned (some e))
      | .ok elements => (⟨elements, uta.Dimensions, .Present⟩, .returned none)

/-! ## Text encode -/

/-- The table `dimElemCounts` of `EncodeText`, filled from the innermost
dimension outwards in Go `int` arithmetic. -/
def dimElemCounts : List ArrayDimension → List Int
  | [] => []
  | d :: rest =>
    match dimElemCounts rest with
    | [] => [d.Length]
    | x :: t => goInt (d.Length * x) :: x :: t

/-- One of the two brace loops of `EncodeText`: for every entry `dec` of the
table, write `ch` when `i % dec == 0`.  The flag reports the division-by-zero
panic of a zero entry. -/
def writeBraces (ch : Nat) (i : Int) : List Int → Bytes → Bytes × Bool
  | [], w => (w, false)
  | dec :: rest, w =>
    if dec = 0 then (w, true)
    else if Int.tmod i dec = 0 then writeBraces ch i rest (w ++ [ch])
    else writeBraces ch i rest w

/-- The element loop of `EncodeText`: `i` is the flat index of the head of the
list and `w` is what has been written so far. -/
def encodeTextElements (c : Codecs) (counts : List Int) :
    Nat → List Timestamptz → Bytes → EncodeResult
  | _, [], w => ⟨w, false, .returned none⟩
  | i, elem :: rest, w =>
    let w1 := if 0 < i then w ++ [44] else w
    match writeBraces 123 (i : Int) counts w1 with
    | (w2, true) => ⟨w2, false, .panicked⟩
    | (w2, false) =>
      match c.TimestamptzEncodeText elem with
      | .error e => ⟨w2, false, .returned (some e)⟩
      | .ok (null, elemBuf) =>
        let w3 := if null then w2 ++ nullLiteral else w2 ++ c.QuoteArrayElementIfNeeded elemBuf
        match writeBraces 125 ((i : Int) + 1) counts w3 with
        | (w4, true) => ⟨w4, false, .panicked⟩
        | (w4, false) => encodeTextElements c counts (i + 1) rest w4

/-- The method `(*TimestamptzArray).EncodeText`. -/
def EncodeText (c : Codecs) (src : TimestamptzArray) : EncodeResult :=
  match src.Status with
  | .Null => ⟨[], true, .returned none⟩
  | .Undefined => ⟨[], false, .returned (some .errUndefined)⟩
  | .Present =>
    if src.Dimensions.length = 0 then ⟨[123, 125], false, .returned none⟩
    else
      encodeTextElements c (dimElemCounts src.Dimensions) 0 src.Elements
        (c.EncodeTextArrayDimensions src.Dimensions)

/-- The table loop of `EncodeText` with its index accesses spelled out: `k` is
the loop variable plus one; `none` is an index out of range. -/
def fillTable (dims : List ArrayDimension) : Nat → List Int → Option (List Int)
  | 0, table => some table
  | i + 1, table =>
    match dims[i]?, table[i + 1]? with
    | some d, some x =>
      if i < table.length then fillTable dims i (table.set i (goInt (d.Length * x))) else none
    | _, _ => none

/-- The statements of `EncodeText` that build `dimElemCounts`, with their index
accesses spelled out; `none` is an index out of range. -/
def dimElemCountsIndexed (dims : List ArrayDimension) : Option (List Int) :=
  if dims.length = 0 then none
  else
    match dims[dims.length - 1]? with
    | some d =>
      fillTable dims (dims.length - 1)
        ((List.replicate dims.length (0 : Int)).set (dims.length - 1) d.Length)
    | none => none

/-! ## Conversion from and to Go slices -/

/-- The element conversions that `ConvertFrom` and `AssignTo` call; they live
with the element type.  A `time.Time` is an instant, as in `Timestamptz`.  The
first is applied to a zero-valued element and reports the converted element,
the second reports the time assigned to the destination. -/
structure Conversions where
  TimestamptzConvertFrom : Int → Except Error Timestamptz
  TimestamptzAssignTo : Timestamptz → Except Error Int

/-- The dynamic type of the `src interface{}` argument of `ConvertFrom`: a
`TimestamptzArray`, a `[]time.Time` (`none` is the nil slice), a value that the
helper `underlyingSliceType` converts to another value, or anything else. -/
inductive ConvertSource where
  | array (value : TimestamptzArray)
  | times (value : Option (List Int))
  | renamed (original : ConvertSource)
  | unsupported
deriving Repr

/-- The element loop of `ConvertFrom`. -/
def convertElements (cv : Conversions) : List Int → Except Error (List Timestamptz)
  | [] => .ok []
  | t :: rest =>
    match cv.TimestamptzConvertFrom t with
    | .error e => .error e
    | .ok elem =>
      match convertElements cv rest with
      | .error e => .error e
      | .ok elems => .ok (elem :: elems)

/-- The method `(*TimestamptzArray).ConvertFrom`: the new value of `*dst` and
how the call ended. -/
def ConvertFrom (cv : Conversions) (dst : TimestamptzArray) :
    ConvertSource → TimestamptzArray × Outcome
  | .array value => (value, .returned none)
  | .times none => (⟨[], [], .Null⟩, .returned none)
  | .times (some value) =>
    if value.length = 0 then (⟨[], [], .Present⟩, .returned none)
    else
      match convertElements cv value with
      | .error e => (dst, .returned (some e))
      | .ok elements =>
        (⟨elements, [⟨int32 elements.length, 1⟩], .Present⟩, .returned none)
  | .renamed original => ConvertFrom cv dst original
  | .unsupported => (dst, .returned (some .cannotConvert))

/-- The dynamic type of the `dst interface{}` argument of `AssignTo`: a
`*[]time.Time` with the current value of the slice (`none` is nil), a pointer
that the helper `underlyingPtrSliceType` converts to another one, or anything
else. -/
inductive AssignTarget where
  | times (value : Option (List Int))
  | renamed (original : AssignTarget)
  | unsupported
deriving DecidableEq, Repr

/-- The element loop of `AssignTo` over the slice made by `make`: the contents
of the slice when the loop ends and the error that ended it.  An element that
fails and the elements behind it keep the zero time. -/
def assignElements (cv : Conversions) : List Timestamptz → List Int × Option Error
  | [] => ([], none)
  | e :: rest =>
    match cv.TimestamptzAssignTo e with
    | .error err => (0 :: List.replicate rest.length 0, some err)
    | .ok t => (t :: (assignElements cv rest).1, (assignElements cv rest).2)

/-- The method `(*TimestamptzArray).AssignTo`: the new value of the destination
and how the call ended. -/
def AssignTo (cv : Conversions) (src : TimestamptzArray) : AssignTarget → AssignTarget × Outcome
  | .times _ =>
    match src.Status with
    | .Present =>
      (.times (some (assignElements cv src.Elements).1),
        .returned (assignElements cv src.Elements).2)
    | _ => (.times none, .returned none)
  | .renamed original => (.renamed (AssignTo cv src original).1, (AssignTo cv src original).2)
  | .unsupported => (.unsupported, .returned (some .cannotAssign))

/-! ## Reference collaborators

The array code above is embedded over arbitrary collaborators.  The
definitions of this section are one concrete instance, used to evaluate the
array code on concrete inputs. -/

/-- Modelled from the spec: `strconv.FormatInt(x, 10)` digit loop, most
significant digit first; `fuel` bounds the number of digits. -/
def digitsAux : Nat → Nat → Bytes → Bytes
  | 0, _, acc => acc
  | fuel + 1, n, acc =>
    if n < 10 then (48 + n) :: acc else digitsAux fuel (n / 10) ((48 + n % 10) :: acc)

/-- Modelled from the spec: decimal rendering of an integer, as used by the
dimension writer of the array text format. -/
def formatInt (x : Int) : Bytes :=
  if x < 0 then 45 :: digitsAux (x.natAbs + 1) x.natAbs []
  else digitsAux (x.natAbs + 1) x.natAbs []

/-- Modelled from the spec: reads a run of decimal digits; the tokenizer helper
that reads an explicit bound. -/
def parseDigits : Bytes → Option Nat → Option Nat × Bytes
  | [], acc => (acc, [])
  | b :: rest, acc =>
    if 48 ≤ b ∧ b ≤ 57 then parseDigits rest (some (acc.getD 0 * 10 + (b - 48)))
    else (acc, b :: rest)

/-- Modelled from the spec: reads an optionally negative decimal integer and
reports the unread rest. -/
def parseInteger (s : Bytes) : Option (Int × Bytes) :=
  match s with
  | 45 :: rest =>
    match parseDigits rest none with
    | (some n, r) => some (-(n : Int), r)
    | (none, _) => none
  | _ =>
    match parseDigits s none with
    | (some n, r) => some ((n : Int), r)
    | (none, _) => none

/-- Modelled from the spec: the Value Codec Contract of `Timestamptz`, binary
encode; the instant is sent as eight big-endian bytes, a null value writes
nothing and reports null, an undefined value is an error. -/
def refTimestamptzEncodeBinary (e : Timestamptz) : Except Error (Bool × Bytes) :=
  match e.Status with
  | .Undefined => .error .errUndefined
  | .Null => .ok (true, [])
  | .Present => .ok (false, WriteInt32 (e.Time / 4294967296) ++ WriteInt32 e.Time)

/-- Modelled from the spec: the Value Codec Contract of `Timestamptz`, binary
decode; an absent source is a null value, otherwise exactly eight bytes are
expected. -/
def refTimestamptzDecodeBinary (src : Option Bytes) : Except Error Timestamptz :=
  match src with
  | none => .ok ⟨0, .Null⟩
  | some b =>
    if b.length = 8 then
      match BigEndianUint32 b, BigEndianUint32 (b.drop 4) with
      | some hi, some lo => .ok ⟨goInt ((hi : Int) * 4294967296 + lo), .Present⟩
      | _, _ => .error (.collaborator 1)
    else .error (.collaborator 1)

/-- Modelled from the spec: the Value Codec Contract of `Timestamptz`, text
encode; the instant is written as a decimal number. -/
def refTimestamptzEncodeText (e : Timestamptz) : Except Error (Bool × Bytes) :=
  match e.Status with
  | .Undefined => .error .errUndefined
  | .Null => .ok (true, [])
  | .Present => .ok (false, formatInt e.Time)

/-- Modelled from the spec: the Value Codec Contract of `Timestamptz`, text
decode; an absent source is a null value. -/
def refTimestamptzDecodeText (src : Option Bytes) : Except Error Timestamptz :=
  match src with
  | none => .ok ⟨0, .Null⟩
  | some s =>
    match parseInteger s with
    | some (t, []) => .ok ⟨t, .Present⟩
    | _ => .error (.collaborator 2)

/-- Modelled from the spec: `ArrayHeader.EncodeBinary`; the number of
dimensions, the contains-null flag, the element type OID, and for each
dimension its length and lower bound, each as four big-endian bytes. -/
def refArrayHeaderEncodeBinary (h : ArrayHeader) : Bytes :=
  WriteInt32 h.Dimensions.length ++ WriteInt32 (if h.ContainsNull then 1 else 0) ++
    WriteInt32 h.ElementOid ++
    h.Dimensions.flatMap (fun d => WriteInt32 d.Length ++ WriteInt32 d.LowerBound)

/-- Modelled from the spec: the per-dimension loop of `ArrayHeader.DecodeBinary`;
`none` when the bytes run out. -/
def refDecodeDimensions : Nat → Bytes → Option (List ArrayDimension)
  | 0, _ => some []
  | n + 1, b =>
    match BigEndianUint32 b, BigEndianUint32 (b.drop 4) with
    | some len, some lb =>
      match refDecodeDimensions n (b.drop 8) with
      | some ds => some (⟨int32 len, int32 lb⟩ :: ds)
      | none => none
    | _, _ => none

/-- Modelled from the spec: `ArrayHeader.DecodeBinary`; reads what
`refArrayHeaderEncodeBinary` writes and reports the position after the last
dimension; a source that is too short is an error. -/
def refArrayHeaderDecodeBinary (src : Bytes) : Except Error (ArrayHeader × Nat) :=
  match BigEndianUint32 src, BigEndianUint32 (src.drop 4), BigEndianUint32 (src.drop 8) with
  | some numDims, some flag, some oid =>
    match refDecodeDimensions numDims (src.drop 12) with
    | some ds => .ok (⟨decide (flag = 1), int32 oid, ds⟩, 12 + 8 * numDims)
    | none => .error (.collaborator 3)
  | _, _, _ => .error (.collaborator 3)

/-- Modelled from the spec: `EncodeTextArrayDimensions`; nothing when every
lower bound is 1, otherwise the explicit bounds `[lower:upper]` of every
dimension followed by `=`. -/
def refEncodeTextArrayDimensions (dims : List ArrayDimension) : Bytes :=
  if dims.all (fun d => decide (d.LowerBound = 1)) then []
  else
    dims.flatMap (fun d =>
      [91] ++ formatInt d.LowerBound ++ [58] ++
        formatInt (int32 (d.LowerBound + d.Length - 1)) ++ [93]) ++ [61]

/-- Modelled from the spec: the escaping of `QuoteArrayElement`; a backslash
before every backslash and double quote. -/
def escapeQuoted : Bytes → Bytes
  | [] => []
  | b :: rest => if b = 92 ∨ b = 34 then 92 :: b :: escapeQuoted rest else b :: escapeQuoted rest

/-- ASCII lower-casing of one byte. -/
def lowerByte (b : Nat) : Nat := if 65 ≤ b ∧ b ≤ 90 then b + 32 else b

/-- Modelled from the spec: `QuoteArrayElementIfNeeded`; the text is wrapped in
double quotes when it is empty, spells `null`, starts or ends with a space, or
contains a brace, a comma, a double quote or a backslash. -/
def refQuoteArrayElementIfNeeded (s : Bytes) : Bytes :=
  if s = [] ∨ s.map lowerByte = [110, 117, 108, 108] ∨ s.head? = some 32 ∨
      s.getLast? = some 32 ∨ s.any (fun b => b == 123 || b == 125 || b == 44 || b == 34 || b == 92)
  then [34] ++ escapeQuoted s ++ [34]
  else s

/-- Modelled from the spec: the explicit-dimension part `[l:u]...=` of an array
literal; reports the dimensions and the unread rest. -/
def parseExplicitDims : Nat → Bytes → List ArrayDimension → Option (List ArrayDimension × Bytes)
  | 0, _, _ => none
  | fuel + 1, s, acc =>
    match s with
    | 61 :: rest => some (acc.reverse, rest)
    | 91 :: rest =>
      match parseInteger rest with
      | some (lower, 58 :: rest1) =>
        match parseInteger rest1 with
        | some (upper, 93 :: rest2) =>
          parseExplicitDims fuel rest2 (⟨int32 (upper - lower + 1), int32 lower⟩ :: acc)
        | _ => none
      | _ => none
    | _ => none

/-- The bookkeeping of the tokenizer: the implicit dimension lengths, the
current nesting depth, the depth whose length is still being counted, and the
tokens read so far (latest first). -/
structure TokState where
  lengths : List Nat
  currentDim : Int
  counterDim : Int
  elements : List Bytes
deriving DecidableEq, Repr

/-- What the tokenizer is in the middle of. -/
inductive TokMode where
  | between
  | unquoted (acc : Bytes)
  | quoted (acc : Bytes)
  | escaped (acc : Bytes)
  | afterQuote
  | finished
deriving DecidableEq, Repr

/-- Adds one to the `k`-th entry of a list. -/
def incrAt : Nat → List Nat → List Nat
  | _, [] => []
  | 0, x :: xs => (x + 1) :: xs
  | k + 1, x :: xs => x :: incrAt k xs

/-- Counts one more member of the dimension at the current depth while that
depth is the one being counted. -/
def bumpLength (st : TokState) : TokState :=
  if st.currentDim = st.counterDim then
    { st with lengths := incrAt st.currentDim.toNat st.lengths }
  else st

/-- Records a finished token. -/
def pushToken (st : TokState) (tok : Bytes) : TokState :=
  { bumpLength st with elements := tok :: st.elements }

/-- Modelled from the spec: one byte of the tokenizer main loop, read between
tokens: a brace opens or closes a dimension, a comma separates, a double quote
starts a quoted token and anything else starts a bare token. -/
def tokBetween (st : TokState) (b : Nat) : Option (TokState × TokMode) :=
  if b = 123 then some ({ bumpLength st with currentDim := st.currentDim + 1 }, .between)
  else if b = 44 then some (st, .between)
  else if b = 125 then
    let cd := st.currentDim - 1
    some ({ st with currentDim := cd, counterDim := if cd < st.counterDim then cd else st.counterDim },
      if cd < 0 then .finished else .between)
  else if b = 34 then some (st, .quoted [])
  else some (st, .unquoted [b])

/-- Modelled from the spec: the tokenizer main loop over the bytes after the
initial run of opening braces; `none` is a malformed literal. -/
def tokLoop : Bytes → TokState → TokMode → Option TokState
  | [], st, .finished => some st
  | [], _, _ => none
  | b :: rest, st, .between =>
    match tokBetween st b with
    | some (st1, m) => tokLoop rest st1 m
    | none => none
  | b :: rest, st, .unquoted acc =>
    if b = 44 ∨ b = 125 then
      match tokBetween (pushToken st acc) b with
      | some (st1, m) => tokLoop rest st1 m
      | none => none
    else tokLoop rest st (.unquoted (acc ++ [b]))
  | b :: rest, st, .quoted acc =>
    if b = 92 then tokLoop rest st (.escaped acc)
    else if b = 34 then tokLoop rest (pushToken st acc) .afterQuote
    else tokLoop rest st (.quoted (acc ++ [b]))
  | b :: rest, st, .escaped acc => tokLoop rest st (.quoted (acc ++ [b]))
  | b :: rest, st, .afterQuote =>
    if b = 44 ∨ b = 125 then
      match tokBetween st b with
      | some (st1, m) => tokLoop rest st1 m
      | none => none
    else none
  | b :: rest, st, .finished =>
    if b = 32 ∨ (9 ≤ b ∧ b ≤ 13) then tokLoop rest st .finished else none

/-- Splits off the leading run of opening braces. -/
def leadingBraces : Bytes → Nat × Bytes
  | 123 :: rest => ((leadingBraces rest).1 + 1, (leadingBraces rest).2)
  | s => (0, s)

/-- Skips leading white space. -/
def skipSpace : Bytes → Bytes
  | b :: rest => if b = 32 ∨ (9 ≤ b ∧ b ≤ 13) then skipSpace rest else b :: rest
  | [] => []

/-- Modelled from the spec: the brace part of `ParseUntypedTextArray`; the
first byte must be an opening brace, the run of opening braces that follows
gives the number of dimensions, and the main loop reads the tokens and counts
the lengths. -/
def parseBraces (explicitDims : List ArrayDimension) (s : Bytes) : Except Error UntypedTextArray :=
  match s with
  | 123 :: body =>
    let k := (leadingBraces body).1
    match tokLoop (leadingBraces body).2 ⟨List.replicate k 1 ++ [0], k, k, []⟩ .between with
    | none => .error (.collaborator 4)
    | some st =>
      if st.elements = [] then .ok ⟨[], []⟩
      else if explicitDims ≠ [] then .ok ⟨st.elements.reverse, explicitDims⟩
      else .ok ⟨st.elements.reverse, st.lengths.map (fun n => ⟨(n : Int), 1⟩)⟩
  | _ => .error (.collaborator 4)

/-- Modelled from the spec: the tokenizer `ParseUntypedTextArray`; it parses a
brace-delimited, comma-separated literal, optionally preceded by explicit
bounds, into dimensions and a flat sequence of element substrings. -/
def refParseUntypedTextArray (src : Bytes) : Except Error UntypedTextArray :=
  match skipSpace src with
  | 91 :: rest =>
    match parseExplicitDims (rest.length + 2) (91 :: rest) [] with
    | some (dims, rest1) => parseBraces dims rest1
    | none => .error (.collaborator 4)
  | s => parseBraces [] s

/-- The reference collaborators; 1184 is the type OID of `timestamptz`. -/
def refCodecs : Codecs where
  TimestamptzEncodeText := refTimestamptzEncodeText
  TimestamptzEncodeBinary := refTimestamptzEncodeBinary
  TimestamptzDecodeText := refTimestamptzDecodeText
  TimestamptzDecodeBinary := refTimestamptzDecodeBinary
  ArrayHeaderEncodeBinary := refArrayHeaderEncodeBinary
  ArrayHeaderDecodeBinary := refArrayHeaderDecodeBinary
  ParseUntypedTextArray := refParseUntypedTextArray
  QuoteArrayElementIfNeeded := refQuoteArrayElementIfNeeded
  EncodeTextArrayDimensions := refEncodeTextArrayDimensions
  TimestamptzOid := 1184

/-- A sample instance of the element conversions, used to evaluate the array
code on concrete inputs: a time converts to a present element holding it, and
only a present element assigns its time. -/
def refConversions : Conversions where
  TimestamptzConvertFrom := fun t => .ok ⟨t, .Present⟩
  TimestamptzAssignTo := fun e =>
    match e.Status with
    | .Present => .ok e.Time
    | _ => .error .cannotAssign

end Pgtype
/-! ## The pipelined batch session

The session type and its row stream are exercised by `batch_test.go` but are
defined in files of the repository that are not part of this development; they
are modelled from the specification.  The server's response stream is a list
of frames; the session reads it front to back. -/

namespace Pipeline

/-- Modelled from the spec: the command verb of a `CommandResult`. -/
inductive Verb where
  | insert
  | update
  | delete
  | select
deriving DecidableEq, Repr

/-- Modelled from the spec: `CommandResult`, the command verb and the
rows-affected count of a statement that returns no rows. -/
structure CommandResult where
  verb : Verb
  rowsAffected : Nat
deriving DecidableEq, Repr

/-- Modelled from the spec: the server-to-client wire vocabulary; a data row
carries its column values and an error carries its standardized code. -/
inductive Frame where
  | prepareAck
  | bindAck
  | rowDescription
  | dataRow (cols : List Int)
  | commandComplete (r : CommandResult)
  | error (code : Nat)
  | readyForNext
deriving DecidableEq, Repr

/-- Modelled from the spec: the states of a `RowStream`. -/
inductive StreamState where
  | streaming
  | exhausted
  | closed
  | errored (code : Nat)
deriving DecidableEq, Repr

/-- Modelled from the spec: `RowStream`, its state and its one-row buffer. -/
structure RowStream where
  state : StreamState
  buffer : Option (List Int)
deriving DecidableEq, Repr

/-- Modelled from the spec: the error taxonomy seen by a caller of the
session. -/
inductive CallError where
  | server (code : Nat)
  | shapeMismatch
  | sequencing
  | sessionClosed
  | rowCount
deriving DecidableEq, Repr

/-- Modelled from the spec: `PipelineSession`, the unread response stream, the
number of queued statements, the index of the next statement awaiting
consumption, the currently open row stream, the sticky terminal error and the
closed flag. -/
structure PipelineSession where
  wire : List Frame
  batchSize : Nat
  nextIndex : Nat
  stream : Option RowStream
  terminal : Option Nat
  closed : Bool
deriving DecidableEq, Repr

/-- Modelled from the spec: `SendBatch`, which hands the caller a fresh session
bound to the response stream of the batch. -/
def SendBatch (wire : List Frame) (batchSize : Nat) : PipelineSession :=
  ⟨wire, batchSize, 0, none, none, false⟩

/-- Modelled from the spec: recording a server-reported error as the sticky
terminal error; the first occurrence wins. -/
def record (s : PipelineSession) (code : Nat) : PipelineSession :=
  match s.terminal with
  | some _ => s
  | none => { s with terminal := some code }

/-- Records an error if there is one. -/
def recordOpt (s : PipelineSession) (e : Option Nat) : PipelineSession :=
  match e with
  | some code => record s code
  | none => s

/-- Modelled from the spec: raw frame skipping of the rest of one statement's
response, up to and including its completion marker (command completion or
error); the synchronization acknowledgment is left unread.  Reports the unread
frames and the error met. -/
def discardStatement : List Frame → List Frame × Option Nat
  | [] => ([], none)
  | .commandComplete _ :: rest => (rest, none)
  | .error code :: rest => (rest, some code)
  | .readyForNext :: rest => (.readyForNext :: rest, none)
  | .prepareAck :: rest => discardStatement rest
  | .bindAck :: rest => discardStatement rest
  | .rowDescription :: rest => discardStatement rest
  | .dataRow _ :: rest => discardStatement rest

/-- Reads and discards the response of the statement at `nextIndex` and advances
the index. -/
def drainStatement (s : PipelineSession) : PipelineSession :=
  recordOpt { s with wire := (discardStatement s.wire).1, nextIndex := s.nextIndex + 1 }
    (discardStatement s.wire).2

/-- Drains the next `k` statements. -/
def drainStatements : Nat → PipelineSession → PipelineSession
  | 0, s => s
  | k + 1, s => drainStatements k (drainStatement s)

/-- Skips the acknowledgments that precede a statement's result. -/
def skipAcks : List Frame → List Frame
  | .prepareAck :: rest => skipAcks rest
  | .bindAck :: rest => skipAcks rest
  | w => w

/-- What pulling the next row from the wire found. -/
inductive Pull where
  | row (cols : List Int)
  | done
  | failed (code : Nat)
deriving DecidableEq, Repr

/-- Modelled from the spec: the wire read of `advance`; the next data row, the
statement's completion, or its error. -/
def pullRow : List Frame → List Frame × Pull
  | [] => ([], .done)
  | .dataRow cols :: rest => (rest, .row cols)
  | .commandComplete _ :: rest => (rest, .done)
  | .error code :: rest => (rest, .failed code)
  | .readyForNext :: rest => (.readyForNext :: rest, .done)
  | .prepareAck :: rest => pullRow rest
  | .bindAck :: rest => pullRow rest
  | .rowDescription :: rest => pullRow rest

/-- Whether the session has an open row stream that is still streaming. -/
def isStreaming (s : PipelineSession) : Bool :=
  match s.stream with
  | some ⟨.streaming, _⟩ => true
  | _ => false

/-- Modelled from the spec: `RowStream.Next` (`advance`) on the open stream. -/
def Next (s : PipelineSession) : PipelineSession × Bool :=
  if isStreaming s then
    match pullRow s.wire with
    | (w, .row cols) => ({ s with wire := w, stream := some ⟨.streaming, some cols⟩ }, true)
    | (w, .done) =>
      ({ s with wire := w, nextIndex := s.nextIndex + 1, stream := some ⟨.exhausted, none⟩ }, false)
    | (w, .failed code) =>
      (record { s with wire := w, nextIndex := s.nextIndex + 1,
                       stream := some ⟨.errored code, none⟩ } code, false)
  else (s, false)

/-- Modelled from the spec: `RowStream.Err`, the terminal error of a stream
that ended as errored. -/
def Err (s : PipelineSession) : Option Nat :=
  match s.stream with
  | some ⟨.errored code, _⟩ => some code
  | _ => none

/-- Modelled from the spec: `RowStream.Close`; a stream that is still streaming
discards the remaining frames of its statement and becomes closed. -/
def RowClose (s : PipelineSession) : PipelineSession :=
  if isStreaming s then { drainStatement s with stream := some ⟨.closed, none⟩ }
  else s

/-- The checks shared by the accessors: a closed session, a recorded terminal
error, a batch whose results are all consumed, a statement still streaming. -/
def accessorGuard (s : PipelineSession) : Option CallError :=
  if s.closed then some .sessionClosed
  else
    match s.terminal with
    | some code => some (.server code)
    | none =>
      if s.batchSize ≤ s.nextIndex then some .sequencing
      else if isStreaming s then some .sequencing
      else none

/-- Modelled from the spec: `ExecResults`; a command completion is returned, a
server error is recorded and returned, and a statement that returns rows has
them discarded and is a shape mismatch. -/
def ExecResults (s : PipelineSession) : PipelineSession × Except CallError CommandResult :=
  match accessorGuard s with
  | some e => (s, .error e)
  | none =>
    match skipAcks s.wire with
    | .commandComplete r :: rest =>
      ({ s with wire := rest, nextIndex := s.nextIndex + 1 }, .ok r)
    | .error code :: rest =>
      (record { s with wire := rest, nextIndex := s.nextIndex + 1 } code, .error (.server code))
    | .rowDescription :: rest => (drainStatement { s with wire := rest }, .error .shapeMismatch)
    | .dataRow _ :: rest => (drainStatement { s with wire := rest }, .error .shapeMismatch)
    | w => ({ s with wire := w }, .error .shapeMismatch)

/-- Modelled from the spec: `QueryResults`; a row description opens a row
stream, which is already exhausted when the statement completed without rows;
a server error is recorded and gives an errored stream, and a statement without
a row description is a shape mismatch. -/
def QueryResults (s : PipelineSession) : PipelineSession × Except CallError Unit :=
  match accessorGuard s with
  | some (.server code) => ({ s with stream := some ⟨.errored code, none⟩ }, .error (.server code))
  | some e => (s, .error e)
  | none =>
    match skipAcks s.wire with
    | .rowDescription :: .commandComplete _ :: rest =>
      ({ s with wire := rest, nextIndex := s.nextIndex + 1,
                stream := some ⟨.exhausted, none⟩ }, .ok ())
    | .rowDescription :: rest =>
      ({ s with wire := rest, stream := some ⟨.streaming, none⟩ }, .ok ())
    | .error code :: rest =>
      (record { s with wire := rest, nextIndex := s.nextIndex + 1,
                       stream := some ⟨.errored code, none⟩ } code, .error (.server code))
    | .commandComplete _ :: rest =>
      ({ s with wire := rest, nextIndex := s.nextIndex + 1 }, .error .shapeMismatch)
    | .dataRow _ :: rest => (drainStatement { s with wire := rest }, .error .shapeMismatch)
    | w => ({ s with wire := w }, .error .shapeMismatch)

/-- Modelled from the spec: `RowStream.Scan` (`scanInto`); the columns of the
buffered row, and a failure before `Next` has returned true for a row. -/
def Scan (s : PipelineSession) : Except CallError (List Int) :=
  match s.stream with
  | some ⟨.streaming, some cols⟩ => .ok cols
  | _ => .error .sequencing

/-- Modelled from the spec: `QueryRowResults`, sugar over `QueryResults`; the
row accessor is the session with its row stream, together with the error of
the underlying `QueryResults`, which only shows when the row is scanned. -/
def QueryRowResults (s : PipelineSession) : PipelineSession × Option CallError :=
  match QueryResults s with
  | (s1, .ok _) => (s1, none)
  | (s1, .error e) => (s1, some e)

/-- Modelled from the spec: reading the one row of a row accessor; exactly one
row is required, so a stream that yields no row or more than one row is an
error at scan time; an error of the stream is reported as such. -/
def scanOneRow (s : PipelineSession) : PipelineSession × Except CallError (List Int) :=
  match (Next s).2, Scan (Next s).1 with
  | true, .ok cols =>
    if (Next (Next s).1).2 then (RowClose (Next (Next s).1).1, .error .rowCount)
    else
      match Err (Next (Next s).1).1 with
      | some code => ((Next (Next s).1).1, .error (.server code))
      | none => ((Next (Next s).1).1, .ok cols)
  | _, _ =>
    match Err (Next s).1 with
    | some code => (RowClose (Next s).1, .error (.server code))
    | none => (RowClose (Next s).1, .error .rowCount)

/-- Modelled from the spec: scanning the row accessor of `QueryRowResults`; an
accessor whose `QueryResults` failed reports that error, any other reads its
one row. -/
def RowScan (acc : PipelineSession × Option CallError) :
    PipelineSession × Except CallError (List Int) :=
  match acc.2 with
  | some e => (acc.1, .error e)
  | none => scanOneRow acc.1

/-- Modelled from the spec: the wait for the synchronization acknowledgment;
frames are read up to and including it and the first error met is reported. -/
def awaitReady : List Frame → List Frame × Option Nat
  | [] => ([], none)
  | .readyForNext :: rest => (rest, none)
  | .error code :: rest => ((awaitReady rest).1, some code)
  | .prepareAck :: rest => awaitReady rest
  | .bindAck :: rest => awaitReady rest
  | .rowDescription :: rest => awaitReady rest
  | .dataRow _ :: rest => awaitReady rest
  | .commandComplete _ :: rest => awaitReady rest

/-- Modelled from the spec: `Close`; the open row stream is drained, the
response of every unresolved statement is discarded, the synchronization
acknowledgment is awaited, and the sticky terminal error is returned. -/
def Close (s : PipelineSession) : PipelineSession × Option Nat :=
  if s.closed then (s, s.terminal)
  else
    let s1 := RowClose s
    let s2 := drainStatements (s1.batchSize - s1.nextIndex) s1
    let s3 := recordOpt { s2 with wire := (awaitReady s2.wire).1, closed := true }
      (awaitReady s2.wire).2
    (s3, s3.terminal)

/-- The calls a caller can make on a session and its row stream. -/
inductive Call where
  | execResults
  | queryResults
  | queryRowResults
  | next
  | scan
  | err
  | rowClose
  | rowScan
  | close
deriving DecidableEq, Repr

/-- The session after one call. -/
def step (s : PipelineSession) : Call → PipelineSession
  | .execResults => (ExecResults s).1
  | .queryResults => (QueryResults s).1
  | .queryRowResults => (QueryRowResults s).1
  | .next => (Next s).1
  | .scan => s
  | .err => s
  | .rowClose => RowClose s
  | .rowScan => (RowScan (s, none)).1
  | .close => (Close s).1

/-- The session after a sequence of calls. -/
def run (s : PipelineSession) (calls : List Call) : PipelineSession :=
  calls.foldl step s

/-- The first error frame of a response stream before its synchronization
acknowledgment. -/
def firstError : List Frame → Option Nat
  | [] => none
  | .error code :: _ => some code
  | .readyForNext :: _ => none
  | .prepareAck :: rest => firstError rest
  | .bindAck :: rest => firstError rest
  | .rowDescription :: rest => firstError rest
  | .dataRow _ :: rest => firstError rest
  | .commandComplete _ :: rest => firstError rest

/-- The response stream of `TestConnSendBatchQueryError`: the first statement
yields the rows 0 to 4 and then fails with a division by zero. -/
def queryErrorWire : List Frame :=
  [.prepareAck, .bindAck, .rowDescription, .dataRow [0], .dataRow [1], .dataRow [2],
   .dataRow [3], .dataRow [4], .error 22012, .readyForNext]

/-- The response stream of `TestConnBeginBatchDeferredError`: the update returns
its row and completes, and the deferred constraint fails at synchronization. -/
def deferredErrorWire : List Frame :=
  [.prepareAck, .bindAck, .rowDescription, .dataRow [98, 3], .commandComplete ⟨.update, 1⟩,
   .error 23505, .readyForNext]

/-- The error that `Close` is going to return: the recorded terminal error, or
else the first error still unread on the wire. -/
def pending (s : PipelineSession) : Option Nat :=
  match s.terminal with
  | some code => some code
  | none => firstError s.wire

end Pipeline


/-! ## Batches and their response streams -/

namespace Pipeline

/-- Modelled from the spec: what the server answers to one queued statement; a
command result, or a row description, the data rows and the completion. -/
inductive StatementResult where
  | command (r : CommandResult)
  | rows (rs : List (List Int)) (r : CommandResult)
deriving DecidableEq, Repr

/-- Modelled from the spec: the response to one queued statement; a textual
target is prepared first and so acknowledged, a named target is only bound. -/
structure StatementResponse where
  prepared : Bool
  result : StatementResult
deriving DecidableEq, Repr

/-- Modelled from the spec: the frames of the result of one statement. -/
def resultFrames : StatementResult → List Frame
  | .command r => [.commandComplete r]
  | .rows rs r => .rowDescription :: (rs.map .dataRow ++ [.commandComplete r])

/-- Modelled from the spec: the frames the server sends for one queued
statement, in order. -/
def responseFrames (x : StatementResponse) : List Frame :=
  (if x.prepared then [.prepareAck, .bindAck] else [.bindAck]) ++ resultFrames x.result

/-- Modelled from the spec: the response stream of a whole batch; the responses
of the statements in program order and the synchronization acknowledgment. -/
def batchWire (batch : List StatementResponse) : List Frame :=
  batch.flatMap responseFrames ++ [.readyForNext]

/-- The caller's loop `for rows.Next() { rows.Scan(..) }`: the rows scanned
until `Next` returns false, and the session afterwards; `fuel` bounds the
number of calls of `Next`. -/
def collectRows : Nat → PipelineSession → List (List Int) × PipelineSession
  | 0, s => ([], s)
  | fuel + 1, s =>
    if (Next s).2 then
      match Scan (Next s).1 with
      | .ok cols => (cols :: (collectRows fuel (Next s).1).1, (collectRows fuel (Next s).1).2)
      | .error _ => ((collectRows fuel (Next s).1).1, (collectRows fuel (Next s).1).2)
    else ([], (Next s).1)

/-- What a caller observes from the accessor of one statement. -/
inductive Observed where
  | affected (r : CommandResult)
  | rowsRead (rs : List (List Int))
  | failed (e : CallError)
deriving DecidableEq, Repr

/-- The accessor call for one statement and what it shows: `ExecResults` for a
statement without rows; for a statement with rows `QueryResults` and the row
loop, or, when `viaRow` is set, `QueryRowResults` and its scan. -/
def consume (viaRow : Bool) (x : StatementResponse) (s : PipelineSession) :
    Observed × PipelineSession :=
  match x.result with
  | .command _ =>
    match ExecResults s with
    | (s1, .ok r) => (.affected r, s1)
    | (s1, .error e) => (.failed e, s1)
  | .rows _ _ =>
    if viaRow then
      match RowScan (QueryRowResults s) with
      | (s1, .ok cols) => (.rowsRead [cols], s1)
      | (s1, .error e) => (.failed e, s1)
    else
      match QueryResults s with
      | (s1, .ok _) =>
        (.rowsRead (collectRows (s1.wire.length + 1) s1).1, (collectRows (s1.wire.length + 1) s1).2)
      | (s1, .error e) => (.failed e, s1)

/-- The accessor calls for the statements of a batch, in order. -/
def consumeAll : List (Bool × StatementResponse) → PipelineSession →
    List Observed × PipelineSession
  | [], s => ([], s)
  | (viaRow, x) :: rest, s =>
    ((consume viaRow x s).1 :: (consumeAll rest (consume viaRow x s).2).1,
      (consumeAll rest (consume viaRow x s).2).2)

/-- What the accessor of a statement has to show: the command result, or the
rows in server order. -/
def expected (x : StatementResponse) : Observed :=
  match x.result with
  | .command r => .affected r
  | .rows rs _ => .rowsRead rs

/-- The batch of `TestConnSendBatch`: three inserts, the select of the three
ledger rows (the description `q1`, `q2`, `q3` as the number of its two bytes)
and the sum of the amounts. -/
def ledgerBatch : List StatementResponse :=
  [⟨true, .command ⟨.insert, 1⟩⟩, ⟨true, .command ⟨.insert, 1⟩⟩, ⟨true, .command ⟨.insert, 1⟩⟩,
   ⟨true, .rows [[1, 29009, 1], [2, 29010, 2], [3, 29011, 3]] ⟨.select, 3⟩⟩,
   ⟨true, .rows [[6]] ⟨.select, 1⟩⟩]

/-- The batch of `TestConnSendBatchWithPreparedStatement`: three executions of
the prepared `generate_series(0,5)`. -/
def preparedBatch : List StatementResponse :=
  List.replicate 3 ⟨false, .rows [[0], [1], [2], [3], [4], [5]] ⟨.select, 6⟩⟩

/-- The batch of `TestConnSendBatchCloseRowsPartiallyRead`: twice
`generate_series(0,5)`. -/
def seriesBatch : List StatementResponse :=
  List.replicate 2 ⟨true, .rows [[0], [1], [2], [3], [4], [5]] ⟨.select, 6⟩⟩

/-- The batch of `TestConnSendBatchQueryPartialReadInsert`: a select of three
rows and an insert of two rows. -/
def partialReadInsertBatch : List StatementResponse :=
  [⟨true, .rows [[1], [2], [3]] ⟨.select, 3⟩⟩, ⟨true, .command ⟨.insert, 2⟩⟩]

/-- The caller's loop `for i := 0; i < k; i++ { rows.Next(); rows.Scan(..) }`:
the rows scanned by `k` calls of `Next`, and the session afterwards. -/
def readRows : Nat → PipelineSession → List (List Int) × PipelineSession
  | 0, s => ([], s)
  | k + 1, s =>
    match Scan (Next s).1 with
    | .ok cols => (cols :: (readRows k (Next s).1).1, (readRows k (Next s).1).2)
    | .error _ => ((readRows k (Next s).1).1, (readRows k (Next s).1).2)

/-- The session after `QueryResults`, `k` row reads and an early close of the
row stream. -/
def closeAfterReading (k : Nat) (s : PipelineSession) : PipelineSession :=
  RowClose (readRows k (QueryResults s).1).2

/-- The accessor calls of `TestConnSendBatch`: `ExecResults` three times,
`QueryResults` with the row loop, and `QueryRowResults` with its scan. -/
def ledgerPlan : List (Bool × StatementResponse) :=
  [(false, ⟨true, .command ⟨.insert, 1⟩⟩), (false, ⟨true, .command ⟨.insert, 1⟩⟩),
   (false, ⟨true, .command ⟨.insert, 1⟩⟩),
   (false, ⟨true, .rows [[1, 29009, 1], [2, 29010, 2], [3, 29011, 3]] ⟨.select, 3⟩⟩),
   (true, ⟨true, .rows [[6]] ⟨.select, 1⟩⟩)]

end Pipeline

/-! ## Descriptions of the wire forms

Definitions that follow the words of the specification; the theorems below
compare the code with them. -/

namespace Pgtype

/-- The binary wire form of one element, as the specification words it: a
4-byte length of -1 and no payload for a null element (`none`), otherwise the
4-byte payload length followed by the payload. -/
def frame : Option Bytes → Bytes
  | none => WriteInt32 (-1)
  | some b => WriteInt32 b.length ++ b

/-- The element decoder applied to the payloads of a sequence of frames, in
order; the first error is the result. -/
def decodeFrames (c : Codecs) : List (Option Bytes) → Except Error (List Timestamptz)
  | [] => .ok []
  | f :: fs =>
    match c.TimestamptzDecodeBinary f with
    | .error e => .error e
    | .ok v =>
      match decodeFrames c fs with
      | .error e => .error e
      | .ok vs => .ok (v :: vs)

/-- The payload that the element encoder hands to the array encoder: `none`
when it reports null, otherwise the bytes it wrote.  An encoder error gives
`none` here; the theorems that use this assume there is none. -/
def binaryPayload (c : Codecs) (e : Timestamptz) : Option Bytes :=
  match c.TimestamptzEncodeBinary e with
  | .ok (false, b) => some b
  | _ => none

/-- Two element values agree: the same presence state, and the same instant
when present. -/
def sameElement (e e' : Timestamptz) : Prop :=
  e'.Status = e.Status ∧ (e.Status = .Present → e'.Time = e.Time)

instance (e e' : Timestamptz) : Decidable (sameElement e e') := by
  unfold sameElement
  exact inferInstance

/-- The product of the dimension lengths, as a mathematical integer. -/
def lengthProduct (dims : List ArrayDimension) : Int :=
  (dims.map (fun d => d.Length)).prod

/-- The source handed to the element text decoder for a token, as the
specification words it: absent for the literal `NULL`, otherwise the bytes of
the token. -/
def tokenSource (t : Bytes) : Option Bytes :=
  if t = nullLiteral then none else some t

/-- The repeat counts as the specification words them: for each position the
product of all dimension lengths from that position inward. -/
def suffixProducts : List ArrayDimension → List Int
  | [] => []
  | d :: rest => lengthProduct (d :: rest) :: suffixProducts rest

/-- An integer that a Go `int` holds without wrap-around (64-bit platforms). -/
def fitsInt (x : Int) : Prop := -9223372036854775808 ≤ x ∧ x < 9223372036854775808

instance (x : Int) : Decidable (fitsInt x) := by
  unfold fitsInt
  exact inferInstance

/-- Comma-separated concatenation. -/
def joinComma : List Bytes → Bytes
  | [] => []
  | [x] => x
  | x :: y :: rest => x ++ [44] ++ joinComma (y :: rest)

/-- The first `count` consecutive chunks of `size` entries of a list. -/
def chunks {α : Type} (size : Nat) : Nat → List α → List (List α)
  | 0, _ => []
  | count + 1, xs => xs.take size :: chunks size count (xs.drop size)

/-- Recursive brace emission, as the specification words it: over no dimension
the rendering of a single element is its text; over the lengths `l :: rest` it
is an opening brace, the comma-separated renderings over `rest` of the `l`
equal consecutive chunks of the list, and a closing brace. -/
def render : List Nat → List Bytes → Bytes
  | [], ts => ts.headD []
  | l :: rest, ts => [123] ++ joinComma ((chunks rest.prod l ts).map (render rest)) ++ [125]

/-- The text written for one element: `NULL` when the element encoder reports
null, otherwise its quoted-if-needed text encoding. -/
def elementText (c : Codecs) (e : Timestamptz) : Bytes :=
  match c.TimestamptzEncodeText e with
  | .ok (true, _) => nullLiteral
  | .ok (false, b) => c.QuoteArrayElementIfNeeded b
  | .error _ => []

/-- The token that stands for one element in the array literal: `NULL` when
the element encoder reports null, otherwise its text encoding. -/
def elementToken (c : Codecs) (e : Timestamptz) : Bytes :=
  match c.TimestamptzEncodeText e with
  | .ok (true, _) => nullLiteral
  | .ok (false, b) => b
  | .error _ => []

/-- The dimension lengths as natural numbers. -/
def lengthsOf (dims : List ArrayDimension) : List Nat :=
  dims.map (fun d => d.Length.toNat)

/-- The array literal of a Present array, as the specification words it: `{}`
for an array without dimensions, otherwise the dimension decoration followed by
the recursive brace rendering of the element texts. -/
def arrayLiteral (c : Codecs) (a : TimestamptzArray) : Bytes :=
  if a.Dimensions = [] then [123, 125]
  else c.EncodeTextArrayDimensions a.Dimensions ++
    render (lengthsOf a.Dimensions) (a.Elements.map (elementText c))

/-- The braces that one brace loop of `EncodeText` writes at flat index `i` for
a table of positive entries: one `ch` for every entry that divides `i`. -/
def braces (ch : Nat) (i : Nat) (counts : List Nat) : Bytes :=
  counts.flatMap (fun dec => if i % dec = 0 then [ch] else [])

/-- What `EncodeText` writes for the element at flat index `i`, the separating
comma apart: the opening braces, the text, the closing braces. -/
def piece (counts : List Nat) (i : Nat) (t : Bytes) : Bytes :=
  braces 123 i counts ++ t ++ braces 125 (i + 1) counts

/-- The pieces of consecutive elements, the first at flat index `i`. -/
def pieces (counts : List Nat) : Nat → List Bytes → List Bytes
  | _, [] => []
  | i, t :: ts => piece counts i t :: pieces counts (i + 1) ts

/-- What the element loop of `EncodeText` writes for consecutive elements, the
first at flat index `i`. -/
def flatBody (counts : List Nat) : Nat → List Bytes → Bytes
  | _, [] => []
  | i, t :: ts => (if 0 < i then [44] else []) ++ piece counts i t ++ flatBody counts (i + 1) ts

/-- The products of the lengths from each position inward. -/
def natProducts : List Nat → List Nat
  | [] => []
  | l :: rest => (l :: rest).prod :: natProducts rest

/-- The nesting depth after reading a text from depth `d`: an opening brace
goes one level down, a closing brace one level up; `none` when a closing brace
has no opening brace before it. -/
def braceDepth : Bytes → Nat → Option Nat
  | [], d => some d
  | b :: rest, d =>
    if b = 123 then braceDepth rest (d + 1)
    else if b = 125 then (if d = 0 then none else braceDepth rest (d - 1))
    else braceDepth rest d

/-- A text without brace and comma bytes. -/
def plainText (t : Bytes) : Prop := ∀ b ∈ t, b ≠ 123 ∧ b ≠ 125 ∧ b ≠ 44

instance (t : Bytes) : Decidable (plainText t) := by
  unfold plainText
  exact inferInstance

end Pgtype

/-! ## Sample values -/

namespace Pgtype

/-- A two-by-two array with one null element. -/
def sampleArray : TimestamptzArray :=
  ⟨[⟨5, .Present⟩, ⟨0, .Null⟩, ⟨-7, .Present⟩, ⟨123456, .Present⟩], [⟨2, 1⟩, ⟨2, 1⟩], .Present⟩

/-- The binary form of `sampleArray` under the reference collaborators: the
header of 28 bytes, then the four element frames. -/
def sampleBinary : Bytes :=
  [0, 0, 0, 2, 0, 0, 0, 1, 0, 0, 4, 160, 0, 0, 0, 2, 0, 0, 0, 1, 0, 0, 0, 2, 0, 0, 0, 1,
   0, 0, 0, 8, 0, 0, 0, 0, 0, 0, 0, 5,
   255, 255, 255, 255,
   0, 0, 0, 8, 255, 255, 255, 255, 255, 255, 255, 249,
   0, 0, 0, 8, 0, 0, 0, 0, 0, 1, 226, 64]

/-- The payloads of the four element frames of `sampleBinary`. -/
def sampleFrames : List (Option Bytes) :=
  [some [0, 0, 0, 0, 0, 0, 0, 5], none, some [255, 255, 255, 255, 255, 255, 255, 249],
   some [0, 0, 0, 0, 0, 1, 226, 64]]

/-- A value whose status is null although its fields are set. -/
def sampleNullArray : TimestamptzArray :=
  ⟨[⟨5, .Present⟩], [⟨1, 1⟩], .Null⟩

/-- A value whose status is undefined although its fields are set. -/
def sampleUndefinedArray : TimestamptzArray :=
  ⟨[⟨5, .Present⟩], [⟨1, 1⟩], .Undefined⟩

/-- A binary array whose header announces 65536 by 65536 elements and whose
body is empty: the header of `refArrayHeaderEncodeBinary` for two dimensions of
length 65536. -/
def overflowBinary : Bytes :=
  [0, 0, 0, 2, 0, 0, 0, 0, 0, 0, 4, 160, 0, 1, 0, 0, 0, 0, 0, 1, 0, 1, 0, 0, 0, 0, 0, 1]

/-- Three dimensions of the largest `int32` length. -/
def hugeDimensions : List ArrayDimension :=
  [⟨2147483647, 1⟩, ⟨2147483647, 1⟩, ⟨2147483647, 1⟩]

/-- The text form of `sampleArray` under the reference collaborators, the
literal `{{5,NULL},{-7,123456}}`. -/
def sampleText : Bytes :=
  [123, 123, 53, 44, 78, 85, 76, 76, 125, 44, 123, 45, 55, 44, 49, 50, 51, 52, 53, 54, 125, 125]

/-- An array of 65536 by 32768 null elements. -/
def hugeArray : TimestamptzArray :=
  ⟨List.replicate 2147483648 ⟨0, .Null⟩, [⟨65536, 1⟩, ⟨32768, 1⟩], .Present⟩

/-- The header that `refArrayHeaderEncodeBinary` writes for `hugeArray`. -/
def hugeHeaderBytes : Bytes :=
  [0, 0, 0, 2, 0, 0, 0, 1, 0, 0, 4, 160, 0, 1, 0, 0, 0, 0, 0, 1, 0, 0, 128, 0, 0, 0, 0, 1]

/-- A Present array with one dimension of length 0 and no element. -/
def zeroLengthArray : TimestamptzArray :=
  ⟨[], [⟨0, 1⟩], .Present⟩

/-- A Present array with one element and no dimension. -/
def noDimensionsArray : TimestamptzArray :=
  ⟨[⟨5, .Present⟩], [], .Present⟩

/-- A Present array of two elements whose second element is undefined. -/
def undefinedElementArray : TimestamptzArray :=
  ⟨[⟨5, .Present⟩, ⟨0, .Undefined⟩], [⟨2, 1⟩], .Present⟩

/-- A Present array of one element with four dimensions of length 65536. -/
def wrappedTableArray : TimestamptzArray :=
  ⟨[⟨5, .Present⟩], [⟨65536, 1⟩, ⟨65536, 1⟩, ⟨65536, 1⟩, ⟨65536, 1⟩], .Present⟩

/-- The header of a binary array with one dimension of length 1 and nothing
behind it. -/
def headerOnlyBinary : Bytes :=
  [0, 0, 0, 1, 0, 0, 0, 0, 0, 0, 4, 160, 0, 0, 0, 1, 0, 0, 0, 1]

/-- The header of a binary array with one dimension of length 1, followed by
two bytes. -/
def shortPrefixBinary : Bytes :=
  [0, 0, 0, 1, 0, 0, 0, 0, 0, 0, 4, 160, 0, 0, 0, 1, 0, 0, 0, 1, 0, 0]

/-- The header of a binary array with one dimension of length 1, followed by
the length prefix 8 and three payload bytes. -/
def shortPayloadBinary : Bytes :=
  [0, 0, 0, 1, 0, 0, 0, 0, 0, 0, 4, 160, 0, 0, 0, 1, 0, 0, 0, 1, 0, 0, 0, 8, 1, 2, 3]

/-- The header of a binary array with one dimension of length -1. -/
def negativeCountBinary : Bytes :=
  [0, 0, 0, 1, 0, 0, 0, 0, 0, 0, 4, 160, 255, 255, 255, 255, 0, 0, 0, 1]

/-- A slice of three times. -/
def sampleTimes : List Int := [5, -7, 123456]

end Pgtype

namespace Pgtype

/-- A slice of 2^31 times, all the zero instant. -/
def manyTimes : List Int := List.replicate 2147483648 0

/-- The elements that the reference conversion gives for `sampleTimes`. -/
def sampleConverted : List Timestamptz := [⟨5, .Present⟩, ⟨-7, .Present⟩, ⟨123456, .Present⟩]

end Pgtype

/-! ## Machine integers -/

namespace Pgtype

theorem WriteInt32_length (n : Int) : (WriteInt32 n).length = 4 := by
  simp [WriteInt32]

theorem BigEndianUint32_WriteInt32 (n : Int) (rest : Bytes) :
    BigEndianUint32 (WriteInt32 n ++ rest) = some (n % 4294967296).toNat := by
  have h0 : 0 ≤ n % 4294967296 := Int.emod_nonneg _ (by decide)
  have h1 : n % 4294967296 < 4294967296 := Int.emod_lt_of_pos _ (by decide)
  have hu : (n % 4294967296).toNat < 4294967296 := by omega
  simp only [WriteInt32, List.cons_append, List.nil_append, BigEndianUint32, Option.some.injEq]
  omega

theorem int32_of_range (x : Int) (h0 : -2147483648 ≤ x) (h1 : x < 2147483648) : int32 x = x := by
  unfold int32
  omega

theorem int32_emod (x : Int) : int32 (x % 4294967296) = int32 x := by
  unfold int32
  omega

theorem int32_add_mul (x k : Int) : int32 (x + 4294967296 * k) = int32 x := by
  unfold int32
  omega

theorem int32_eq_add_mul (x : Int) : ∃ k : Int, int32 x = x + 4294967296 * k := by
  refine ⟨-((x + 2147483648) / 4294967296), ?_⟩
  unfold int32
  omega

theorem int32_mul_int32 (x y : Int) : int32 (int32 x * y) = int32 (x * y) := by
  obtain ⟨k, hk⟩ := int32_eq_add_mul x
  rw [hk]
  have : (x + 4294967296 * k) * y = x * y + 4294967296 * (k * y) := by ring
  rw [this, int32_add_mul]

theorem WriteInt32_int32 (x : Int) : WriteInt32 (int32 x) = WriteInt32 x := by
  have : int32 x % 4294967296 = x % 4294967296 := by
    unfold int32
    omega
  simp [WriteInt32, this]

theorem elementCount_eq (d0 : ArrayDimension) (ds : List ArrayDimension) (h : ds ≠ []) :
    elementCount d0 ds = int32 (lengthProduct (d0 :: ds)) := by
  have key : ∀ (l : List ArrayDimension) (x : Int), l ≠ [] →
      l.foldl (fun n d => int32 (n * d.Length)) x = int32 (x * lengthProduct l) := by
    intro l
    induction l with
    | nil => intro x hx; exact absurd rfl hx
    | cons d rest ih =>
      intro x _
      cases rest with
      | nil => simp [lengthProduct]
      | cons d' rest' =>
        have := ih (int32 (x * d.Length)) (by simp)
        simp only [List.foldl_cons] at this ⊢
        rw [this, int32_mul_int32]
        simp [lengthProduct, mul_assoc]
  unfold elementCount
  rw [key ds d0.Length h]
  simp [lengthProduct]

theorem elementCount_of_product (d0 : ArrayDimension) (ds : List ArrayDimension) (n : Nat)
    (hp : lengthProduct (d0 :: ds) = n) (hn : n < 2147483648) :
    elementCount d0 ds = n := by
  cases ds with
  | nil => simpa [elementCount, lengthProduct] using hp
  | cons d rest =>
    rw [elementCount_eq d0 (d :: rest) (by simp), hp]
    exact int32_of_range _ (by omega) (by omega)

end Pgtype

/-! ## The element loops of the binary codec -/

namespace Pgtype

theorem frame_length (f : Option Bytes) : 4 ≤ (frame f).length := by
  cases f <;> simp [frame, WriteInt32]

theorem decodeElements_null (c : Codecs) (src : Bytes) (n rp : Nat) (tail : Bytes)
    (h : src.drop rp = frame none ++ tail) :
    decodeElements c src (n + 1) rp =
      (match c.TimestamptzDecodeBinary none with
        | .error e => .error (.err e)
        | .ok v =>
          match decodeElements c src n (rp + 4) with
          | .error f => .error f
          | .ok vs => .ok (v :: vs)) := by
  have hu : BigEndianUint32 (src.drop rp) = some 4294967295 := by
    rw [h, frame, BigEndianUint32_WriteInt32]
    rfl
  have hneg : ¬ (0 : Int) ≤ int32 ((4294967295 : Nat) : Int) := by
    unfold int32
    omega
  rw [decodeElements, hu]
  simp only [hneg, if_false]

theorem decodeElements_payload (c : Codecs) (src : Bytes) (n rp : Nat) (b tail : Bytes)
    (hb : b.length < 2147483648) (h : src.drop rp = frame (some b) ++ tail) :
    decodeElements c src (n + 1) rp =
      (match c.TimestamptzDecodeBinary (some b) with
        | .error e => .error (.err e)
        | .ok v =>
          match decodeElements c src n (rp + 4 + b.length) with
          | .error f => .error f
          | .ok vs => .ok (v :: vs)) := by
  have hmod : ((b.length : Int) % 4294967296).toNat = b.length := by omega
  have hu : BigEndianUint32 (src.drop rp) = some b.length := by
    rw [h, frame, List.append_assoc, BigEndianUint32_WriteInt32, hmod]
  have hi : int32 ((b.length : Nat) : Int) = b.length :=
    int32_of_range _ (by omega) (by omega)
  have hlen : (src.drop rp).length = 4 + b.length + tail.length := by
    rw [h]
    simp [frame, WriteInt32_length]
    omega
  have hle : rp + 4 + b.length ≤ src.length := by
    rw [List.length_drop] at hlen
    omega
  have hdrop : src.drop (rp + 4) = b ++ tail := by
    have : src.drop (rp + 4) = (src.drop rp).drop 4 := by
      rw [List.drop_drop]
    rw [this, h]
    simp [frame, WriteInt32]
  rw [decodeElements, hu]
  simp only [hi, Int.toNat_ofNat, Int.natCast_nonneg, if_true, hle, hdrop, List.take_left]

/-- The element loop run over a region that holds the frames `fs` followed by
anything: it decodes the payloads of `fs` in order and then continues right
after the last of them. -/
theorem decodeElements_frames (c : Codecs) (fs : List (Option Bytes)) :
    ∀ (src : Bytes) (rp m : Nat) (tail : Bytes),
      (∀ b, some b ∈ fs → b.length < 2147483648) →
      src.drop rp = fs.flatMap frame ++ tail →
      decodeElements c src (fs.length + m) rp =
        (match decodeFrames c fs with
          | .error e => .error (.err e)
          | .ok vs =>
            match decodeElements c src m (rp + (fs.flatMap frame).length) with
            | .error f => .error f
            | .ok ws => .ok (vs ++ ws)) := by
  induction fs with
  | nil =>
    intro src rp m tail _ _
    simp only [List.length_nil, Nat.zero_add, decodeFrames, List.flatMap_nil, Nat.add_zero,
      List.nil_append]
    cases decodeElements c src m rp <;> rfl
  | cons f rest ih =>
    intro src rp m tail hlen hsrc
    have hlen' : ∀ b, some b ∈ rest → b.length < 2147483648 :=
      fun b hb => hlen b (List.mem_cons_of_mem _ hb)
    have hsrc' : src.drop rp = frame f ++ (rest.flatMap frame ++ tail) := by
      rw [hsrc]
      simp [List.flatMap_cons, List.append_assoc]
    have hrp : rp ≤ src.length := by
      by_contra hcon
      have h0 : src.drop rp = [] := List.drop_of_length_le (by omega)
      have h4 := frame_length f
      rw [h0] at hsrc'
      have := congrArg List.length hsrc'
      simp at this
      omega
    have hnext : src.drop (rp + (frame f).length) = rest.flatMap frame ++ tail := by
      have : src.drop (rp + (frame f).length) = (src.drop rp).drop (frame f).length := by
        rw [List.drop_drop]
      rw [this, hsrc', List.drop_left]
    have hcount : (f :: rest).length + m = (rest.length + m) + 1 := by
      simp
      omega
    rw [hcount]
    cases f with
    | none =>
      rw [decodeElements_null c src _ rp _ hsrc']
      have h4 : (frame none).length = 4 := by simp [frame, WriteInt32_length]
      rw [h4] at hnext
      rw [ih src (rp + 4) m tail hlen' hnext]
      simp only [decodeFrames, List.flatMap_cons, List.length_append, h4]
      cases c.TimestamptzDecodeBinary none with
      | error e => rfl
      | ok v =>
        simp only
        cases decodeFrames c rest with
        | error e => rfl
        | ok vs =>
          simp only [Nat.add_assoc]
          cases decodeElements c src m (rp + (4 + (rest.flatMap frame).length)) <;> rfl
    | some b =>
      have hb := hlen b (List.mem_cons_self _ _)
      rw [decodeElements_payload c src _ rp b _ hb hsrc']
      have h4 : (frame (some b)).length = 4 + b.length := by simp [frame, WriteInt32_length]
      rw [h4, ← Nat.add_assoc] at hnext
      rw [ih src (rp + 4 + b.length) m tail hlen' hnext]
      simp only [decodeFrames, List.flatMap_cons, List.length_append, h4]
      cases c.TimestamptzDecodeBinary (some b) with
      | error e => rfl
      | ok v =>
        simp only
        cases decodeFrames c rest with
        | error e => rfl
        | ok vs =>
          simp only [Nat.add_assoc]
          cases decodeElements c src m (rp + (4 + (b.length + (rest.flatMap frame).length))) <;> rfl

theorem decodeElements_zero (c : Codecs) (src : Bytes) (rp : Nat) :
    decodeElements c src 0 rp = .ok [] := by
  rw [decodeElements]

/-- The element loop run over exactly the frames `fs`. -/
theorem decodeElements_all (c : Codecs) (fs : List (Option Bytes)) (src : Bytes) (rp : Nat)
    (tail : Bytes) (hlen : ∀ b, some b ∈ fs → b.length < 2147483648)
    (hsrc : src.drop rp = fs.flatMap frame ++ tail) :
    decodeElements c src fs.length rp =
      (match decodeFrames c fs with
        | .error e => .error (.err e)
        | .ok vs => .ok vs) := by
  have := decodeElements_frames c fs src rp 0 tail hlen hsrc
  rw [Nat.add_zero, decodeElements_zero] at this
  rw [this]
  cases decodeFrames c fs <;> simp

end Pgtype

namespace Pgtype

theorem encodeBinaryElements_ok (c : Codecs) (es : List Timestamptz) :
    ∀ (w : Bytes), (∀ e ∈ es, ∃ p, c.TimestamptzEncodeBinary e = .ok p) →
      encodeBinaryElements c es w =
        ⟨w ++ es.flatMap (fun e => frame (binaryPayload c e)), false, .returned none⟩ := by
  induction es with
  | nil => intro w _; simp [encodeBinaryElements]
  | cons e rest ih =>
    intro w h
    obtain ⟨⟨nul, b⟩, hp⟩ := h e (List.mem_cons_self _ _)
    have hrest : ∀ e ∈ rest, ∃ p, c.TimestamptzEncodeBinary e = .ok p :=
      fun x hx => h x (List.mem_cons_of_mem _ hx)
    rw [encodeBinaryElements, hp]
    cases nul with
    | true =>
      simp only [if_true]
      rw [ih _ hrest]
      simp [binaryPayload, hp, frame, List.flatMap_cons, List.append_assoc]
    | false =>
      simp only [Bool.false_eq_true, if_false]
      rw [ih _ hrest, WriteInt32_int32]
      simp [binaryPayload, hp, frame, List.flatMap_cons, List.append_assoc]

theorem encodeBinary_present (c : Codecs) (a : TimestamptzArray) (oid : Int)
    (hP : a.Status = .Present)
    (henc : ∀ e ∈ a.Elements, ∃ p, c.TimestamptzEncodeBinary e = .ok p) :
    encodeBinary c a oid =
      ⟨c.ArrayHeaderEncodeBinary
          ⟨a.Elements.any (fun e => decide (e.Status = .Null)), oid, a.Dimensions⟩ ++
        a.Elements.flatMap (fun e => frame (binaryPayload c e)), false, .returned none⟩ := by
  unfold encodeBinary
  rw [hP]
  simp only
  rw [encodeBinaryElements_ok c a.Elements _ henc]

end Pgtype

/-! ## The element loop of the text decoder and the repeat-count table -/

namespace Pgtype

theorem decodeTextElements_ok_iff (c : Codecs) (toks : List Bytes) :
    ∀ es, decodeTextElements c toks = .ok es ↔
      List.Forall₂ (fun t e => c.TimestamptzDecodeText (tokenSource t) = .ok e) toks es := by
  induction toks with
  | nil =>
    intro es
    simp only [decodeTextElements, Except.ok.injEq, List.forall₂_nil_left_iff]
    exact eq_comm
  | cons t rest ih =>
    intro es
    have hsrc : (if t ≠ nullLiteral then some t else none) = tokenSource t := by
      unfold tokenSource
      by_cases h : t = nullLiteral <;> simp [h]
    rw [decodeTextElements, hsrc]
    cases hd : c.TimestamptzDecodeText (tokenSource t) with
    | error e =>
      simp only [reduceCtorEq, false_iff]
      intro hf
      cases hf with
      | cons h _ => rw [hd] at h; exact absurd h (by simp)
    | ok v =>
      simp only
      cases hr : decodeTextElements c rest with
      | error e =>
        simp only [reduceCtorEq, false_iff]
        intro hf
        cases hf with
        | cons _ h2 =>
          have := (ih _).2 h2
          rw [hr] at this
          exact absurd this (by simp)
      | ok vs =>
        simp only [Except.ok.injEq]
        constructor
        · intro h
          subst h
          exact List.Forall₂.cons hd ((ih vs).1 hr)
        · intro hf
          cases hf with
          | cons h1 h2 =>
            rw [hd] at h1
            have h3 := (ih _).2 h2
            rw [hr] at h3
            simp only [Except.ok.injEq] at h1 h3
            rw [h1, h3]

theorem decodeTextElements_error_iff (c : Codecs) (toks : List Bytes) :
    (∃ e, decodeTextElements c toks = .error e) ↔
      ∃ t e, t ∈ toks ∧ c.TimestamptzDecodeText (tokenSource t) = .error e := by
  induction toks with
  | nil => simp [decodeTextElements]
  | cons t rest ih =>
    have hsrc : (if t ≠ nullLiteral then some t else none) = tokenSource t := by
      unfold tokenSource
      by_cases h : t = nullLiteral <;> simp [h]
    rw [decodeTextElements, hsrc]
    cases hd : c.TimestamptzDecodeText (tokenSource t) with
    | error e =>
      simp only [Except.error.injEq, exists_eq', true_iff]
      exact ⟨t, e, List.mem_cons_self _ _, hd⟩
    | ok v =>
      simp only
      constructor
      · intro ⟨e, he⟩
        cases hr : decodeTextElements c rest with
        | error e' =>
          obtain ⟨t', e'', hm, ht⟩ := ih.1 ⟨e', hr⟩
          exact ⟨t', e'', List.mem_cons_of_mem _ hm, ht⟩
        | ok vs => rw [hr] at he; exact absurd he (by simp)
      · intro ⟨t', e, hm, ht⟩
        rcases List.mem_cons.1 hm with rfl | hm'
        · rw [hd] at ht; exact absurd ht (by simp)
        · obtain ⟨e', he'⟩ := ih.2 ⟨t', e, hm', ht⟩
          exact ⟨e', by rw [he']⟩

theorem goInt_of_fits (x : Int) (h : fitsInt x) : goInt x = x := by
  unfold fitsInt at h
  unfold goInt
  omega

theorem dimElemCounts_eq_suffixProducts (dims : List ArrayDimension) :
    (∀ k, k < dims.length → fitsInt (lengthProduct (dims.drop k))) →
      dimElemCounts dims = suffixProducts dims := by
  induction dims with
  | nil => intro _; rfl
  | cons d rest ih =>
    intro h
    have hrest : ∀ k, k < rest.length → fitsInt (lengthProduct (rest.drop k)) := by
      intro k hk
      have := h (k + 1) (by simp; omega)
      simpa using this
    have h0 : fitsInt (lengthProduct (d :: rest)) := by
      have := h 0 (by simp)
      simpa using this
    rw [dimElemCounts, ih hrest]
    cases rest with
    | nil => simp [suffixProducts, lengthProduct]
    | cons d' rest' =>
      simp only [suffixProducts]
      have : d.Length * lengthProduct (d' :: rest') = lengthProduct (d :: d' :: rest') := by
        simp [lengthProduct]
      rw [this, goInt_of_fits _ h0]

theorem suffixProducts_getElem? (dims : List ArrayDimension) :
    ∀ k, k < dims.length → (suffixProducts dims)[k]? = some (lengthProduct (dims.drop k)) := by
  induction dims with
  | nil => intro k hk; simp at hk
  | cons d rest ih =>
    intro k hk
    cases k with
    | zero => simp [suffixProducts]
    | succ k =>
      have := ih k (by simpa using hk)
      simpa [suffixProducts] using this

theorem suffixProducts_getLast? (dims : List ArrayDimension) :
    (suffixProducts dims).getLast? = dims.getLast?.map (fun d => d.Length) := by
  induction dims with
  | nil => rfl
  | cons d rest ih =>
    cases rest with
    | nil => simp [suffixProducts, lengthProduct]
    | cons d' rest' =>
      have : suffixProducts (d :: d' :: rest') =
          lengthProduct (d :: d' :: rest') :: lengthProduct (d' :: rest') :: suffixProducts rest' := rfl
      rw [this, List.getLast?_cons_cons, List.getLast?_cons_cons]
      exact ih

theorem decodeElements_length (c : Codecs) (src : Bytes) :
    ∀ (n rp : Nat) (vs : List Timestamptz), decodeElements c src n rp = .ok vs → vs.length = n := by
  intro n
  induction n with
  | zero =>
    intro rp vs h
    rw [decodeElements] at h
    simp only [Except.ok.injEq] at h
    rw [← h]
    rfl
  | succ n ih =>
    intro rp vs h
    rw [decodeElements] at h
    split at h
    · exact absurd h (by simp)
    · simp only at h
      split at h
      · split at h
        · split at h
          · exact absurd h (by simp)
          · split at h
            · exact absurd h (by simp)
            · rename_i ws hws
              simp only [Except.ok.injEq] at h
              rw [← h, List.length_cons, ih _ _ hws]
        · exact absurd h (by simp)
      · split at h
        · exact absurd h (by simp)
        · split at h
          · exact absurd h (by simp)
          · rename_i ws hws
            simp only [Except.ok.injEq] at h
            rw [← h, List.length_cons, ih _ _ hws]

/-- What a successful `DecodeBinary` of a non-nil source returns: status
Present, the dimensions of the decoded header, no element for a header without
dimensions, and otherwise as many elements as the `int32` running product of
the dimension lengths says. -/
theorem DecodeBinary_success (c : Codecs) (dst r : TimestamptzArray) (src : Bytes)
    (h : DecodeBinary c dst (some src) = (r, .returned none)) :
    r.Status = .Present ∧
    ∃ hdr rp, c.ArrayHeaderDecodeBinary src = .ok (hdr, rp) ∧ r.Dimensions = hdr.Dimensions ∧
      (hdr.Dimensions = [] → r.Elements = []) ∧
      (∀ d0 ds, hdr.Dimensions = d0 :: ds → (r.Elements.length : Int) = elementCount d0 ds) := by
  cases hh : c.ArrayHeaderDecodeBinary src with
  | error e => simp [DecodeBinary, hh] at h
  | ok p =>
    obtain ⟨hdr, rp⟩ := p
    cases hd : hdr.Dimensions with
    | nil =>
      simp only [DecodeBinary, hh, hd, Prod.mk.injEq, and_true] at h
      subst h
      exact ⟨rfl, hdr, rp, rfl, hd.symm, fun _ => rfl, fun d0 ds hc => by simp [hd] at hc⟩
    | cons d0 ds =>
      by_cases hneg : elementCount d0 ds < 0
      · simp [DecodeBinary, hh, hd, hneg] at h
      · cases hel : decodeElements c src (elementCount d0 ds).toNat rp with
        | error f =>
          cases f <;> simp [DecodeBinary, hh, hd, hneg, hel] at h
        | ok es =>
          simp only [DecodeBinary, hh, hd, hneg, if_false, hel, Prod.mk.injEq, and_true] at h
          subst h
          refine ⟨rfl, hdr, rp, rfl, hd.symm, fun hc => by simp [hd] at hc, ?_⟩
          intro d0' ds' hc
          rw [hd] at hc
          simp only [List.cons.injEq] at hc
          obtain ⟨rfl, rfl⟩ := hc
          have := decodeElements_length c src _ _ _ hel
          simp only [this]
          omega

end Pgtype

/-! ## Binary round trip -/

namespace Pgtype

theorem binaryPayload_of_ok (c : Codecs) (e : Timestamptz) (nul : Bool) (b : Bytes)
    (h : c.TimestamptzEncodeBinary e = .ok (nul, b)) :
    binaryPayload c e = if nul then none else some b := by
  unfold binaryPayload
  rw [h]
  cases nul <;> rfl

theorem decodeFrames_of_codec (c : Codecs) (es : List Timestamptz)
    (h : ∀ e ∈ es, ∃ nul b e', c.TimestamptzEncodeBinary e = .ok (nul, b) ∧
      b.length < 2147483648 ∧
      c.TimestamptzDecodeBinary (if nul then none else some b) = .ok e' ∧ sameElement e e') :
    ∃ es', decodeFrames c (es.map (binaryPayload c)) = .ok es' ∧
      List.Forall₂ sameElement es es' := by
  induction es with
  | nil => exact ⟨[], rfl, List.Forall₂.nil⟩
  | cons e rest ih =>
    obtain ⟨nul, b, e', henc, _, hdec, hsame⟩ := h e (List.mem_cons_self _ _)
    obtain ⟨rest', hrest, hf⟩ := ih (fun x hx => h x (List.mem_cons_of_mem _ hx))
    refine ⟨e' :: rest', ?_, List.Forall₂.cons hsame hf⟩
    simp only [List.map_cons, decodeFrames, binaryPayload_of_ok c e nul b henc, hdec, hrest]

theorem payload_length_of_codec (c : Codecs) (es : List Timestamptz)
    (h : ∀ e ∈ es, ∃ nul b e', c.TimestamptzEncodeBinary e = .ok (nul, b) ∧
      b.length < 2147483648 ∧
      c.TimestamptzDecodeBinary (if nul then none else some b) = .ok e' ∧ sameElement e e') :
    ∀ b, some b ∈ es.map (binaryPayload c) → b.length < 2147483648 := by
  intro b hb
  obtain ⟨e, he, hpe⟩ := List.mem_map.1 hb
  obtain ⟨nul, b', e', henc, hlen, _, _⟩ := h e he
  rw [binaryPayload_of_ok c e nul b' henc] at hpe
  cases nul with
  | true => simp at hpe
  | false =>
    simp only [Bool.false_eq_true, if_false, Option.some.injEq] at hpe
    rw [← hpe]
    exact hlen

theorem flatMap_frame_payload (c : Codecs) (es : List Timestamptz) :
    es.flatMap (fun e => frame (binaryPayload c e)) = (es.map (binaryPayload c)).flatMap frame := by
  induction es with
  | nil => rfl
  | cons e rest ih => simp [List.flatMap_cons, ih]

end Pgtype

/-! ## The element loop of the text encoder -/

namespace Pgtype

theorem braces_cons (ch i c0 : Nat) (cs : List Nat) :
    braces ch i (c0 :: cs) = (if i % c0 = 0 then [ch] else []) ++ braces ch i cs := by
  simp [braces, List.flatMap_cons]

theorem braces_nil (ch i : Nat) : braces ch i [] = [] := rfl

theorem writeBraces_nat (ch : Nat) (i : Nat) (counts : List Nat) :
    ∀ (w : Bytes), (∀ d ∈ counts, 0 < d) →
      writeBraces ch (i : Int) (counts.map (fun (d : Nat) => (d : Int))) w = (w ++ braces ch i counts, false) := by
  induction counts with
  | nil => intro w _; simp [writeBraces, braces_nil]
  | cons d rest ih =>
    intro w h
    have hd : 0 < d := h d (List.mem_cons_self _ _)
    have hrest : ∀ x ∈ rest, 0 < x := fun x hx => h x (List.mem_cons_of_mem _ hx)
    have hne : ¬ ((d : Int) = 0) := by omega
    have hmod : Int.tmod (i : Int) (d : Int) = ((i % d : Nat) : Int) := rfl
    simp only [List.map_cons, writeBraces, hne, if_false, hmod, braces_cons]
    by_cases hz : i % d = 0
    · simp only [hz, Nat.cast_zero, if_true]
      rw [ih _ hrest, List.append_assoc]
    · have hz' : ¬ (((i % d : Nat) : Int) = 0) := by omega
      simp only [hz, hz', if_false]
      rw [ih _ hrest]
      simp

theorem elementText_of_ok (c : Codecs) (e : Timestamptz) (nul : Bool) (b : Bytes)
    (h : c.TimestamptzEncodeText e = .ok (nul, b)) :
    elementText c e = if nul then nullLiteral else c.QuoteArrayElementIfNeeded b := by
  unfold elementText
  rw [h]
  cases nul <;> rfl

theorem encodeTextElements_ok (c : Codecs) (counts : List Nat) (hpos : ∀ d ∈ counts, 0 < d)
    (es : List Timestamptz) :
    ∀ (i : Nat) (w : Bytes), (∀ e ∈ es, ∃ p, c.TimestamptzEncodeText e = .ok p) →
      encodeTextElements c (counts.map (fun (d : Nat) => (d : Int))) i es w =
        ⟨w ++ flatBody counts i (es.map (elementText c)), false, .returned none⟩ := by
  induction es with
  | nil => intro i w _; simp [encodeTextElements, flatBody]
  | cons e rest ih =>
    intro i w h
    obtain ⟨⟨nul, b⟩, hp⟩ := h e (List.mem_cons_self _ _)
    have hrest : ∀ x ∈ rest, ∃ p, c.TimestamptzEncodeText x = .ok p :=
      fun x hx => h x (List.mem_cons_of_mem _ hx)
    have hsucc : ((i : Int) + 1) = ((i + 1 : Nat) : Int) := by push_cast; rfl
    rw [encodeTextElements]
    simp only [writeBraces_nat 123 i counts _ hpos, hp, hsucc,
      writeBraces_nat 125 (i + 1) counts _ hpos]
    rw [ih (i + 1) _ hrest]
    simp only [List.map_cons, flatBody, piece, elementText_of_ok c e nul b hp]
    by_cases hi : 0 < i <;> cases nul <;> simp [hi, List.append_assoc]

/-! ## Flat brace bookkeeping and recursive brace emission -/

theorem flatBody_eq (counts : List Nat) (ts : List Bytes) :
    ∀ i, flatBody counts i ts =
      (if 0 < i ∧ ts ≠ [] then [44] else []) ++ joinComma (pieces counts i ts) := by
  induction ts with
  | nil => intro i; simp [flatBody, pieces, joinComma]
  | cons t rest ih =>
    intro i
    rw [flatBody, ih (i + 1)]
    cases rest with
    | nil => by_cases hi : 0 < i <;> simp [hi, pieces, joinComma]
    | cons t' rest' =>
      by_cases hi : 0 < i <;> simp [hi, pieces, joinComma, List.append_assoc]

theorem flatBody_zero (counts : List Nat) (ts : List Bytes) :
    flatBody counts 0 ts = joinComma (pieces counts 0 ts) := by
  rw [flatBody_eq]
  simp

theorem braces_eq_replicate (ch i : Nat) (cs : List Nat) :
    braces ch i cs = List.replicate (braces ch i cs).length ch := by
  induction cs with
  | nil => rfl
  | cons c0 rest ih =>
    rw [braces_cons]
    by_cases h : i % c0 = 0
    · simp only [h, if_true, List.singleton_append, List.length_cons, List.replicate_succ]
      rw [← ih]
    · simp only [h, if_false, List.nil_append]
      exact ih

theorem singleton_append_braces (ch i : Nat) (cs : List Nat) :
    [ch] ++ braces ch i cs = braces ch i cs ++ [ch] := by
  have key : ∀ k : Nat, [ch] ++ List.replicate k ch = List.replicate k ch ++ [ch] := by
    intro k
    rw [List.singleton_append, ← List.replicate_succ, List.replicate_succ']
  rw [braces_eq_replicate ch i cs]
  exact key _

theorem piece_cons (c0 : Nat) (cs : List Nat) (i : Nat) (t : Bytes) :
    piece (c0 :: cs) i t =
      (if i % c0 = 0 then [123] else []) ++ piece cs i t ++
        (if (i + 1) % c0 = 0 then [125] else []) := by
  unfold piece
  rw [braces_cons, braces_cons]
  by_cases h : (i + 1) % c0 = 0
  · simp only [h, if_true]
    rw [singleton_append_braces]
    simp [List.append_assoc]
  · simp [h, List.append_assoc]

theorem pieces_append (cs : List Nat) (xs ys : List Bytes) :
    ∀ s, pieces cs s (xs ++ ys) = pieces cs s xs ++ pieces cs (s + xs.length) ys := by
  induction xs with
  | nil => intro s; simp [pieces]
  | cons x rest ih =>
    intro s
    have hs : s + 1 + rest.length = s + (rest.length + 1) := by omega
    have h := ih (s + 1)
    rw [hs] at h
    rw [List.cons_append, pieces, h, List.length_cons]
    rfl

theorem pieces_length (cs : List Nat) (ts : List Bytes) :
    ∀ s, (pieces cs s ts).length = ts.length := by
  induction ts with
  | nil => intro s; rfl
  | cons t rest ih => intro s; simp [pieces, ih]

theorem joinComma_append (xs ys : List Bytes) (hx : xs ≠ []) (hy : ys ≠ []) :
    joinComma (xs ++ ys) = joinComma xs ++ [44] ++ joinComma ys := by
  induction xs with
  | nil => exact absurd rfl hx
  | cons x rest ih =>
    cases rest with
    | nil =>
      cases ys with
      | nil => exact absurd rfl hy
      | cons y ys' => simp [joinComma]
    | cons x' rest' =>
      have := ih (by simp)
      rw [List.cons_append] at this
      rw [List.cons_append, List.cons_append, joinComma, this, joinComma]
      simp [List.append_assoc]

theorem joinComma_cons (x : Bytes) (ys : List Bytes) (hy : ys ≠ []) :
    joinComma (x :: ys) = x ++ [44] ++ joinComma ys := by
  cases ys with
  | nil => exact absurd rfl hy
  | cons y rest => rfl

theorem joinComma_singleton (x : Bytes) : joinComma [x] = x := rfl

theorem pieces_ne_nil (cs : List Nat) (s : Nat) (ts : List Bytes) (h : ts ≠ []) :
    pieces cs s ts ≠ [] := by
  cases ts with
  | nil => exact absurd rfl h
  | cons t rest => simp [pieces]

theorem pieces_cons (cs : List Nat) (s : Nat) (t : Bytes) (ts : List Bytes) :
    pieces cs s (t :: ts) = piece cs s t :: pieces cs (s + 1) ts := rfl

theorem mod_of_dvd_add (c0 s j : Nat) (h : c0 ∣ s) : (s + j) % c0 = j % c0 := by
  obtain ⟨q, rfl⟩ := h
  rw [Nat.mul_add_mod]

/-- Behind the first element of an outermost group the outer table entry adds
nothing but the closing brace of the last element. -/
theorem joinComma_pieces_tail (c0 : Nat) (cs : List Nat) (s : Nat) (hs : c0 ∣ s)
    (ts : List Bytes) :
    ∀ j0, ts ≠ [] → 1 ≤ j0 → j0 + ts.length = c0 →
      joinComma (pieces (c0 :: cs) (s + j0) ts) =
        joinComma (pieces cs (s + j0) ts) ++ [125] := by
  induction ts with
  | nil => intro j0 h; exact absurd rfl h
  | cons t rest ih =>
    intro j0 _ hj hlen
    rw [List.length_cons] at hlen
    have hopen : ¬ ((s + j0) % c0 = 0) := by
      rw [mod_of_dvd_add _ _ _ hs, Nat.mod_eq_of_lt (by omega)]
      omega
    cases rest with
    | nil =>
      have hclose : (s + j0 + 1) % c0 = 0 := by
        have : s + j0 + 1 = s + c0 := by
          rw [List.length_nil] at hlen
          omega
        rw [this, mod_of_dvd_add _ _ _ hs, Nat.mod_self]
      rw [pieces_cons, pieces_cons, piece_cons]
      simp [pieces, joinComma, hopen, hclose]
    | cons t' rest' =>
      rw [List.length_cons] at hlen
      have hclose : ¬ ((s + j0 + 1) % c0 = 0) := by
        have : s + j0 + 1 = s + (j0 + 1) := by omega
        rw [this, mod_of_dvd_add _ _ _ hs, Nat.mod_eq_of_lt (by omega)]
        omega
      have h := ih (j0 + 1) (by simp) (by omega) (by rw [List.length_cons]; omega)
      have e : s + (j0 + 1) = s + j0 + 1 := by omega
      rw [e] at h
      rw [pieces_cons (c0 :: cs) (s + j0) t, pieces_cons cs (s + j0) t,
        joinComma_cons _ _ (pieces_ne_nil _ _ _ (by simp)),
        joinComma_cons _ _ (pieces_ne_nil _ _ _ (by simp)), h, piece_cons]
      simp [hopen, hclose, List.append_assoc]

/-- Over one whole outermost group the outer table entry adds the opening brace
before the first element and the closing brace behind the last. -/
theorem joinComma_pieces_group (c0 : Nat) (cs : List Nat) (s : Nat) (hs : c0 ∣ s)
    (ts : List Bytes) (hlen : ts.length = c0) (hpos : 1 ≤ c0) :
    joinComma (pieces (c0 :: cs) s ts) = [123] ++ joinComma (pieces cs s ts) ++ [125] := by
  cases ts with
  | nil => rw [List.length_nil] at hlen; omega
  | cons t rest =>
    rw [List.length_cons] at hlen
    have hopen : s % c0 = 0 := Nat.mod_eq_zero_of_dvd hs
    cases rest with
    | nil =>
      rw [List.length_nil] at hlen
      have hc : c0 = 1 := by omega
      have hclose : (s + 1) % c0 = 0 := by rw [hc, Nat.mod_one]
      rw [pieces_cons, pieces_cons, piece_cons]
      simp [pieces, joinComma, hopen, hclose]
    | cons t' rest' =>
      rw [List.length_cons] at hlen
      have hclose : ¬ ((s + 1) % c0 = 0) := by
        rw [mod_of_dvd_add _ _ _ hs, Nat.mod_eq_of_lt (by omega)]
        omega
      have h := joinComma_pieces_tail c0 cs s hs (t' :: rest') 1 (by simp) (by omega)
        (by rw [List.length_cons]; omega)
      rw [pieces_cons (c0 :: cs) s t, pieces_cons cs s t,
        joinComma_cons _ _ (pieces_ne_nil _ _ _ (by simp)),
        joinComma_cons _ _ (pieces_ne_nil _ _ _ (by simp)), h, piece_cons]
      simp [hopen, hclose, List.append_assoc]

/-- A run of whole inner groups is the comma-separated sequence of the
renderings of the groups. -/
theorem joinComma_pieces_chunks (cs : List Nat) (P : Nat) (hP : 1 ≤ P)
    (inner : List Bytes → Bytes)
    (hin : ∀ s ts, P ∣ s → ts.length = P → joinComma (pieces cs s ts) = inner ts) :
    ∀ (k s : Nat) (ts : List Bytes), P ∣ s → ts.length = k * P →
      joinComma (pieces cs s ts) = joinComma ((chunks P k ts).map inner) := by
  intro k
  induction k with
  | zero =>
    intro s ts _ hlen
    have : ts = [] := List.length_eq_zero.1 (by simpa using hlen)
    subst this
    rfl
  | succ k ih =>
    intro s ts hs hlen
    have htake : (ts.take P).length = P := by
      rw [List.length_take, hlen, Nat.succ_mul]
      omega
    have hdrop : (ts.drop P).length = k * P := by
      rw [List.length_drop, hlen, Nat.succ_mul]
      omega
    have hsplit : ts = ts.take P ++ ts.drop P := (List.take_append_drop P ts).symm
    have hfirst := hin s (ts.take P) hs htake
    have hrest := ih (s + P) (ts.drop P) (Dvd.dvd.add hs (dvd_refl P)) hdrop
    have htne : ts.take P ≠ [] := by
      intro h0
      rw [h0, List.length_nil] at htake
      omega
    rw [chunks, List.map_cons]
    cases k with
    | zero =>
      have hd0 : ts.drop P = [] := List.length_eq_zero.1 (by simpa using hdrop)
      have : ts = ts.take P := by
        conv_lhs => rw [hsplit, hd0, List.append_nil]
      rw [chunks, List.map_nil, joinComma_singleton, ← hfirst, ← this]
    | succ k' =>
      have hdne : ts.drop P ≠ [] := by
        intro h0
        rw [h0, List.length_nil] at hdrop
        have : 1 ≤ (k' + 1) * P := Nat.mul_pos (by omega) hP
        omega
      have hcne : (chunks P (k' + 1) (ts.drop P)).map inner ≠ [] := by
        simp [chunks]
      rw [joinComma_cons _ _ hcne, ← hrest, ← hfirst]
      conv_lhs => rw [hsplit]
      rw [pieces_append, htake,
        joinComma_append _ _ (pieces_ne_nil _ _ _ htne) (pieces_ne_nil _ _ _ hdne)]

theorem natProducts_cons (l : Nat) (rest : List Nat) :
    natProducts (l :: rest) = (l * rest.prod) :: natProducts rest := by
  simp [natProducts]

/-- The flat brace bookkeeping over one whole group equals recursive brace
emission. -/
theorem joinComma_pieces_eq_render (lens : List Nat) :
    (∀ l ∈ lens, 1 ≤ l) → ∀ (s : Nat) (ts : List Bytes), lens.prod ∣ s → ts.length = lens.prod →
      joinComma (pieces (natProducts lens) s ts) = render lens ts := by
  induction lens with
  | nil =>
    intro _ s ts _ hlen
    rw [List.prod_nil] at hlen
    match ts, hlen with
    | [t], _ => simp [natProducts, pieces, piece, braces_nil, joinComma, render]
  | cons l rest ih =>
    intro hpos s ts hs hlen
    have hl : 1 ≤ l := hpos l (List.mem_cons_self _ _)
    have hrest : ∀ x ∈ rest, 1 ≤ x := fun x hx => hpos x (List.mem_cons_of_mem _ hx)
    have hP : 1 ≤ rest.prod := by
      have : ∀ (xs : List Nat), (∀ x ∈ xs, 1 ≤ x) → 1 ≤ xs.prod := by
        intro xs
        induction xs with
        | nil => intro _; simp
        | cons x xs ihx =>
          intro h
          rw [List.prod_cons]
          exact Nat.mul_pos (h x (List.mem_cons_self _ _))
            (ihx (fun y hy => h y (List.mem_cons_of_mem _ hy)))
      exact this rest hrest
    rw [List.prod_cons] at hs hlen
    have hPs : rest.prod ∣ s := Dvd.dvd.trans (Dvd.intro_left l rfl) hs
    rw [natProducts_cons,
      joinComma_pieces_group (l * rest.prod) (natProducts rest) s hs ts hlen (Nat.mul_pos hl hP),
      joinComma_pieces_chunks (natProducts rest) rest.prod hP (render rest)
        (fun s' ts' h1 h2 => ih hrest s' ts' h1 h2) l s ts hPs hlen]
    rfl

end Pgtype

/-! ## Text round trip -/

namespace Pgtype

theorem lengthProduct_cons (d : ArrayDimension) (rest : List ArrayDimension) :
    lengthProduct (d :: rest) = d.Length * lengthProduct rest := by
  simp [lengthProduct]

theorem lengthProduct_eq_nat (dims : List ArrayDimension) (h : ∀ d ∈ dims, 1 ≤ d.Length) :
    lengthProduct dims = (((lengthsOf dims).prod : Nat) : Int) := by
  induction dims with
  | nil => simp [lengthProduct, lengthsOf]
  | cons d rest ih =>
    have hd : 1 ≤ d.Length := h d (List.mem_cons_self _ _)
    have hcast : ((d.Length.toNat : Nat) : Int) = d.Length := Int.toNat_of_nonneg (by omega)
    rw [lengthProduct_cons, ih (fun x hx => h x (List.mem_cons_of_mem _ hx))]
    simp only [lengthsOf, List.map_cons, List.prod_cons, Nat.cast_mul, hcast]

theorem suffixProducts_eq_nat (dims : List ArrayDimension) (h : ∀ d ∈ dims, 1 ≤ d.Length) :
    suffixProducts dims = (natProducts (lengthsOf dims)).map (fun (n : Nat) => (n : Int)) := by
  induction dims with
  | nil => rfl
  | cons d rest ih =>
    rw [suffixProducts, ih (fun x hx => h x (List.mem_cons_of_mem _ hx)), lengthProduct_eq_nat _ h]
    rfl

theorem nat_prod_pos (xs : List Nat) (h : ∀ x ∈ xs, 1 ≤ x) : 1 ≤ xs.prod := by
  induction xs with
  | nil => simp
  | cons x xs ih =>
    rw [List.prod_cons]
    exact Nat.mul_pos (h x (List.mem_cons_self _ _))
      (ih (fun y hy => h y (List.mem_cons_of_mem _ hy)))

theorem natProducts_pos (lens : List Nat) (h : ∀ l ∈ lens, 1 ≤ l) :
    ∀ x ∈ natProducts lens, 0 < x := by
  induction lens with
  | nil => intro x hx; simp [natProducts] at hx
  | cons l rest ih =>
    intro x hx
    rw [natProducts] at hx
    rcases List.mem_cons.1 hx with rfl | hx'
    · exact nat_prod_pos _ h
    · exact ih (fun y hy => h y (List.mem_cons_of_mem _ hy)) x hx'

theorem lengthsOf_pos (dims : List ArrayDimension) (h : ∀ d ∈ dims, 1 ≤ d.Length) :
    ∀ l ∈ lengthsOf dims, 1 ≤ l := by
  intro l hl
  obtain ⟨d, hd, rfl⟩ := List.mem_map.1 hl
  have := h d hd
  omega

theorem lengthProduct_pos (dims : List ArrayDimension) (h : ∀ d ∈ dims, 1 ≤ d.Length) :
    1 ≤ lengthProduct dims := by
  rw [lengthProduct_eq_nat dims h]
  have := nat_prod_pos _ (lengthsOf_pos dims h)
  omega

theorem lengthProduct_drop_le (dims : List ArrayDimension) (h : ∀ d ∈ dims, 1 ≤ d.Length) :
    ∀ k, lengthProduct (dims.drop k) ≤ lengthProduct dims := by
  induction dims with
  | nil => intro k; simp
  | cons d rest ih =>
    intro k
    have hrest : ∀ x ∈ rest, 1 ≤ x.Length := fun x hx => h x (List.mem_cons_of_mem _ hx)
    cases k with
    | zero => simp
    | succ k =>
      have h1 := ih hrest k
      have h2 := lengthProduct_pos rest hrest
      have hd : 1 ≤ d.Length := h d (List.mem_cons_self _ _)
      rw [List.drop_succ_cons, lengthProduct_cons]
      nlinarith

theorem fits_of_positive (dims : List ArrayDimension) (h : ∀ d ∈ dims, 1 ≤ d.Length)
    (hN : lengthProduct dims < 9223372036854775808) :
    ∀ k, k < dims.length → fitsInt (lengthProduct (dims.drop k)) := by
  intro k _
  have h1 := lengthProduct_drop_le dims h k
  have h2 : 1 ≤ lengthProduct (dims.drop k) :=
    lengthProduct_pos _ (fun d hd => h d (List.mem_of_mem_drop hd))
  unfold fitsInt
  omega

/-- What `EncodeText` writes for a Present array with dimensions of positive
length: the decoration and the recursive brace rendering. -/
theorem EncodeText_present (c : Codecs) (a : TimestamptzArray) (hP : a.Status = .Present)
    (hne : a.Dimensions ≠ []) (hpos : ∀ d ∈ a.Dimensions, 1 ≤ d.Length)
    (hprod : lengthProduct a.Dimensions = a.Elements.length)
    (hN : a.Elements.length < 9223372036854775808)
    (henc : ∀ e ∈ a.Elements, ∃ p, c.TimestamptzEncodeText e = .ok p) :
    EncodeText c a = ⟨arrayLiteral c a, false, .returned none⟩ := by
  have hfit := fits_of_positive a.Dimensions hpos (by rw [hprod]; omega)
  have htable : dimElemCounts a.Dimensions =
      (natProducts (lengthsOf a.Dimensions)).map (fun (n : Nat) => (n : Int)) := by
    rw [dimElemCounts_eq_suffixProducts _ hfit, suffixProducts_eq_nat _ hpos]
  have hlpos := lengthsOf_pos a.Dimensions hpos
  have hlen : (a.Elements.map (elementText c)).length = (lengthsOf a.Dimensions).prod := by
    rw [List.length_map]
    have := lengthProduct_eq_nat a.Dimensions hpos
    rw [hprod] at this
    exact_mod_cast this
  have hdl : ¬ (a.Dimensions.length = 0) := by
    intro h0
    exact hne (List.length_eq_zero.1 h0)
  unfold EncodeText
  rw [hP]
  simp only [hdl, if_false]
  rw [htable, encodeTextElements_ok c _ (natProducts_pos _ hlpos) a.Elements 0 _ henc,
    flatBody_zero, joinComma_pieces_eq_render _ hlpos 0 _ (dvd_zero _) hlen]
  simp [arrayLiteral, hne]

theorem EncodeText_no_dimensions (c : Codecs) (a : TimestamptzArray) (hP : a.Status = .Present)
    (hd : a.Dimensions = []) :
    EncodeText c a = ⟨arrayLiteral c a, false, .returned none⟩ := by
  unfold EncodeText
  rw [hP]
  simp [hd, arrayLiteral]

theorem elementToken_of_ok (c : Codecs) (e : Timestamptz) (nul : Bool) (b : Bytes)
    (h : c.TimestamptzEncodeText e = .ok (nul, b)) :
    elementToken c e = if nul then nullLiteral else b := by
  unfold elementToken
  rw [h]
  cases nul <;> rfl

theorem decodeTokens_of_codec (c : Codecs) (es : List Timestamptz)
    (h : ∀ e ∈ es, ∃ nul t e', c.TimestamptzEncodeText e = .ok (nul, t) ∧
      (nul = false → t ≠ nullLiteral) ∧
      c.TimestamptzDecodeText (if nul then none else some t) = .ok e' ∧ sameElement e e') :
    ∃ es', decodeTextElements c (es.map (elementToken c)) = .ok es' ∧
      List.Forall₂ sameElement es es' := by
  induction es with
  | nil => exact ⟨[], rfl, List.Forall₂.nil⟩
  | cons e rest ih =>
    obtain ⟨nul, t, e', henc, hnn, hdec, hsame⟩ := h e (List.mem_cons_self _ _)
    obtain ⟨rest', hrest, hf⟩ := ih (fun x hx => h x (List.mem_cons_of_mem _ hx))
    refine ⟨e' :: rest', ?_, List.Forall₂.cons hsame hf⟩
    have hsrc : (if elementToken c e ≠ nullLiteral then some (elementToken c e) else none) =
        (if nul then none else some t) := by
      rw [elementToken_of_ok c e nul t henc]
      cases nul with
      | true => simp
      | false => simp [hnn rfl]
    simp only [List.map_cons, decodeTextElements, hsrc, hdec, hrest]

end Pgtype

/-! ## Nesting and separators of the rendering -/

namespace Pgtype

theorem braceDepth_append (s1 s2 : Bytes) :
    ∀ d, braceDepth (s1 ++ s2) d = (braceDepth s1 d).bind (braceDepth s2) := by
  induction s1 with
  | nil => intro d; rfl
  | cons b rest ih =>
    intro d
    rw [List.cons_append, braceDepth, braceDepth]
    split
    · exact ih _
    · split
      · split
        · rfl
        · exact ih _
      · exact ih _

theorem braceDepth_plain (t : Bytes) (h : plainText t) : ∀ d, braceDepth t d = some d := by
  induction t with
  | nil => intro d; rfl
  | cons b rest ih =>
    intro d
    have hb := h b (List.mem_cons_self _ _)
    have hrest : plainText rest := fun x hx => h x (List.mem_cons_of_mem _ hx)
    simp only [braceDepth, hb.1, hb.2.1, if_false, ih hrest]

theorem braceDepth_joinComma (xs : List Bytes)
    (h : ∀ x ∈ xs, ∀ d, braceDepth x d = some d) : ∀ d, braceDepth (joinComma xs) d = some d := by
  induction xs with
  | nil => intro d; rfl
  | cons x rest ih =>
    intro d
    cases rest with
    | nil => exact h x (List.mem_cons_self _ _) d
    | cons y rest' =>
      have hrest := ih (fun z hz => h z (List.mem_cons_of_mem _ hz))
      rw [joinComma, braceDepth_append, braceDepth_append, h x (List.mem_cons_self _ _) d]
      simp only [Option.some_bind]
      have hc : braceDepth [44] d = some d := by simp [braceDepth]
      rw [hc]
      simp only [Option.some_bind]
      exact hrest d

theorem mem_of_mem_chunks {α : Type} (size : Nat) :
    ∀ (count : Nat) (xs chunk : List α), chunk ∈ chunks size count xs → ∀ x ∈ chunk, x ∈ xs := by
  intro count
  induction count with
  | zero => intro xs chunk h; simp [chunks] at h
  | succ n ih =>
    intro xs chunk h x hx
    rw [chunks] at h
    rcases List.mem_cons.1 h with rfl | h'
    · exact List.mem_of_mem_take hx
    · exact List.mem_of_mem_drop (ih _ _ h' x hx)

/-- The rendering of texts without braces is balanced and well nested. -/
theorem braceDepth_render (lens : List Nat) :
    ∀ (ts : List Bytes), (∀ t ∈ ts, plainText t) → ∀ d, braceDepth (render lens ts) d = some d := by
  induction lens with
  | nil =>
    intro ts h d
    cases ts with
    | nil => rfl
    | cons t rest => exact braceDepth_plain t (h t (List.mem_cons_self _ _)) d
  | cons l rest ih =>
    intro ts h d
    have hchunks : ∀ x ∈ (chunks rest.prod l ts).map (render rest),
        ∀ d, braceDepth x d = some d := by
      intro x hx
      obtain ⟨chunk, hc, rfl⟩ := List.mem_map.1 hx
      exact ih chunk (fun t ht => h t (mem_of_mem_chunks _ _ _ _ hc t ht))
    rw [render, braceDepth_append, braceDepth_append]
    have h1 : braceDepth [123] d = some (d + 1) := by simp [braceDepth]
    have h2 : braceDepth [125] (d + 1) = some d := by simp [braceDepth]
    rw [h1]
    simp only [Option.some_bind]
    rw [braceDepth_joinComma _ hchunks (d + 1)]
    simp only [Option.some_bind]
    exact h2

theorem count_braces (ch i : Nat) (cs : List Nat) (h : ch ≠ 44) :
    (braces ch i cs).count 44 = 0 := by
  rw [braces_eq_replicate]
  rw [List.count_replicate]
  simp [h]

theorem count_plain (t : Bytes) (h : plainText t) : t.count 44 = 0 := by
  rw [List.count_eq_zero]
  intro hm
  exact (h 44 hm).2.2 rfl

theorem count_piece (cs : List Nat) (i : Nat) (t : Bytes) (h : plainText t) :
    (piece cs i t).count 44 = 0 := by
  simp [piece, List.count_append, count_braces, count_plain t h]

/-- The element loop writes a comma before every element but the one at flat
index 0. -/
theorem count_flatBody (cs : List Nat) (ts : List Bytes) (h : ∀ t ∈ ts, plainText t) :
    ∀ i, (flatBody cs i ts).count 44 = if 0 < i then ts.length else ts.length - 1 := by
  induction ts with
  | nil => intro i; simp [flatBody]
  | cons t rest ih =>
    intro i
    have ht := h t (List.mem_cons_self _ _)
    have hrest := ih (fun x hx => h x (List.mem_cons_of_mem _ hx)) (i + 1)
    rw [flatBody, List.count_append, List.count_append, count_piece cs i t ht, hrest]
    by_cases hi : 0 < i
    · simp [hi]
      omega
    · simp [hi]

theorem flatBody_eq_render (lens : List Nat) (hpos : ∀ l ∈ lens, 1 ≤ l) (ts : List Bytes)
    (hlen : ts.length = lens.prod) : flatBody (natProducts lens) 0 ts = render lens ts := by
  rw [flatBody_zero, joinComma_pieces_eq_render lens hpos 0 ts (dvd_zero _) hlen]

theorem texts_length (c : Codecs) (a : TimestamptzArray)
    (hpos : ∀ d ∈ a.Dimensions, 1 ≤ d.Length)
    (hprod : lengthProduct a.Dimensions = a.Elements.length) :
    (a.Elements.map (elementText c)).length = (lengthsOf a.Dimensions).prod := by
  rw [List.length_map]
  have := lengthProduct_eq_nat a.Dimensions hpos
  rw [hprod] at this
  exact_mod_cast this

end Pgtype

/-! ## Failures of the binary decoder -/

namespace Pgtype

theorem BigEndianUint32_short (b : Bytes) (h : b.length < 4) : BigEndianUint32 b = none := by
  match b, h with
  | [], _ => rfl
  | [_], _ => rfl
  | [_, _], _ => rfl
  | [_, _, _], _ => rfl
  | _ :: _ :: _ :: _ :: _, h => exact absurd h (by simp)

theorem decodeElements_short (c : Codecs) (src : Bytes) (n rp : Nat) (h : src.length < rp + 4) :
    decodeElements c src (n + 1) rp = .error .panic := by
  have hs : BigEndianUint32 (src.drop rp) = none := by
    apply BigEndianUint32_short
    rw [List.length_drop]
    omega
  rw [decodeElements, hs]

theorem DecodeBinary_negative_count (c : Codecs) (dst : TimestamptzArray) (src : Bytes)
    (hdr : ArrayHeader) (rp : Nat) (d0 : ArrayDimension) (ds : List ArrayDimension)
    (hh : c.ArrayHeaderDecodeBinary src = .ok (hdr, rp)) (hd : hdr.Dimensions = d0 :: ds)
    (hneg : elementCount d0 ds < 0) :
    DecodeBinary c dst (some src) = (dst, .panicked) := by
  simp only [DecodeBinary, hh, hd, hneg, if_true]

theorem DecodeBinary_short_body (c : Codecs) (dst : TimestamptzArray) (src : Bytes)
    (hdr : ArrayHeader) (rp : Nat) (d0 : ArrayDimension) (ds : List ArrayDimension)
    (hh : c.ArrayHeaderDecodeBinary src = .ok (hdr, rp)) (hd : hdr.Dimensions = d0 :: ds)
    (hpos : 0 < elementCount d0 ds) (hshort : src.length < rp + 4) :
    DecodeBinary c dst (some src) = (dst, .panicked) := by
  obtain ⟨n, hn⟩ : ∃ n, (elementCount d0 ds).toNat = n + 1 := ⟨(elementCount d0 ds).toNat - 1, by omega⟩
  have hneg : ¬ (elementCount d0 ds < 0) := by omega
  simp only [DecodeBinary, hh, hd, hneg, if_false, hn, decodeElements_short c src n rp hshort]

/-- Either a decode returns nil or it leaves the destination as it was. -/
theorem DecodeBinary_atomic (c : Codecs) (dst : TimestamptzArray) (src : Option Bytes) :
    (DecodeBinary c dst src).2 = .returned none ∨ (DecodeBinary c dst src).1 = dst := by
  cases src with
  | none => exact Or.inl rfl
  | some b =>
    cases hh : c.ArrayHeaderDecodeBinary b with
    | error e => right; simp only [DecodeBinary, hh]
    | ok p =>
      obtain ⟨hdr, rp⟩ := p
      cases hd : hdr.Dimensions with
      | nil => left; simp only [DecodeBinary, hh, hd]
      | cons d0 ds =>
        by_cases hneg : elementCount d0 ds < 0
        · right; simp only [DecodeBinary, hh, hd, hneg, if_true]
        · cases hel : decodeElements c b (elementCount d0 ds).toNat rp with
          | error f =>
            right
            cases f <;> simp only [DecodeBinary, hh, hd, hneg, if_false, hel]
          | ok es => left; simp only [DecodeBinary, hh, hd, hneg, if_false, hel]

theorem DecodeText_atomic (c : Codecs) (dst : TimestamptzArray) (src : Option Bytes) :
    (DecodeText c dst src).2 = .returned none ∨ (DecodeText c dst src).1 = dst := by
  cases src with
  | none => exact Or.inl rfl
  | some b =>
    cases hp : c.ParseUntypedTextArray b with
    | error e => right; simp only [DecodeText, hp]
    | ok uta =>
      cases hd : decodeTextElements c uta.Elements with
      | error e => right; simp only [DecodeText, hp, hd]
      | ok es => left; simp only [DecodeText, hp, hd]

end Pgtype

/-! ## The table of the text encoder: index safety and zero entries -/

namespace Pgtype

theorem replicate_succ_append (i : Nat) (a : Int) (l : List Int) :
    List.replicate (i + 1) a ++ l = List.replicate i a ++ (a :: l) := by
  induction i with
  | zero => rfl
  | succ i ih =>
    rw [List.replicate_succ, List.cons_append, ih]
    rfl

theorem set_replicate_append (i : Nat) (a v : Int) (l : List Int) :
    (List.replicate i a ++ (a :: l)).set i v = List.replicate i a ++ (v :: l) := by
  induction i with
  | zero => rfl
  | succ i ih =>
    rw [List.replicate_succ, List.cons_append, List.set_cons_succ, ih]
    rfl

theorem getElem?_replicate_append (i : Nat) (a : Int) (l : List Int) :
    (List.replicate i a ++ l)[i]? = l[0]? := by
  induction i with
  | zero => rfl
  | succ i ih =>
    rw [List.replicate_succ, List.cons_append, List.getElem?_cons_succ, ih]

theorem dimElemCounts_length (dims : List ArrayDimension) :
    (dimElemCounts dims).length = dims.length := by
  induction dims with
  | nil => rfl
  | cons d rest ih =>
    rw [dimElemCounts]
    cases h : dimElemCounts rest with
    | nil =>
      rw [h] at ih
      simp only [List.length_cons, List.length_nil] at ih ⊢
      omega
    | cons x t =>
      rw [h] at ih
      simp only [List.length_cons] at ih ⊢
      omega

theorem drop_eq_cons (dims : List ArrayDimension) (i : Nat) (h : i < dims.length) :
    ∃ d, dims[i]? = some d ∧ dims.drop i = d :: dims.drop (i + 1) := by
  refine ⟨dims[i], List.getElem?_eq_getElem h, ?_⟩
  exact List.drop_eq_getElem_cons h

theorem fillTable_eq (dims : List ArrayDimension) :
    ∀ i, i < dims.length →
      fillTable dims i (List.replicate i 0 ++ dimElemCounts (dims.drop i)) =
        some (dimElemCounts dims) := by
  intro i
  induction i with
  | zero => intro _; rfl
  | succ i ih =>
    intro hi
    obtain ⟨d, hd, hdrop⟩ := drop_eq_cons dims i (by omega)
    obtain ⟨d1, _, hdrop1⟩ := drop_eq_cons dims (i + 1) hi
    have hlen := dimElemCounts_length (dims.drop (i + 1))
    cases hc : dimElemCounts (dims.drop (i + 1)) with
    | nil =>
      rw [hc, hdrop1] at hlen
      simp at hlen
    | cons x t =>
      have hstep : dimElemCounts (dims.drop i) = goInt (d.Length * x) :: x :: t := by
        rw [hdrop, dimElemCounts, hc]
      have hget : (List.replicate (i + 1) (0 : Int) ++ x :: t)[i + 1]? = some x := by
        rw [getElem?_replicate_append]
        simp
      have hlt : i < (List.replicate (i + 1) (0 : Int) ++ x :: t).length := by
        simp
        omega
      rw [fillTable]
      simp only [hd, hget, hlt, if_true]
      rw [replicate_succ_append, set_replicate_append, ← hstep]
      exact ih (by omega)

theorem dimElemCountsIndexed_eq (dims : List ArrayDimension) (hne : dims ≠ []) :
    dimElemCountsIndexed dims = some (dimElemCounts dims) := by
  have hpos : 0 < dims.length := List.length_pos.2 hne
  have hl : ¬ (dims.length = 0) := by omega
  obtain ⟨d, hd, hdrop⟩ := drop_eq_cons dims (dims.length - 1) (by omega)
  have hdrop1 : dims.drop (dims.length - 1 + 1) = [] := by
    apply List.drop_of_length_le
    omega
  have hlast : dimElemCounts (dims.drop (dims.length - 1)) = [d.Length] := by
    rw [hdrop, hdrop1]
    rfl
  have hrep : (List.replicate dims.length (0 : Int)).set (dims.length - 1) d.Length =
      List.replicate (dims.length - 1) 0 ++ dimElemCounts (dims.drop (dims.length - 1)) := by
    have h1 : List.replicate dims.length (0 : Int) =
        List.replicate (dims.length - 1) 0 ++ (0 :: []) := by
      rw [← replicate_succ_append, List.append_nil]
      congr 1
      omega
    rw [h1, set_replicate_append, hlast]
  unfold dimElemCountsIndexed
  simp only [hl, if_false, hd, hrep]
  exact fillTable_eq dims (dims.length - 1) (by omega)

theorem writeBraces_no_panic (ch : Nat) (i : Int) (counts : List Int) :
    ∀ (w : Bytes), (∀ x ∈ counts, x ≠ 0) → (writeBraces ch i counts w).2 = false := by
  induction counts with
  | nil => intro w _; rfl
  | cons d rest ih =>
    intro w h
    have hd : ¬ (d = 0) := h d (List.mem_cons_self _ _)
    have hrest : ∀ x ∈ rest, x ≠ 0 := fun x hx => h x (List.mem_cons_of_mem _ hx)
    rw [writeBraces]
    simp only [hd, if_false]
    split
    · exact ih _ hrest
    · exact ih _ hrest

theorem writeBraces_zero_mem (ch : Nat) (i : Int) (counts : List Int) :
    ∀ (w : Bytes), (0 : Int) ∈ counts → (writeBraces ch i counts w).2 = true := by
  induction counts with
  | nil => intro w h; simp at h
  | cons d rest ih =>
    intro w h
    rw [writeBraces]
    by_cases hd : d = 0
    · simp only [hd, if_true]
    · have hrest : (0 : Int) ∈ rest := by
        rcases List.mem_cons.1 h with h0 | h0
        · exact absurd h0.symm hd
        · exact h0
      simp only [hd, if_false]
      split
      · exact ih _ hrest
      · exact ih _ hrest

theorem encodeTextElements_no_panic (c : Codecs) (counts : List Int)
    (hnz : ∀ x ∈ counts, x ≠ 0) (es : List Timestamptz) :
    ∀ (i : Nat) (w : Bytes), (encodeTextElements c counts i es w).outcome ≠ .panicked := by
  induction es with
  | nil => intro i w; simp [encodeTextElements]
  | cons e rest ih =>
    intro i w
    rw [encodeTextElements]
    have h1 := writeBraces_no_panic 123 (i : Int) counts (if 0 < i then w ++ [44] else w) hnz
    cases hb : writeBraces 123 (i : Int) counts (if 0 < i then w ++ [44] else w) with
    | mk w2 f =>
      rw [hb] at h1
      simp only at h1
      subst h1
      simp only
      cases hp : c.TimestamptzEncodeText e with
      | error err => simp
      | ok p =>
        obtain ⟨nul, buf⟩ := p
        simp only
        have h2 := writeBraces_no_panic 125 ((i : Int) + 1) counts
          (if nul then w2 ++ nullLiteral else w2 ++ c.QuoteArrayElementIfNeeded buf) hnz
        cases hb2 : writeBraces 125 ((i : Int) + 1) counts
            (if nul then w2 ++ nullLiteral else w2 ++ c.QuoteArrayElementIfNeeded buf) with
        | mk w4 f2 =>
          rw [hb2] at h2
          simp only at h2
          subst h2
          simp only
          exact ih (i + 1) w4

theorem encodeTextElements_zero_mem (c : Codecs) (counts : List Int) (hz : (0 : Int) ∈ counts)
    (e : Timestamptz) (rest : List Timestamptz) (i : Nat) (w : Bytes) :
    (encodeTextElements c counts i (e :: rest) w).outcome = .panicked := by
  rw [encodeTextElements]
  have h1 := writeBraces_zero_mem 123 (i : Int) counts (if 0 < i then w ++ [44] else w) hz
  cases hb : writeBraces 123 (i : Int) counts (if 0 < i then w ++ [44] else w) with
  | mk w2 f =>
    rw [hb] at h1
    simp only at h1
    subst h1
    rfl

theorem encodeTextElements_panicked (c : Codecs) (counts : List Int) (es : List Timestamptz)
    (i : Nat) (w : Bytes) (h : (encodeTextElements c counts i es w).outcome = .panicked) :
    es ≠ [] ∧ (0 : Int) ∈ counts := by
  constructor
  · intro hes
    rw [hes] at h
    simp [encodeTextElements] at h
  · by_contra hz
    have hnz : ∀ x ∈ counts, x ≠ 0 := by
      intro x hx h0
      rw [h0] at hx
      exact hz hx
    exact encodeTextElements_no_panic c counts hnz es i w h

theorem EncodeText_panicked (c : Codecs) (a : TimestamptzArray)
    (h : (EncodeText c a).outcome = .panicked) :
    a.Status = .Present ∧ a.Dimensions ≠ [] ∧ a.Elements ≠ [] ∧
      (0 : Int) ∈ dimElemCounts a.Dimensions := by
  unfold EncodeText at h
  cases hs : a.Status with
  | Null => rw [hs] at h; simp at h
  | Undefined => rw [hs] at h; simp at h
  | Present =>
    rw [hs] at h
    by_cases hl : a.Dimensions.length = 0
    · simp [hl] at h
    · simp only [hl, if_false] at h
      have := encodeTextElements_panicked c _ _ _ _ h
      refine ⟨rfl, ?_, this.1, this.2⟩
      intro hd
      rw [hd] at hl
      exact hl rfl

end Pgtype

/-! ## Dimension lengths, suffix products and zero -/

namespace Pgtype

theorem lengthProduct_ne_zero (dims : List ArrayDimension) (h : ∀ d ∈ dims, d.Length ≠ 0) :
    lengthProduct dims ≠ 0 := by
  induction dims with
  | nil => simp [lengthProduct]
  | cons d rest ih =>
    rw [lengthProduct_cons]
    exact mul_ne_zero (h d (List.mem_cons_self _ _))
      (ih (fun x hx => h x (List.mem_cons_of_mem _ hx)))

theorem lengths_ne_zero (dims : List ArrayDimension) (h : lengthProduct dims ≠ 0) :
    ∀ d ∈ dims, d.Length ≠ 0 := by
  induction dims with
  | nil => intro d hd; simp at hd
  | cons d rest ih =>
    rw [lengthProduct_cons] at h
    intro x hx
    rcases List.mem_cons.1 hx with hx | hx
    · rw [hx]
      exact left_ne_zero_of_mul h
    · exact ih (right_ne_zero_of_mul h) x hx

theorem natAbs_drop_le (dims : List ArrayDimension) (h : ∀ d ∈ dims, d.Length ≠ 0) :
    ∀ k, (lengthProduct (dims.drop k)).natAbs ≤ (lengthProduct dims).natAbs := by
  induction dims with
  | nil => intro k; simp
  | cons d rest ih =>
    intro k
    have hrest : ∀ x ∈ rest, x.Length ≠ 0 := fun x hx => h x (List.mem_cons_of_mem _ hx)
    cases k with
    | zero => simp
    | succ k =>
      rw [List.drop_succ_cons, lengthProduct_cons, Int.natAbs_mul]
      have h1 : 0 < d.Length.natAbs := Int.natAbs_pos.2 (h d (List.mem_cons_self _ _))
      exact le_trans (ih hrest k) (Nat.le_mul_of_pos_left _ h1)

theorem fits_of_natAbs (x : Int) (h : x.natAbs < 9223372036854775808) : fitsInt x := by
  unfold fitsInt
  omega

theorem fits_of_nonzero (dims : List ArrayDimension) (h : ∀ d ∈ dims, d.Length ≠ 0)
    (hN : (lengthProduct dims).natAbs < 9223372036854775808) :
    ∀ k, k < dims.length → fitsInt (lengthProduct (dims.drop k)) := by
  intro k _
  exact fits_of_natAbs _ (lt_of_le_of_lt (natAbs_drop_le dims h k) hN)

theorem suffixProducts_ne_zero (dims : List ArrayDimension) (h : ∀ d ∈ dims, d.Length ≠ 0) :
    ∀ x ∈ suffixProducts dims, x ≠ 0 := by
  induction dims with
  | nil => intro x hx; simp [suffixProducts] at hx
  | cons d rest ih =>
    intro x hx
    rw [suffixProducts] at hx
    rcases List.mem_cons.1 hx with hx | hx
    · rw [hx]
      exact lengthProduct_ne_zero _ h
    · exact ih (fun y hy => h y (List.mem_cons_of_mem _ hy)) x hx

theorem zero_mem_dimElemCounts (dims : List ArrayDimension) (h : ∃ d ∈ dims, d.Length = 0) :
    (0 : Int) ∈ dimElemCounts dims := by
  induction dims with
  | nil =>
    obtain ⟨d, hd, _⟩ := h
    simp at hd
  | cons d rest ih =>
    obtain ⟨z, hz, hz0⟩ := h
    rw [dimElemCounts]
    rcases List.mem_cons.1 hz with hz | hz
    · rw [hz] at hz0
      cases hc : dimElemCounts rest with
      | nil => simp [hz0]
      | cons x t => simp [hz0, goInt]
    · have hrest := ih ⟨z, hz, hz0⟩
      cases hc : dimElemCounts rest with
      | nil =>
        rw [hc] at hrest
        simp at hrest
      | cons x t =>
        rw [hc] at hrest
        exact List.mem_cons_of_mem _ hrest

/-- Under the ArrayValue invariant with at least one element, no entry of the
table is zero. -/
theorem dimElemCounts_ne_zero (a : TimestamptzArray)
    (hprod : lengthProduct a.Dimensions = a.Elements.length)
    (hN : a.Elements.length < 9223372036854775808) (hes : a.Elements ≠ []) :
    ∀ x ∈ dimElemCounts a.Dimensions, x ≠ 0 := by
  have hpos : 0 < a.Elements.length := List.length_pos.2 hes
  have hP : lengthProduct a.Dimensions ≠ 0 := by
    rw [hprod]
    omega
  have hl := lengths_ne_zero a.Dimensions hP
  have hfit := fits_of_nonzero a.Dimensions hl (by rw [hprod]; simpa using hN)
  rw [dimElemCounts_eq_suffixProducts _ hfit]
  exact suffixProducts_ne_zero _ hl

end Pgtype

/-! ## Conversion from and to slices of times -/

namespace Pgtype

theorem convertElements_ok (cv : Conversions) (s : List Int) (es : List Timestamptz)
    (h : List.Forall₂ (fun t e => cv.TimestamptzConvertFrom t = .ok e) s es) :
    convertElements cv s = .ok es := by
  induction h with
  | nil => rfl
  | cons hhead _ ih => rw [convertElements, hhead, ih]

theorem convertElements_error (cv : Conversions) (pre : List Int) (t : Int) (post : List Int)
    (e : Error) (hpre : ∀ x ∈ pre, ∃ y, cv.TimestamptzConvertFrom x = .ok y)
    (ht : cv.TimestamptzConvertFrom t = .error e) :
    convertElements cv (pre ++ t :: post) = .error e := by
  induction pre with
  | nil => rw [List.nil_append, convertElements, ht]
  | cons x rest ih =>
    obtain ⟨y, hy⟩ := hpre x (List.mem_cons_self _ _)
    rw [List.cons_append, convertElements, hy,
      ih (fun z hz => hpre z (List.mem_cons_of_mem _ hz))]

theorem convertElements_replicate (n : Nat) (t : Int) :
    convertElements refConversions (List.replicate n t) =
      .ok (List.replicate n ⟨t, .Present⟩) := by
  induction n with
  | zero => rfl
  | succ n ih =>
    rw [List.replicate_succ, convertElements, ih]
    rfl

theorem ConvertFrom_times (cv : Conversions) (dst : TimestamptzArray) (s : List Int)
    (es : List Timestamptz) (hne : s ≠ [])
    (h : convertElements cv s = .ok es) :
    ConvertFrom cv dst (.times (some s)) =
      (⟨es, [⟨int32 es.length, 1⟩], .Present⟩, .returned none) := by
  have hl : ¬ (s.length = 0) := fun h0 => hne (List.length_eq_zero.1 h0)
  rw [ConvertFrom]
  simp only [hl, if_false, h]

theorem assignElements_ok (cv : Conversions) (es : List Timestamptz) (s : List Int)
    (h : List.Forall₂ (fun e t => cv.TimestamptzAssignTo e = .ok t) es s) :
    assignElements cv es = (s, none) := by
  induction h with
  | nil => rfl
  | cons hhead _ ih => rw [assignElements, hhead, ih]

theorem assignElements_length (cv : Conversions) (es : List Timestamptz) :
    (assignElements cv es).1.length = es.length := by
  induction es with
  | nil => rfl
  | cons e rest ih =>
    rw [assignElements]
    cases h : cv.TimestamptzAssignTo e with
    | error err => simp
    | ok t => simp [ih]

end Pgtype

namespace Pgtype

theorem exists_converted (cv : Conversions) (s : List Int)
    (h : ∀ t ∈ s, ∃ e, cv.TimestamptzConvertFrom t = .ok e ∧ cv.TimestamptzAssignTo e = .ok t) :
    ∃ es, List.Forall₂ (fun t e => cv.TimestamptzConvertFrom t = .ok e) s es ∧
      List.Forall₂ (fun e t => cv.TimestamptzAssignTo e = .ok t) es s := by
  induction s with
  | nil => exact ⟨[], .nil, .nil⟩
  | cons t rest ih =>
    obtain ⟨e, he1, he2⟩ := h t (List.mem_cons_self _ _)
    obtain ⟨es, h1, h2⟩ := ih (fun x hx => h x (List.mem_cons_of_mem _ hx))
    exact ⟨e :: es, .cons he1 h1, .cons he2 h2⟩

end Pgtype
/-! ## The pipelined batch session: the sticky terminal error -/

namespace Pipeline

theorem record_terminal (s : PipelineSession) (code : Nat) :
    (record s code).terminal = (match s.terminal with | some c => some c | none => some code) := by
  unfold record
  cases h : s.terminal <;> simp [h]

theorem record_wire (s : PipelineSession) (code : Nat) : (record s code).wire = s.wire := by
  unfold record
  cases h : s.terminal <;> simp

theorem record_closed (s : PipelineSession) (code : Nat) : (record s code).closed = s.closed := by
  unfold record
  cases h : s.terminal <;> simp

theorem record_stream (s : PipelineSession) (code : Nat) : (record s code).stream = s.stream := by
  unfold record
  cases h : s.terminal <;> simp

theorem record_keeps (s : PipelineSession) (code c : Nat) (h : s.terminal = some c) :
    (record s code).terminal = some c := by
  simp [record_terminal, h]

theorem recordOpt_keeps (s : PipelineSession) (e : Option Nat) (c : Nat) (h : s.terminal = some c) :
    (recordOpt s e).terminal = some c := by
  cases e with
  | none => simpa [recordOpt] using h
  | some code => simpa [recordOpt] using record_keeps s code c h

theorem recordOpt_wire (s : PipelineSession) (e : Option Nat) : (recordOpt s e).wire = s.wire := by
  cases e <;> simp [recordOpt, record_wire]

theorem recordOpt_closed (s : PipelineSession) (e : Option Nat) :
    (recordOpt s e).closed = s.closed := by
  cases e <;> simp [recordOpt, record_closed]

theorem recordOpt_stream (s : PipelineSession) (e : Option Nat) :
    (recordOpt s e).stream = s.stream := by
  cases e <;> simp [recordOpt, record_stream]

theorem recordOpt_terminal (s : PipelineSession) (e : Option Nat) :
    (recordOpt s e).terminal = (match s.terminal with | some c => some c | none => e) := by
  cases e with
  | none => cases h : s.terminal <;> simp [recordOpt, h]
  | some code => simp [recordOpt, record_terminal]

theorem discardStatement_firstError (w : List Frame) :
    (match (discardStatement w).2 with
      | some c => some c
      | none => firstError (discardStatement w).1) = firstError w := by
  induction w with
  | nil => simp [discardStatement, firstError]
  | cons f rest ih => cases f <;> simp [discardStatement, firstError, ih]

theorem pullRow_firstError (w : List Frame) :
    (match (pullRow w).2 with
      | .failed c => some c
      | _ => firstError (pullRow w).1) = firstError w := by
  induction w with
  | nil => simp [pullRow, firstError]
  | cons f rest ih => cases f <;> simp [pullRow, firstError, ih]

theorem skipAcks_firstError (w : List Frame) : firstError (skipAcks w) = firstError w := by
  induction w with
  | nil => simp [skipAcks]
  | cons f rest ih => cases f <;> simp [skipAcks, firstError, ih]

theorem awaitReady_firstError (w : List Frame) : (awaitReady w).2 = firstError w := by
  induction w with
  | nil => simp [awaitReady, firstError]
  | cons f rest ih => cases f <;> simp [awaitReady, firstError, ih]

theorem pending_recordOpt (s : PipelineSession) (e : Option Nat) :
    pending (recordOpt s e) =
      (match s.terminal with
        | some c => some c
        | none => (match e with | some c => some c | none => firstError s.wire)) := by
  unfold pending
  rw [recordOpt_terminal, recordOpt_wire]
  cases s.terminal <;> cases e <;> simp

theorem pending_drainStatement (s : PipelineSession) : pending (drainStatement s) = pending s := by
  unfold drainStatement
  rw [pending_recordOpt]
  simp only [pending]
  cases s.terminal with
  | some c => rfl
  | none => exact discardStatement_firstError s.wire

theorem drainStatement_closed (s : PipelineSession) : (drainStatement s).closed = s.closed := by
  simp [drainStatement, recordOpt_closed]

theorem drainStatement_stream (s : PipelineSession) : (drainStatement s).stream = s.stream := by
  simp [drainStatement, recordOpt_stream]

theorem drainStatement_keeps (s : PipelineSession) (c : Nat) (h : s.terminal = some c) :
    (drainStatement s).terminal = some c := by
  unfold drainStatement
  exact recordOpt_keeps _ _ c h

theorem pending_drainStatements (k : Nat) (s : PipelineSession) :
    pending (drainStatements k s) = pending s := by
  induction k generalizing s with
  | zero => rfl
  | succ k ih => simp [drainStatements, ih, pending_drainStatement]

theorem drainStatements_closed (k : Nat) (s : PipelineSession) :
    (drainStatements k s).closed = s.closed := by
  induction k generalizing s with
  | zero => rfl
  | succ k ih => simp [drainStatements, ih, drainStatement_closed]

theorem drainStatements_stream (k : Nat) (s : PipelineSession) :
    (drainStatements k s).stream = s.stream := by
  induction k generalizing s with
  | zero => rfl
  | succ k ih => simp [drainStatements, ih, drainStatement_stream]

theorem drainStatements_keeps (k : Nat) (s : PipelineSession) (c : Nat) (h : s.terminal = some c) :
    (drainStatements k s).terminal = some c := by
  induction k generalizing s with
  | zero => exact h
  | succ k ih => exact ih _ (drainStatement_keeps s c h)

theorem pending_wire_skipAcks (s : PipelineSession) :
    pending { s with wire := skipAcks s.wire } = pending s := by
  simp [pending, skipAcks_firstError]

theorem pending_of_terminal (s : PipelineSession) (c : Nat) (h : s.terminal = some c) :
    pending s = some c := by
  simp [pending, h]

theorem accessorGuard_closed (s : PipelineSession) (h : s.closed = true) :
    accessorGuard s = some .sessionClosed := by
  simp [accessorGuard, h]

theorem accessorGuard_none (s : PipelineSession) (h : accessorGuard s = none) :
    s.closed = false ∧ s.terminal = none := by
  unfold accessorGuard at h
  cases hc : s.closed <;> cases ht : s.terminal <;> simp_all

theorem ExecResults_closed (s : PipelineSession) : (ExecResults s).1.closed = s.closed := by
  unfold ExecResults
  split
  · rfl
  · split <;> simp [record_closed, drainStatement_closed]

theorem QueryResults_closed (s : PipelineSession) : (QueryResults s).1.closed = s.closed := by
  unfold QueryResults
  split
  · rfl
  · rfl
  · split <;> simp [record_closed, drainStatement_closed]

theorem Next_closed (s : PipelineSession) : (Next s).1.closed = s.closed := by
  unfold Next
  split
  · split <;> simp [record_closed]
  · rfl

theorem RowClose_closed (s : PipelineSession) : (RowClose s).closed = s.closed := by
  unfold RowClose
  split <;> simp [drainStatement_closed]

theorem pending_ExecResults (s : PipelineSession) : pending (ExecResults s).1 = pending s := by
  unfold ExecResults
  split
  · rfl
  · rename_i hg
    have ht := (accessorGuard_none s hg).2
    have hw := skipAcks_firstError s.wire
    split
    · rename_i hk; rw [hk] at hw
      simp [pending, ht, ← hw, firstError]
    · rename_i hk; rw [hk] at hw
      simp [pending, record_terminal, record_wire, ht, ← hw, firstError]
    · rename_i hk; rw [hk] at hw
      rw [pending_drainStatement]; simp [pending, ht, ← hw, firstError]
    · rename_i hk; rw [hk] at hw
      rw [pending_drainStatement]; simp [pending, ht, ← hw, firstError]
    · simp [pending, ht, hw]

theorem pending_QueryResults (s : PipelineSession) : pending (QueryResults s).1 = pending s := by
  unfold QueryResults
  split
  · rfl
  · rfl
  · rename_i hg
    have ht := (accessorGuard_none s hg).2
    have hw := skipAcks_firstError s.wire
    split
    · rename_i hk; rw [hk] at hw
      simp [pending, ht, ← hw, firstError]
    · rename_i hk; rw [hk] at hw
      simp [pending, ht, ← hw, firstError]
    · rename_i hk; rw [hk] at hw
      simp [pending, record_terminal, record_wire, ht, ← hw, firstError]
    · rename_i hk; rw [hk] at hw
      simp [pending, ht, ← hw, firstError]
    · rename_i hk; rw [hk] at hw
      rw [pending_drainStatement]; simp [pending, ht, ← hw, firstError]
    · simp [pending, ht, hw]

theorem pending_RowClose (s : PipelineSession) : pending (RowClose s) = pending s := by
  unfold RowClose
  split
  · have := pending_drainStatement s
    simpa [pending] using this
  · rfl

theorem pending_Next (s : PipelineSession) : pending (Next s).1 = pending s := by
  unfold Next
  split
  · have hp := pullRow_firstError s.wire
    split <;> rename_i hk <;> rw [hk] at hp <;> simp only at hp
    · simp [pending, hp]
    · simp [pending, hp]
    · simp only [pending, record_terminal, record_wire]
      cases s.terminal <;> simp [← hp]
  · rfl

theorem QueryRowResults_fst (s : PipelineSession) :
    (QueryRowResults s).1 = (QueryResults s).1 := by
  unfold QueryRowResults
  split <;> rename_i h <;> rw [h]

theorem RowScan_none (s : PipelineSession) : RowScan (s, none) = scanOneRow s := rfl

theorem scanOneRow_of_not_streaming (s : PipelineSession) (h : isStreaming s = false) :
    (scanOneRow s).1 = s := by
  have hn : Next s = (s, false) := by simp [Next, h]
  have hr : RowClose s = s := by simp [RowClose, h]
  unfold scanOneRow
  rw [hn]
  simp only [hr]
  split <;> rfl

theorem scanOneRow_closed (s : PipelineSession) : (scanOneRow s).1.closed = s.closed := by
  unfold scanOneRow
  split
  · split
    · rw [RowClose_closed, Next_closed, Next_closed]
    · split <;> rw [Next_closed, Next_closed]
  · split <;> rw [RowClose_closed, Next_closed]

theorem pending_scanOneRow (s : PipelineSession) : pending (scanOneRow s).1 = pending s := by
  unfold scanOneRow
  split
  · split
    · rw [pending_RowClose, pending_Next, pending_Next]
    · split <;> rw [pending_Next, pending_Next]
  · split <;> rw [pending_RowClose, pending_Next]

theorem RowClose_not_streaming (s : PipelineSession) : isStreaming (RowClose s) = false := by
  unfold RowClose
  split
  · simp [isStreaming]
  · rename_i h; simpa using h

theorem Close_returns_pending (s : PipelineSession) (h : s.closed = false) :
    (Close s).2 = pending s ∧ (Close s).1.terminal = pending s ∧ (Close s).1.closed = true ∧
      isStreaming (Close s).1 = false := by
  have key : ∀ t : PipelineSession,
      (recordOpt { t with wire := (awaitReady t.wire).1, closed := true }
        (awaitReady t.wire).2).terminal = pending t := by
    intro t
    rw [recordOpt_terminal, awaitReady_firstError]
    simp only [pending]
  have hp : pending (drainStatements ((RowClose s).batchSize - (RowClose s).nextIndex) (RowClose s))
      = pending s := by
    rw [pending_drainStatements, pending_RowClose]
  unfold Close
  simp only [h, Bool.false_eq_true, if_false]
  refine ⟨?_, ?_, ?_, ?_⟩
  · rw [key, hp]
  · rw [key, hp]
  · simp [recordOpt_closed]
  · have hs := RowClose_not_streaming s
    unfold isStreaming at hs ⊢
    rw [recordOpt_stream]
    simp only
    rw [drainStatements_stream]
    exact hs

theorem step_invariant (F : Option Nat) (s : PipelineSession) (call : Call)
    (h : (s.closed = true → s.terminal = F ∧ isStreaming s = false) ∧
      (s.closed = false → pending s = F)) :
    ((step s call).closed = true → (step s call).terminal = F ∧ isStreaming (step s call) = false) ∧
      ((step s call).closed = false → pending (step s call) = F) := by
  cases hc : s.closed with
  | true =>
    have h1 := h.1 hc
    have hsame : step s call = s := by
      cases call with
      | execResults => simp [step, ExecResults, accessorGuard_closed s hc]
      | queryResults => simp [step, QueryResults, accessorGuard_closed s hc]
      | queryRowResults =>
        simp [step, QueryRowResults_fst, QueryResults, accessorGuard_closed s hc]
      | next => simp [step, Next, h1.2]
      | scan => rfl
      | err => rfl
      | rowClose => simp [step, RowClose, h1.2]
      | rowScan => simp [step, RowScan_none, scanOneRow_of_not_streaming s h1.2]
      | close => simp [step, Close, hc]
    rw [hsame]
    exact h
  | false =>
    have h2 := h.2 hc
    cases call with
    | execResults =>
      simp only [step, ExecResults_closed, hc, pending_ExecResults, h2]
      simp
    | queryResults =>
      simp only [step, QueryResults_closed, hc, pending_QueryResults, h2]
      simp
    | queryRowResults =>
      simp only [step, QueryRowResults_fst, QueryResults_closed, hc, pending_QueryResults, h2]
      simp
    | next =>
      simp only [step, Next_closed, hc, pending_Next, h2]
      simp
    | scan => simp only [step]; exact h
    | err => simp only [step]; exact h
    | rowClose =>
      simp only [step, RowClose_closed, hc, pending_RowClose, h2]
      simp
    | rowScan =>
      simp only [step, RowScan_none, scanOneRow_closed, hc, pending_scanOneRow, h2]
      simp
    | close =>
      have hk := Close_returns_pending s hc
      simp only [step]
      refine ⟨fun _ => ⟨by rw [hk.2.1, h2], hk.2.2.2⟩, fun hcl => ?_⟩
      rw [hk.2.2.1] at hcl
      exact absurd hcl (by simp)

theorem run_invariant (F : Option Nat) (calls : List Call) (s : PipelineSession)
    (h : (s.closed = true → s.terminal = F ∧ isStreaming s = false) ∧
      (s.closed = false → pending s = F)) :
    ((run s calls).closed = true →
        (run s calls).terminal = F ∧ isStreaming (run s calls) = false) ∧
      ((run s calls).closed = false → pending (run s calls) = F) := by
  induction calls generalizing s with
  | nil => exact h
  | cons call rest ih =>
    have := ih (step s call) (step_invariant F s call h)
    simpa [run] using this

theorem Close_after_run (wire : List Frame) (batchSize : Nat) (calls : List Call) :
    (Close (run (SendBatch wire batchSize) calls)).2 = firstError wire := by
  have h0 : ((SendBatch wire batchSize).closed = true →
        (SendBatch wire batchSize).terminal = firstError wire ∧
          isStreaming (SendBatch wire batchSize) = false) ∧
      ((SendBatch wire batchSize).closed = false →
        pending (SendBatch wire batchSize) = firstError wire) := by
    simp [SendBatch, pending]
  have h := run_invariant (firstError wire) calls _ h0
  cases hc : (run (SendBatch wire batchSize) calls).closed with
  | true => simp [Close, hc, (h.1 hc).1]
  | false => rw [(Close_returns_pending _ hc).1, h.2 hc]

theorem RowClose_keeps (s : PipelineSession) (code : Nat) (h : s.terminal = some code) :
    (RowClose s).terminal = some code := by
  unfold RowClose
  split
  · simpa using drainStatement_keeps s code h
  · exact h

theorem QueryResults_keeps (s : PipelineSession) (code : Nat) (h : s.terminal = some code) :
    (QueryResults s).1.terminal = some code := by
  unfold QueryResults
  split
  · exact h
  · exact h
  · rename_i hg
    have := (accessorGuard_none s hg).2
    rw [h] at this
    exact absurd this (by simp)

theorem Next_keeps (s : PipelineSession) (code : Nat) (h : s.terminal = some code) :
    (Next s).1.terminal = some code := by
  unfold Next
  split
  · split <;> simp [h, record_terminal]
  · exact h

theorem scanOneRow_keeps (s : PipelineSession) (code : Nat) (h : s.terminal = some code) :
    (scanOneRow s).1.terminal = some code := by
  have h1 := Next_keeps s code h
  have h2 := Next_keeps _ code h1
  unfold scanOneRow
  split
  · split
    · exact RowClose_keeps _ code h2
    · split <;> exact h2
  · split <;> exact RowClose_keeps _ code h1

theorem step_keeps_terminal (s : PipelineSession) (call : Call) (code : Nat)
    (h : s.terminal = some code) : (step s call).terminal = some code := by
  cases call with
  | execResults =>
    simp only [step, ExecResults]
    split
    · exact h
    · rename_i hg
      have := (accessorGuard_none s hg).2
      rw [h] at this
      exact absurd this (by simp)
  | queryResults => exact QueryResults_keeps s code h
  | queryRowResults =>
    simp only [step, QueryRowResults_fst]
    exact QueryResults_keeps s code h
  | next => exact Next_keeps s code h
  | scan => exact h
  | err => exact h
  | rowClose => exact RowClose_keeps s code h
  | rowScan =>
    simp only [step, RowScan_none]
    exact scanOneRow_keeps s code h
  | close =>
    simp only [step, Close]
    split
    · exact h
    · apply recordOpt_keeps
      simp only
      apply drainStatements_keeps
      exact RowClose_keeps s code h

theorem run_keeps_terminal (calls : List Call) (s : PipelineSession) (code : Nat)
    (h : s.terminal = some code) : (run s calls).terminal = some code := by
  induction calls generalizing s with
  | nil => exact h
  | cons call rest ih =>
    have := ih (step s call) (step_keeps_terminal s call code h)
    simpa [run] using this

theorem terminal_is_firstError (wire : List Frame) (batchSize : Nat) (calls : List Call)
    (code : Nat) (h : (run (SendBatch wire batchSize) calls).terminal = some code) :
    firstError wire = some code := by
  have h0 : ((SendBatch wire batchSize).closed = true →
        (SendBatch wire batchSize).terminal = firstError wire ∧
          isStreaming (SendBatch wire batchSize) = false) ∧
      ((SendBatch wire batchSize).closed = false →
        pending (SendBatch wire batchSize) = firstError wire) := by
    simp [SendBatch, pending]
  have hi := run_invariant (firstError wire) calls _ h0
  cases hc : (run (SendBatch wire batchSize) calls).closed with
  | true => rw [← (hi.1 hc).1, h]
  | false => rw [← hi.2 hc, pending_of_terminal _ code h]

end Pipeline

/-! ## The pipelined batch session: reading the responses in order -/

namespace Pipeline

theorem Next_dataRow (cols : List Int) (w : List Frame) (b i : Nat) (buf : Option (List Int))
    (t : Option Nat) (cl : Bool) :
    Next ⟨.dataRow cols :: w, b, i, some ⟨.streaming, buf⟩, t, cl⟩ =
      (⟨w, b, i, some ⟨.streaming, some cols⟩, t, cl⟩, true) := rfl

theorem Next_complete (r : CommandResult) (w : List Frame) (b i : Nat)
    (buf : Option (List Int)) (t : Option Nat) (cl : Bool) :
    Next ⟨.commandComplete r :: w, b, i, some ⟨.streaming, buf⟩, t, cl⟩ =
      (⟨w, b, i + 1, some ⟨.exhausted, none⟩, t, cl⟩, false) := rfl

theorem Next_of_not_streaming (s : PipelineSession) (h : isStreaming s = false) :
    Next s = (s, false) := by
  simp [Next, h]

theorem collectRows_of_not_streaming (fuel : Nat) (s : PipelineSession)
    (h : isStreaming s = false) : collectRows fuel s = ([], s) := by
  cases fuel with
  | zero => rfl
  | succ n => simp [collectRows, Next_of_not_streaming s h]

theorem collectRows_rows (r : CommandResult) (w : List Frame) (b i : Nat) (t : Option Nat)
    (cl : Bool) (rs : List (List Int)) :
    ∀ (fuel : Nat) (buf : Option (List Int)), rs.length < fuel →
      collectRows fuel ⟨rs.map .dataRow ++ .commandComplete r :: w, b, i,
          some ⟨.streaming, buf⟩, t, cl⟩ =
        (rs, ⟨w, b, i + 1, some ⟨.exhausted, none⟩, t, cl⟩) := by
  induction rs with
  | nil =>
    intro fuel buf h
    cases fuel with
    | zero => simp at h
    | succ n => simp [collectRows, Next_complete]
  | cons row rest ih =>
    intro fuel buf h
    cases fuel with
    | zero => simp at h
    | succ n =>
      have hn : rest.length < n := by simpa using h
      simp only [List.map_cons, List.cons_append, collectRows, Next_dataRow, if_true, Scan]
      rw [ih n (some row) hn]

theorem readRows_rows (tl : List Frame) (b i : Nat) (t : Option Nat) (cl : Bool)
    (rs : List (List Int)) :
    ∀ (k : Nat) (buf : Option (List Int)), k ≤ rs.length →
      ∃ buf', readRows k ⟨rs.map .dataRow ++ tl, b, i, some ⟨.streaming, buf⟩, t, cl⟩ =
        (rs.take k, ⟨(rs.drop k).map .dataRow ++ tl, b, i, some ⟨.streaming, buf'⟩, t, cl⟩) := by
  induction rs with
  | nil =>
    intro k buf h
    have : k = 0 := by simpa using h
    subst this
    exact ⟨buf, rfl⟩
  | cons row rest ih =>
    intro k buf h
    cases k with
    | zero => exact ⟨buf, rfl⟩
    | succ n =>
      obtain ⟨buf', hb⟩ := ih n (some row) (by simpa using h)
      refine ⟨buf', ?_⟩
      simp only [List.map_cons, List.cons_append, readRows, Next_dataRow, Scan, hb,
        List.take_succ_cons, List.drop_succ_cons]

theorem discardStatement_rows (r : CommandResult) (w : List Frame) (rs : List (List Int)) :
    discardStatement (rs.map .dataRow ++ .commandComplete r :: w) = (w, none) := by
  induction rs with
  | nil => rfl
  | cons row rest ih => simpa [discardStatement] using ih

theorem RowClose_streaming (r : CommandResult) (w : List Frame) (b i : Nat)
    (buf : Option (List Int)) (t : Option Nat) (cl : Bool) (rs : List (List Int)) :
    RowClose ⟨rs.map .dataRow ++ .commandComplete r :: w, b, i, some ⟨.streaming, buf⟩, t, cl⟩ =
      ⟨w, b, i + 1, some ⟨.closed, none⟩, t, cl⟩ := by
  simp [RowClose, isStreaming, drainStatement, discardStatement_rows, recordOpt]

theorem skipAcks_response (x : StatementResponse) (rest : List Frame) :
    skipAcks (responseFrames x ++ rest) = resultFrames x.result ++ rest := by
  obtain ⟨p, res⟩ := x
  cases p <;> cases res <;> simp [responseFrames, resultFrames, skipAcks]

theorem accessorGuard_open (w : List Frame) (b i : Nat) (st : Option RowStream)
    (hst : isStreaming ⟨w, b, i, st, none, false⟩ = false) (hi : i < b) :
    accessorGuard ⟨w, b, i, st, none, false⟩ = none := by
  have : ¬ (b ≤ i) := by omega
  simp [accessorGuard, this, hst]

theorem isStreaming_congr (w w' : List Frame) (b b' i i' : Nat) (st : Option RowStream)
    (t t' : Option Nat) (cl cl' : Bool) :
    isStreaming ⟨w, b, i, st, t, cl⟩ = isStreaming ⟨w', b', i', st, t', cl'⟩ := rfl

theorem ExecResults_command (p : Bool) (r : CommandResult) (rest : List Frame) (b i : Nat)
    (st : Option RowStream)
    (hst : isStreaming ⟨responseFrames ⟨p, .command r⟩ ++ rest, b, i, st, none, false⟩ = false)
    (hi : i < b) :
    ExecResults ⟨responseFrames ⟨p, .command r⟩ ++ rest, b, i, st, none, false⟩ =
      (⟨rest, b, i + 1, st, none, false⟩, .ok r) := by
  unfold ExecResults
  rw [accessorGuard_open _ b i st hst hi]
  simp only [skipAcks_response, resultFrames, List.singleton_append]

theorem QueryResults_rows_nil (p : Bool) (r : CommandResult) (rest : List Frame) (b i : Nat)
    (st : Option RowStream)
    (hst : isStreaming ⟨responseFrames ⟨p, .rows [] r⟩ ++ rest, b, i, st, none, false⟩ = false)
    (hi : i < b) :
    QueryResults ⟨responseFrames ⟨p, .rows [] r⟩ ++ rest, b, i, st, none, false⟩ =
      (⟨rest, b, i + 1, some ⟨.exhausted, none⟩, none, false⟩, .ok ()) := by
  unfold QueryResults
  rw [accessorGuard_open _ b i st hst hi]
  simp only [skipAcks_response, resultFrames, List.map_nil, List.nil_append, List.cons_append]

theorem QueryResults_rows_cons (p : Bool) (row : List Int) (rs : List (List Int))
    (r : CommandResult) (rest : List Frame) (b i : Nat) (st : Option RowStream)
    (hst : isStreaming ⟨responseFrames ⟨p, .rows (row :: rs) r⟩ ++ rest, b, i, st, none, false⟩
      = false)
    (hi : i < b) :
    QueryResults ⟨responseFrames ⟨p, .rows (row :: rs) r⟩ ++ rest, b, i, st, none, false⟩ =
      (⟨(row :: rs).map .dataRow ++ .commandComplete r :: rest, b, i,
          some ⟨.streaming, none⟩, none, false⟩, .ok ()) := by
  unfold QueryResults
  rw [accessorGuard_open _ b i st hst hi]
  simp only [skipAcks_response, resultFrames, List.map_cons, List.cons_append,
    List.append_assoc, List.singleton_append, List.nil_append]

theorem consume_command (viaRow p : Bool) (r : CommandResult) (rest : List Frame) (b i : Nat)
    (st : Option RowStream) (hst : isStreaming ⟨[], b, i, st, none, false⟩ = false)
    (hi : i < b) :
    consume viaRow ⟨p, .command r⟩
        ⟨responseFrames ⟨p, .command r⟩ ++ rest, b, i, st, none, false⟩ =
      (.affected r, ⟨rest, b, i + 1, st, none, false⟩) := by
  simp only [consume, ExecResults_command p r rest b i st hst hi]

theorem consume_rows (p : Bool) (rs : List (List Int)) (r : CommandResult) (rest : List Frame)
    (b i : Nat) (st : Option RowStream) (hst : isStreaming ⟨[], b, i, st, none, false⟩ = false)
    (hi : i < b) :
    consume false ⟨p, .rows rs r⟩
        ⟨responseFrames ⟨p, .rows rs r⟩ ++ rest, b, i, st, none, false⟩ =
      (.rowsRead rs, ⟨rest, b, i + 1, some ⟨.exhausted, none⟩, none, false⟩) := by
  cases rs with
  | nil =>
    simp only [consume, QueryResults_rows_nil p r rest b i st hst hi, Bool.false_eq_true,
      if_false]
    rw [collectRows_of_not_streaming _ ⟨rest, b, i + 1, some ⟨.exhausted, none⟩, none, false⟩ rfl]
  | cons row rs' =>
    simp only [consume, QueryResults_rows_cons p row rs' r rest b i st hst hi,
      Bool.false_eq_true, if_false]
    rw [collectRows_rows r rest b i none false (row :: rs') _ none (by simp; omega)]

theorem consume_row (p : Bool) (row : List Int) (r : CommandResult) (rest : List Frame)
    (b i : Nat) (st : Option RowStream) (hst : isStreaming ⟨[], b, i, st, none, false⟩ = false)
    (hi : i < b) :
    consume true ⟨p, .rows [row] r⟩
        ⟨responseFrames ⟨p, .rows [row] r⟩ ++ rest, b, i, st, none, false⟩ =
      (.rowsRead [row], ⟨rest, b, i + 1, some ⟨.exhausted, none⟩, none, false⟩) := by
  simp only [consume, QueryRowResults, QueryResults_rows_cons p row [] r rest b i st hst hi,
    if_true]
  rfl

/-- The accessors called in order on the responses of a run of statements show
the result of each statement and leave the session behind the run. -/
theorem consumeAll_in_order (plan : List (Bool × StatementResponse)) :
    (∀ q ∈ plan, q.1 = true → ∃ row r, q.2.result = .rows [row] r) →
    ∀ (rest : List Frame) (b i : Nat) (st : Option RowStream),
      isStreaming ⟨[], b, i, st, none, false⟩ = false → i + plan.length ≤ b →
      ∃ st', isStreaming ⟨[], b, i, st', none, false⟩ = false ∧
        consumeAll plan
            ⟨(plan.map (fun q => q.2)).flatMap responseFrames ++ rest, b, i, st, none, false⟩ =
          (plan.map (fun q => expected q.2), ⟨rest, b, i + plan.length, st', none, false⟩) := by
  induction plan with
  | nil =>
    intro _ rest b i st hst _
    exact ⟨st, hst, rfl⟩
  | cons q plan' ih =>
    intro hplan rest b i st hst hlen
    obtain ⟨viaRow, x⟩ := q
    obtain ⟨p, res⟩ := x
    have hplan' : ∀ q ∈ plan', q.1 = true → ∃ row r, q.2.result = .rows [row] r :=
      fun q hq => hplan q (List.mem_cons_of_mem _ hq)
    have hi : i < b := by
      rw [List.length_cons] at hlen
      omega
    have hlen' : (i + 1) + plan'.length ≤ b := by
      rw [List.length_cons] at hlen
      omega
    have hwire : ((((viaRow, (⟨p, res⟩ : StatementResponse)) :: plan').map (fun q => q.2)).flatMap
        responseFrames ++ rest) =
        responseFrames ⟨p, res⟩ ++
          ((plan'.map (fun q => q.2)).flatMap responseFrames ++ rest) := by
      simp [List.flatMap_cons, List.append_assoc]
    have hstep : ∃ st1, isStreaming ⟨[], b, i + 1, st1, none, false⟩ = false ∧
        consume viaRow ⟨p, res⟩
          ⟨responseFrames ⟨p, res⟩ ++
            ((plan'.map (fun q => q.2)).flatMap responseFrames ++ rest), b, i, st, none, false⟩ =
          (expected ⟨p, res⟩,
            ⟨(plan'.map (fun q => q.2)).flatMap responseFrames ++ rest, b, i + 1, st1, none,
              false⟩) := by
      cases res with
      | command r => exact ⟨st, hst, consume_command viaRow p r _ b i st hst hi⟩
      | rows rs r =>
        cases viaRow with
        | false => exact ⟨some ⟨.exhausted, none⟩, rfl, consume_rows p rs r _ b i st hst hi⟩
        | true =>
          obtain ⟨row, r', hrow⟩ := hplan (true, ⟨p, .rows rs r⟩) (List.mem_cons_self _ _) rfl
          simp only [StatementResult.rows.injEq] at hrow
          obtain ⟨rfl, rfl⟩ := hrow
          exact ⟨some ⟨.exhausted, none⟩, rfl, consume_row p row r _ b i st hst hi⟩
    obtain ⟨st1, hst1, hc⟩ := hstep
    obtain ⟨st', hst', hall⟩ := ih hplan' rest b (i + 1) st1 hst1 hlen'
    refine ⟨st', hst', ?_⟩
    rw [hwire]
    simp only [consumeAll, hc, hall, List.map_cons, List.length_cons]
    have : i + 1 + plan'.length = i + (plan'.length + 1) := by omega
    rw [this]

theorem record_nextIndex (s : PipelineSession) (code : Nat) :
    (record s code).nextIndex = s.nextIndex := by
  unfold record
  cases s.terminal <;> rfl

theorem recordOpt_nextIndex (s : PipelineSession) (e : Option Nat) :
    (recordOpt s e).nextIndex = s.nextIndex := by
  cases e <;> simp [recordOpt, record_nextIndex]

theorem drainStatement_nextIndex (s : PipelineSession) :
    (drainStatement s).nextIndex = s.nextIndex + 1 := by
  simp [drainStatement, recordOpt_nextIndex]

theorem drainStatements_nextIndex (k : Nat) (s : PipelineSession) :
    (drainStatements k s).nextIndex = s.nextIndex + k := by
  induction k generalizing s with
  | zero => rfl
  | succ k ih =>
    rw [drainStatements, ih, drainStatement_nextIndex]
    omega

theorem Next_nextIndex_le (s : PipelineSession) : s.nextIndex ≤ (Next s).1.nextIndex := by
  unfold Next
  split
  · split <;> simp [record_nextIndex]
  · exact Nat.le_refl _

theorem RowClose_nextIndex_le (s : PipelineSession) : s.nextIndex ≤ (RowClose s).nextIndex := by
  unfold RowClose
  split
  · simp [drainStatement_nextIndex]
  · exact Nat.le_refl _

theorem ExecResults_nextIndex_le (s : PipelineSession) :
    s.nextIndex ≤ (ExecResults s).1.nextIndex := by
  unfold ExecResults
  split
  · exact Nat.le_refl _
  · split <;> simp [record_nextIndex, drainStatement_nextIndex]

theorem QueryResults_nextIndex_le (s : PipelineSession) :
    s.nextIndex ≤ (QueryResults s).1.nextIndex := by
  unfold QueryResults
  split
  · exact Nat.le_refl _
  · exact Nat.le_refl _
  · split <;> simp [record_nextIndex, drainStatement_nextIndex]

theorem scanOneRow_nextIndex_le (s : PipelineSession) :
    s.nextIndex ≤ (scanOneRow s).1.nextIndex := by
  have h1 := Next_nextIndex_le s
  have h2 := Next_nextIndex_le (Next s).1
  have h3 := RowClose_nextIndex_le (Next s).1
  have h4 := RowClose_nextIndex_le (Next (Next s).1).1
  unfold scanOneRow
  split
  · split
    · dsimp only
      omega
    · split <;> dsimp only <;> omega
  · split <;> dsimp only <;> omega

theorem Close_nextIndex_le (s : PipelineSession) : s.nextIndex ≤ (Close s).1.nextIndex := by
  unfold Close
  split
  · exact Nat.le_refl _
  · have h1 := RowClose_nextIndex_le s
    simp only [recordOpt_nextIndex, drainStatements_nextIndex]
    omega

theorem step_nextIndex_le (s : PipelineSession) (call : Call) :
    s.nextIndex ≤ (step s call).nextIndex := by
  cases call with
  | execResults => exact ExecResults_nextIndex_le s
  | queryResults => exact QueryResults_nextIndex_le s
  | queryRowResults =>
    simp only [step, QueryRowResults_fst]
    exact QueryResults_nextIndex_le s
  | next => exact Next_nextIndex_le s
  | scan => exact Nat.le_refl _
  | err => exact Nat.le_refl _
  | rowClose => exact RowClose_nextIndex_le s
  | rowScan =>
    simp only [step, RowScan_none]
    exact scanOneRow_nextIndex_le s
  | close => exact Close_nextIndex_le s

theorem run_nextIndex_le (calls : List Call) (s : PipelineSession) :
    s.nextIndex ≤ (run s calls).nextIndex := by
  induction calls generalizing s with
  | nil => exact Nat.le_refl _
  | cons call rest ih =>
    have h1 := step_nextIndex_le s call
    have h2 := ih (step s call)
    have : run s (call :: rest) = run (step s call) rest := rfl
    rw [this]
    omega

/-- Reading `k` rows of a row-returning statement and closing its stream early:
the rows read are the first `k`, and the session is left right behind the
response of the statement. -/
theorem closeAfterReading_eq (p : Bool) (rs : List (List Int)) (r : CommandResult)
    (rest : List Frame) (b i : Nat) (st : Option RowStream) (k : Nat)
    (hst : isStreaming ⟨[], b, i, st, none, false⟩ = false) (hi : i < b) (hk : k ≤ rs.length) :
    (QueryResults ⟨responseFrames ⟨p, .rows rs r⟩ ++ rest, b, i, st, none, false⟩).2 = .ok () ∧
    (readRows k
      (QueryResults ⟨responseFrames ⟨p, .rows rs r⟩ ++ rest, b, i, st, none, false⟩).1).1 =
      rs.take k ∧
    ∃ st', isStreaming ⟨[], b, i + 1, st', none, false⟩ = false ∧
      closeAfterReading k ⟨responseFrames ⟨p, .rows rs r⟩ ++ rest, b, i, st, none, false⟩ =
        ⟨rest, b, i + 1, st', none, false⟩ := by
  cases rs with
  | nil =>
    have hk0 : k = 0 := by simpa using hk
    subst hk0
    rw [closeAfterReading, QueryResults_rows_nil p r rest b i st hst hi]
    exact ⟨rfl, rfl, some ⟨.exhausted, none⟩, rfl, rfl⟩
  | cons row rs' =>
    rw [closeAfterReading, QueryResults_rows_cons p row rs' r rest b i st hst hi]
    obtain ⟨buf', hb⟩ := readRows_rows (.commandComplete r :: rest) b i none false (row :: rs') k
      none hk
    refine ⟨rfl, ?_, some ⟨.closed, none⟩, rfl, ?_⟩
    · simp only [hb]
    · simp only [hb]
      exact RowClose_streaming r rest b i buf' none false _

end Pipeline

/-! ## Claims on the array codec -/

namespace Pgtype

/-- C3: a Null-status array round-trips to Null in both formats.  For every
array whose status is Null, whatever its elements and dimensions, `EncodeText`
and `EncodeBinary` write no bytes and return null with no error; `DecodeText`
and `DecodeBinary` of an absent source succeed and set the destination to
status Null with no elements and no dimensions. -/
theorem C3_null_round_trip (c : Codecs) (a dst : TimestamptzArray) (h : a.Status = .Null) :
    EncodeText c a = ⟨[], true, .returned none⟩ ∧
    EncodeBinary c a = ⟨[], true, .returned none⟩ ∧
    DecodeText c dst none = (⟨[], [], .Null⟩, .returned none) ∧
    DecodeBinary c dst none = (⟨[], [], .Null⟩, .returned none) := by
  refine ⟨?_, ?_, rfl, rfl⟩
  · simp [EncodeText, h]
  · simp [EncodeBinary, encodeBinary, h]

theorem C3_null_round_trip_witness :
    sampleNullArray.Status = .Null ∧
    EncodeText refCodecs sampleNullArray = ⟨[], true, .returned none⟩ ∧
    EncodeBinary refCodecs sampleNullArray = ⟨[], true, .returned none⟩ ∧
    DecodeText refCodecs sampleArray none = (⟨[], [], .Null⟩, .returned none) ∧
    DecodeBinary refCodecs sampleArray none = (⟨[], [], .Null⟩, .returned none) :=
  ⟨rfl, C3_null_round_trip refCodecs sampleNullArray sampleArray rfl⟩

/-- C5: binary element framing on decode.  When the header decodes to a
non-empty dimension list and the bytes from the read position on are the
frames `fs` (a 4-byte big-endian length prefix, -1 with no payload for `none`,
otherwise the payload length followed by the payload), one frame per counted
element, then `DecodeBinary` is the element decoder applied to the payloads in
order, an absent source for every -1 prefix: it yields those elements with the
header's dimensions, or the first element decode error.  After the first `k`
frames the loop continues at the read position right behind them. -/
theorem C5_binary_element_framing (c : Codecs) (dst : TimestamptzArray) (src : Bytes)
    (hdr : ArrayHeader) (rp : Nat) (d0 : ArrayDimension) (ds : List ArrayDimension)
    (fs : List (Option Bytes)) (tail : Bytes)
    (hh : c.ArrayHeaderDecodeBinary src = .ok (hdr, rp))
    (hd : hdr.Dimensions = d0 :: ds)
    (hn : elementCount d0 ds = fs.length)
    (hlen : ∀ b, some b ∈ fs → b.length < 2147483648)
    (hsrc : src.drop rp = fs.flatMap frame ++ tail) :
    DecodeBinary c dst (some src) =
      (match decodeFrames c fs with
        | .ok es => (⟨es, hdr.Dimensions, .Present⟩, .returned none)
        | .error e => (dst, .returned (some e))) ∧
    ∀ k, k ≤ fs.length →
      decodeElements c src fs.length rp =
        (match decodeFrames c (fs.take k) with
          | .error e => .error (.err e)
          | .ok vs =>
            match decodeElements c src (fs.length - k)
                (rp + ((fs.take k).flatMap frame).length) with
            | .error f => .error f
            | .ok ws => .ok (vs ++ ws)) := by
  constructor
  · have hall := decodeElements_all c fs src rp tail hlen hsrc
    unfold DecodeBinary
    simp only [hh, hd, hn, Int.toNat_ofNat, hall]
    have : ¬ ((fs.length : Int) < 0) := by omega
    simp only [this, if_false]
    cases decodeFrames c fs <;> rfl
  · intro k hk
    have hsplit : fs.flatMap frame ++ tail =
        (fs.take k).flatMap frame ++ ((fs.drop k).flatMap frame ++ tail) := by
      have h : fs.flatMap frame = (fs.take k ++ fs.drop k).flatMap frame := by
        rw [List.take_append_drop]
      rw [h, List.flatMap_append, List.append_assoc]
    have hlen' : ∀ b, some b ∈ fs.take k → b.length < 2147483648 :=
      fun b hb => hlen b (List.mem_of_mem_take hb)
    have := decodeElements_frames c (fs.take k) src rp (fs.length - k)
      ((fs.drop k).flatMap frame ++ tail) hlen' (hsrc.trans hsplit)
    have hcount : (fs.take k).length + (fs.length - k) = fs.length := by
      rw [List.length_take]
      omega
    rw [hcount] at this
    exact this

theorem C5_binary_element_framing_witness :
    DecodeBinary refCodecs sampleNullArray (some sampleBinary) =
      (match decodeFrames refCodecs sampleFrames with
        | .ok es => (⟨es, [⟨2, 1⟩, ⟨2, 1⟩], .Present⟩, .returned none)
        | .error e => (sampleNullArray, .returned (some e))) ∧
    ∀ k, k ≤ sampleFrames.length →
      decodeElements refCodecs sampleBinary sampleFrames.length 28 =
        (match decodeFrames refCodecs (sampleFrames.take k) with
          | .error e => .error (.err e)
          | .ok vs =>
            match decodeElements refCodecs sampleBinary (sampleFrames.length - k)
                (28 + ((sampleFrames.take k).flatMap frame).length) with
            | .error f => .error f
            | .ok ws => .ok (vs ++ ws)) :=
  C5_binary_element_framing refCodecs sampleNullArray sampleBinary
    ⟨true, 1184, [⟨2, 1⟩, ⟨2, 1⟩]⟩ 28 ⟨2, 1⟩ [⟨2, 1⟩] sampleFrames [] rfl rfl rfl
    (by
      intro b hb
      simp only [sampleFrames, List.mem_cons, Option.some.injEq, List.not_mem_nil, or_false,
        reduceCtorEq, false_or] at hb
      rcases hb with rfl | rfl | rfl <;> decide) rfl

/-- C6: binary encode layout.  For every Present array whose elements all
encode without error, `EncodeBinary` returns not-null and no error and writes
exactly the encoded array header for the element OID of `timestamptz`, the
array's dimensions and a contains-null flag, followed for each element in order
by its frame: the 4-byte value -1 if the element encoder reported null,
otherwise the 4-byte length of its encoding followed by those bytes.  The
contains-null flag is true exactly when some element has status Null. -/
theorem C6_binary_encode_layout (c : Codecs) (a : TimestamptzArray)
    (hP : a.Status = .Present)
    (henc : ∀ e ∈ a.Elements, ∃ p, c.TimestamptzEncodeBinary e = .ok p) :
    ∃ containsNull : Bool,
      (containsNull = true ↔ ∃ e ∈ a.Elements, e.Status = .Null) ∧
      EncodeBinary c a =
        ⟨c.ArrayHeaderEncodeBinary ⟨containsNull, c.TimestamptzOid, a.Dimensions⟩ ++
          a.Elements.flatMap (fun e => frame (binaryPayload c e)), false, .returned none⟩ := by
  refine ⟨a.Elements.any (fun e => decide (e.Status = .Null)), ?_, ?_⟩
  · simp [List.any_eq_true]
  · exact encodeBinary_present c a c.TimestamptzOid hP henc

theorem C6_binary_encode_layout_witness :
    ∃ containsNull : Bool,
      (containsNull = true ↔ ∃ e ∈ sampleArray.Elements, e.Status = .Null) ∧
      EncodeBinary refCodecs sampleArray =
        ⟨refCodecs.ArrayHeaderEncodeBinary
            ⟨containsNull, refCodecs.TimestamptzOid, sampleArray.Dimensions⟩ ++
          sampleArray.Elements.flatMap (fun e => frame (binaryPayload refCodecs e)),
          false, .returned none⟩ :=
  C6_binary_encode_layout refCodecs sampleArray rfl (by
    intro e he
    simp only [sampleArray, List.mem_cons, List.mem_singleton, List.not_mem_nil, or_false] at he
    rcases he with rfl | rfl | rfl | rfl <;> exact ⟨_, rfl⟩)

/-- C9: an Undefined-status array is a caller error.  For every array whose
status is Undefined, whatever its elements and dimensions, `EncodeText` and
`EncodeBinary` return the error `errUndefined` with null false and write no
bytes. -/
theorem C9_undefined_is_error (c : Codecs) (a : TimestamptzArray) (h : a.Status = .Undefined) :
    EncodeText c a = ⟨[], false, .returned (some .errUndefined)⟩ ∧
    EncodeBinary c a = ⟨[], false, .returned (some .errUndefined)⟩ := by
  constructor
  · simp [EncodeText, h]
  · simp [EncodeBinary, encodeBinary, h]

theorem C9_undefined_is_error_witness :
    sampleUndefinedArray.Status = .Undefined ∧
    EncodeText refCodecs sampleUndefinedArray = ⟨[], false, .returned (some .errUndefined)⟩ ∧
    EncodeBinary refCodecs sampleUndefinedArray = ⟨[], false, .returned (some .errUndefined)⟩ :=
  ⟨rfl, C9_undefined_is_error refCodecs sampleUndefinedArray rfl⟩

end Pgtype

namespace Pgtype

/-- C4: element count of a binary decode, evaluated where the code departs from
the claim.  A successful decode always has status Present, no element for a
header without dimensions, and otherwise as many elements as the `int32`
running product of the header's dimension lengths.  For the header that
announces two dimensions of length 65536 with no element behind it the
mathematical product of the lengths is 4294967296, the `int32` running product
is 0, and `DecodeBinary` succeeds with status Present, both dimensions and no
element. -/
theorem C4_element_count_overflow :
    (∀ (c : Codecs) (dst r : TimestamptzArray) (src : Bytes),
      DecodeBinary c dst (some src) = (r, .returned none) →
        r.Status = .Present ∧
        ∃ hdr rp, c.ArrayHeaderDecodeBinary src = .ok (hdr, rp) ∧
          r.Dimensions = hdr.Dimensions ∧
          (hdr.Dimensions = [] → r.Elements = []) ∧
          (∀ d0 ds, hdr.Dimensions = d0 :: ds →
            (r.Elements.length : Int) = elementCount d0 ds)) ∧
    DecodeBinary refCodecs sampleNullArray (some overflowBinary) =
      (⟨[], [⟨65536, 1⟩, ⟨65536, 1⟩], .Present⟩, .returned none) ∧
    lengthProduct [⟨65536, 1⟩, ⟨65536, 1⟩] = 4294967296 ∧
    elementCount ⟨65536, 1⟩ [⟨65536, 1⟩] = 0 ∧
    overflowBinary = refArrayHeaderEncodeBinary ⟨false, 1184, [⟨65536, 1⟩, ⟨65536, 1⟩]⟩ := by
  refine ⟨DecodeBinary_success, by decide, by decide, by decide, by decide⟩

/-- C7: text decode token mapping.  When the tokenizer returns tokens and
dimensions for a non-nil source, `DecodeText` succeeds exactly with status
Present, those dimensions, and one element per token in order, element `i`
being the element text decoder applied to an absent source when token `i` is
the literal NULL and to the bytes of the token otherwise.  `DecodeText` returns
an error exactly when the tokenizer fails or the element decoder fails on some
token, and it does not panic. -/
theorem C7_text_decode_token_mapping (c : Codecs) (dst : TimestamptzArray) (src : Bytes) :
    (∀ uta es, c.ParseUntypedTextArray src = .ok uta →
      List.Forall₂ (fun t e => c.TimestamptzDecodeText (tokenSource t) = .ok e) uta.Elements es →
        DecodeText c dst (some src) = (⟨es, uta.Dimensions, .Present⟩, .returned none)) ∧
    (∀ r, DecodeText c dst (some src) = (r, .returned none) →
      ∃ uta, c.ParseUntypedTextArray src = .ok uta ∧ r.Status = .Present ∧
        r.Dimensions = uta.Dimensions ∧
        List.Forall₂ (fun t e => c.TimestamptzDecodeText (tokenSource t) = .ok e)
          uta.Elements r.Elements) ∧
    ((∃ e, (DecodeText c dst (some src)).2 = .returned (some e)) ↔
      ((∃ e, c.ParseUntypedTextArray src = .error e) ∨
        ∃ uta t e, c.ParseUntypedTextArray src = .ok uta ∧ t ∈ uta.Elements ∧
          c.TimestamptzDecodeText (tokenSource t) = .error e)) ∧
    (DecodeText c dst (some src)).2 ≠ .panicked := by
  cases hp : c.ParseUntypedTextArray src with
  | error e0 =>
    have hD : DecodeText c dst (some src) = (dst, .returned (some e0)) := by
      simp only [DecodeText, hp]
    rw [hD]
    refine ⟨?_, ?_, ?_, ?_⟩
    · intro uta es hu
      exact absurd hu (by simp)
    · intro r h
      simp at h
    · simp
    · simp
  | ok uta =>
    cases hd : decodeTextElements c uta.Elements with
    | error e1 =>
      have hD : DecodeText c dst (some src) = (dst, .returned (some e1)) := by
        simp only [DecodeText, hp, hd]
      rw [hD]
      have herr := (decodeTextElements_error_iff c uta.Elements).1 ⟨e1, hd⟩
      refine ⟨?_, ?_, ?_, ?_⟩
      · intro uta' es hu hf
        simp only [Except.ok.injEq] at hu
        subst hu
        have := (decodeTextElements_ok_iff c _ es).2 hf
        rw [hd] at this
        exact absurd this (by simp)
      · intro r h
        simp at h
      · simp only [Outcome.returned.injEq, Option.some.injEq, exists_eq', true_iff]
        obtain ⟨t, e, hm, ht⟩ := herr
        exact Or.inr ⟨uta, t, e, rfl, hm, ht⟩
      · simp
    | ok es0 =>
      have hD : DecodeText c dst (some src) =
          (⟨es0, uta.Dimensions, .Present⟩, .returned none) := by
        simp only [DecodeText, hp, hd]
      rw [hD]
      have hok := (decodeTextElements_ok_iff c uta.Elements es0).1 hd
      refine ⟨?_, ?_, ?_, ?_⟩
      · intro uta' es hu hf
        simp only [Except.ok.injEq] at hu
        subst hu
        have := (decodeTextElements_ok_iff c _ es).2 hf
        rw [hd] at this
        simp only [Except.ok.injEq] at this
        rw [this]
      · intro r h
        simp only [Prod.mk.injEq, and_true] at h
        subst h
        exact ⟨uta, rfl, rfl, rfl, hok⟩
      · simp only [Outcome.returned.injEq, reduceCtorEq, exists_false, false_iff, not_or,
          not_exists, not_false_eq_true, implies_true, true_and]
        intro uta' t e hh
        obtain ⟨hu, hm, ht⟩ := hh
        simp only [Except.ok.injEq] at hu
        subst hu
        have := (decodeTextElements_error_iff c _).2 ⟨t, e, hm, ht⟩
        rw [hd] at this
        obtain ⟨e', he'⟩ := this
        exact absurd he' (by simp)
      · simp

theorem C7_text_decode_token_mapping_witness :
    DecodeText refCodecs sampleNullArray (some sampleText) =
      (⟨sampleArray.Elements, sampleArray.Dimensions, .Present⟩, .returned none) :=
  (C7_text_decode_token_mapping refCodecs sampleNullArray sampleText).1
    ⟨[[53], [78, 85, 76, 76], [45, 55], [49, 50, 51, 52, 53, 54]], [⟨2, 1⟩, ⟨2, 1⟩]⟩
    sampleArray.Elements rfl
    (List.Forall₂.cons rfl (List.Forall₂.cons rfl (List.Forall₂.cons rfl
      (List.Forall₂.cons rfl List.Forall₂.nil))))

/-- C8, as stated, fails: for the three dimension lengths 2147483647 the
outermost table entry is not the product of the lengths, because the Go `int`
product wraps around. -/
theorem C8_repeat_counts_counterexample :
    hugeDimensions ≠ [] ∧
    (dimElemCounts hugeDimensions)[0]? ≠ some (lengthProduct (hugeDimensions.drop 0)) ∧
    (dimElemCounts hugeDimensions)[0]? = some 4611686024869838847 ∧
    lengthProduct hugeDimensions = 2147483647 * 2147483647 * 2147483647 := by
  refine ⟨by decide, by decide, by decide, by decide⟩

/-- C8, amended: the repeat-count table of the text encoder.  For every
non-empty dimension list in which every product of the lengths from a position
inward lies in the range of a Go `int`, entry `k` of `dimElemCounts` is the
product of the lengths from position `k` inward; so the innermost entry is the
last length, and the outermost entry equals the number of elements whenever
that number equals the product of all lengths.  For the lengths 3, 5, 2 the
table is 30, 10, 2 and for the single length 4 it is 4. -/
theorem C8_repeat_counts (dims : List ArrayDimension) (hne : dims ≠ [])
    (hfit : ∀ k, k < dims.length → fitsInt (lengthProduct (dims.drop k))) :
    (∀ k, k < dims.length → (dimElemCounts dims)[k]? = some (lengthProduct (dims.drop k))) ∧
    (dimElemCounts dims).getLast? = dims.getLast?.map (fun d => d.Length) ∧
    (∀ elements : List Timestamptz, lengthProduct dims = elements.length →
      (dimElemCounts dims).head? = some (elements.length : Int)) ∧
    dimElemCounts [⟨3, 1⟩, ⟨5, 1⟩, ⟨2, 1⟩] = [30, 10, 2] ∧
    dimElemCounts [⟨4, 1⟩] = [4] := by
  have heq := dimElemCounts_eq_suffixProducts dims hfit
  refine ⟨?_, ?_, ?_, by decide, by decide⟩
  · intro k hk
    rw [heq]
    exact suffixProducts_getElem? dims k hk
  · rw [heq]
    exact suffixProducts_getLast? dims
  · intro elements hp
    rw [heq]
    cases dims with
    | nil => exact absurd rfl hne
    | cons d rest => simp [suffixProducts, hp]

theorem C8_repeat_counts_witness :
    (∀ k, k < sampleArray.Dimensions.length →
      (dimElemCounts sampleArray.Dimensions)[k]? =
        some (lengthProduct (sampleArray.Dimensions.drop k))) ∧
    (dimElemCounts sampleArray.Dimensions).getLast? =
      sampleArray.Dimensions.getLast?.map (fun d => d.Length) ∧
    (∀ elements : List Timestamptz, lengthProduct sampleArray.Dimensions = elements.length →
      (dimElemCounts sampleArray.Dimensions).head? = some (elements.length : Int)) ∧
    dimElemCounts [⟨3, 1⟩, ⟨5, 1⟩, ⟨2, 1⟩] = [30, 10, 2] ∧
    dimElemCounts [⟨4, 1⟩] = [4] :=
  C8_repeat_counts sampleArray.Dimensions (by decide) (by
    intro k hk
    have hk2 : k < 2 := hk
    interval_cases k <;> decide)

end Pgtype

namespace Pgtype

/-- C1, as stated, fails: the array of 65536 by 32768 null elements is Present,
its elements are Null, the product of its dimension lengths is the number of
its elements, and it encodes without error; on the bytes written the `int32`
element count of `DecodeBinary` is negative and the decode panics. -/
theorem C1_binary_round_trip_counterexample :
    hugeArray.Status = .Present ∧
    (∀ e ∈ hugeArray.Elements, e.Status = .Null) ∧
    lengthProduct hugeArray.Dimensions = hugeArray.Elements.length ∧
    (EncodeBinary refCodecs hugeArray).outcome = .returned none ∧
    (EncodeBinary refCodecs hugeArray).null = false ∧
    DecodeBinary refCodecs sampleNullArray (some (EncodeBinary refCodecs hugeArray).written) =
      (sampleNullArray, .panicked) := by
  have hmem : ∀ e ∈ hugeArray.Elements, e = ⟨0, .Null⟩ := by
    intro e he
    exact (List.mem_replicate.1 he).2
  have henc : ∀ e ∈ hugeArray.Elements, ∃ p, refCodecs.TimestamptzEncodeBinary e = .ok p := by
    intro e he
    rw [hmem e he]
    exact ⟨_, rfl⟩
  have hany : hugeArray.Elements.any (fun e => decide (e.Status = .Null)) = true := by
    rw [List.any_eq_true]
    exact ⟨⟨0, .Null⟩, List.mem_replicate.2 ⟨by decide, rfl⟩, by decide⟩
  have hhdr : refCodecs.ArrayHeaderEncodeBinary ⟨true, 1184, hugeArray.Dimensions⟩
      = hugeHeaderBytes := by decide
  have hE := encodeBinary_present refCodecs hugeArray 1184 rfl henc
  rw [hany, hhdr] at hE
  have hE' : EncodeBinary refCodecs hugeArray =
      ⟨hugeHeaderBytes ++ hugeArray.Elements.flatMap (fun e => frame (binaryPayload refCodecs e)),
        false, .returned none⟩ := hE
  have hdec : ∀ X : Bytes, refArrayHeaderDecodeBinary (hugeHeaderBytes ++ X) =
      .ok (⟨true, 1184, [⟨65536, 1⟩, ⟨32768, 1⟩]⟩, 28) := by
    intro X
    rfl
  refine ⟨rfl, ?_, ?_, ?_, ?_, ?_⟩
  · intro e he
    rw [hmem e he]
  · have : hugeArray.Elements.length = 2147483648 := List.length_replicate _ _
    rw [this]
    decide
  · rw [hE']
  · rw [hE']
  · rw [hE']
    simp only [DecodeBinary]
    have := hdec (hugeArray.Elements.flatMap (fun e => frame (binaryPayload refCodecs e)))
    have hc : refCodecs.ArrayHeaderDecodeBinary = refArrayHeaderDecodeBinary := rfl
    rw [hc, this]
    have hcount : elementCount ⟨65536, 1⟩ [⟨32768, 1⟩] < 0 := by decide
    simp only [hcount, if_true]

/-- C1, amended: binary round trip.  For every Present array with fewer than
2^31 elements, each Present or Null, whose dimensions are empty with no
elements or non-empty with the product of the lengths equal to the number of
elements, `EncodeBinary` reports not-null and no error and writes bytes on
which `DecodeBinary` succeeds with status Present, the same dimensions, and the
same elements in the same order with the same null status and value; assuming
that the element codec decodes what it encodes for the elements of the array,
in fewer than 2^31 bytes each, and that the header codec decodes the header
that was written and reports the position behind it. -/
theorem C1_binary_round_trip (c : Codecs) (a dst : TimestamptzArray)
    (hP : a.Status = .Present)
    (hE : ∀ e ∈ a.Elements, e.Status = .Present ∨ e.Status = .Null)
    (hD : (a.Dimensions = [] ∧ a.Elements = []) ∨
      (a.Dimensions ≠ [] ∧ lengthProduct a.Dimensions = a.Elements.length))
    (hN : a.Elements.length < 2147483648)
    (hcodec : ∀ e ∈ a.Elements, (e.Status = .Present ∨ e.Status = .Null) →
      ∃ nul b e', c.TimestamptzEncodeBinary e = .ok (nul, b) ∧ b.length < 2147483648 ∧
        c.TimestamptzDecodeBinary (if nul then none else some b) = .ok e' ∧ sameElement e e')
    (hhdr : ∀ rest, ∃ h',
      c.ArrayHeaderDecodeBinary
          (c.ArrayHeaderEncodeBinary
            ⟨a.Elements.any (fun e => decide (e.Status = .Null)), c.TimestamptzOid,
              a.Dimensions⟩ ++ rest) =
        .ok (h', (c.ArrayHeaderEncodeBinary
            ⟨a.Elements.any (fun e => decide (e.Status = .Null)), c.TimestamptzOid,
              a.Dimensions⟩).length) ∧
      h'.Dimensions = a.Dimensions) :
    ∃ b decoded, EncodeBinary c a = ⟨b, false, .returned none⟩ ∧
      DecodeBinary c dst (some b) = (decoded, .returned none) ∧
      decoded.Status = .Present ∧ decoded.Dimensions = a.Dimensions ∧
      List.Forall₂ sameElement a.Elements decoded.Elements := by
  have hcodec' : ∀ e ∈ a.Elements, ∃ nul b e', c.TimestamptzEncodeBinary e = .ok (nul, b) ∧
      b.length < 2147483648 ∧
      c.TimestamptzDecodeBinary (if nul then none else some b) = .ok e' ∧ sameElement e e' :=
    fun e he => hcodec e he (hE e he)
  have henc : ∀ e ∈ a.Elements, ∃ p, c.TimestamptzEncodeBinary e = .ok p := by
    intro e he
    obtain ⟨nul, b, _, h, _⟩ := hcodec' e he
    exact ⟨_, h⟩
  have hW := encodeBinary_present c a c.TimestamptzOid hP henc
  rw [flatMap_frame_payload] at hW
  obtain ⟨h', hh, hdims⟩ := hhdr ((a.Elements.map (binaryPayload c)).flatMap frame)
  obtain ⟨es', hframes, hsame⟩ := decodeFrames_of_codec c a.Elements hcodec'
  refine ⟨_, ⟨es', h'.Dimensions, .Present⟩, hW, ?_, rfl, hdims, hsame⟩
  rcases hD with ⟨hd0, he0⟩ | ⟨hdne, hprod⟩
  · have hes : es' = [] := by
      rw [he0] at hsame
      exact List.forall₂_nil_left_iff.1 hsame
    have hd' : h'.Dimensions = [] := by rw [hdims, hd0]
    simp only [DecodeBinary, hh, hd', hes]
  · cases hdim : h'.Dimensions with
    | nil => rw [hdims] at hdim; exact absurd hdim hdne
    | cons d0 ds =>
      have hcount : elementCount d0 ds = a.Elements.length := by
        apply elementCount_of_product d0 ds a.Elements.length _ hN
        rw [← hdim, hdims]
        exact hprod
      have hlen := payload_length_of_codec c a.Elements hcodec'
      have hdrop : List.drop
          (c.ArrayHeaderEncodeBinary
            ⟨a.Elements.any (fun e => decide (e.Status = .Null)), c.TimestamptzOid,
              a.Dimensions⟩).length
          (c.ArrayHeaderEncodeBinary
            ⟨a.Elements.any (fun e => decide (e.Status = .Null)), c.TimestamptzOid,
              a.Dimensions⟩ ++ (a.Elements.map (binaryPayload c)).flatMap frame) =
          (a.Elements.map (binaryPayload c)).flatMap frame ++ [] := by
        rw [List.drop_left, List.append_nil]
      have hall := decodeElements_all c (a.Elements.map (binaryPayload c)) _ _ [] hlen hdrop
      rw [hframes, List.length_map] at hall
      have hnn : ¬ ((a.Elements.length : Int) < 0) := by omega
      simp only [DecodeBinary, hh, hdim, hcount, hnn, if_false, Int.toNat_ofNat, hall]

theorem C1_binary_round_trip_witness :
    ∃ b decoded, EncodeBinary refCodecs sampleArray = ⟨b, false, .returned none⟩ ∧
      DecodeBinary refCodecs sampleNullArray (some b) = (decoded, .returned none) ∧
      decoded.Status = .Present ∧ decoded.Dimensions = sampleArray.Dimensions ∧
      List.Forall₂ sameElement sampleArray.Elements decoded.Elements :=
  C1_binary_round_trip refCodecs sampleArray sampleNullArray rfl (by decide)
    (Or.inr ⟨by decide, by decide⟩) (by decide)
    (by
      intro e he _
      simp only [sampleArray, List.mem_cons, List.mem_singleton, List.not_mem_nil, or_false] at he
      rcases he with rfl | rfl | rfl | rfl
      · exact ⟨false, [0, 0, 0, 0, 0, 0, 0, 5], ⟨5, .Present⟩, by rfl, by decide, by rfl, by decide⟩
      · exact ⟨true, [], ⟨0, .Null⟩, by rfl, by decide, by rfl, by decide⟩
      · exact ⟨false, [255, 255, 255, 255, 255, 255, 255, 249], ⟨-7, .Present⟩, by rfl, by decide,
          by rfl, by decide⟩
      · exact ⟨false, [0, 0, 0, 0, 0, 1, 226, 64], ⟨123456, .Present⟩, by rfl, by decide, by rfl,
          by decide⟩)
    (fun _ => ⟨⟨true, 1184, [⟨2, 1⟩, ⟨2, 1⟩]⟩, rfl, rfl⟩)

end Pgtype

namespace Pgtype

/-- C2, as stated, fails: a Present array with one dimension of length 0 and no
element satisfies the claim's conditions, and whatever the collaborators are
`EncodeText` writes for it the dimension decoration only, without any brace.
With the reference collaborators that is the empty text, which `DecodeText`
rejects; handed over as an absent source it decodes to status Null.  An array
with two dimensions of length 0 writes the same empty text, so no decoder can
give back the dimensions of both. -/
theorem C2_text_round_trip_counterexample :
    zeroLengthArray.Status = .Present ∧
    zeroLengthArray.Dimensions ≠ [] ∧
    lengthProduct zeroLengthArray.Dimensions = zeroLengthArray.Elements.length ∧
    (∀ c : Codecs, EncodeText c zeroLengthArray =
      ⟨c.EncodeTextArrayDimensions [⟨0, 1⟩], false, .returned none⟩) ∧
    EncodeText refCodecs zeroLengthArray = ⟨[], false, .returned none⟩ ∧
    DecodeText refCodecs sampleNullArray (some []) =
      (sampleNullArray, .returned (some (.collaborator 4))) ∧
    (DecodeText refCodecs sampleNullArray none).1.Status = .Null ∧
    EncodeText refCodecs ⟨[], [⟨0, 1⟩, ⟨0, 1⟩], .Present⟩ = ⟨[], false, .returned none⟩ := by
  refine ⟨by decide, by decide, by decide, fun c => rfl, by decide, by decide, by decide,
    by decide⟩

/-- C2, amended: text round trip.  For every Present array whose elements are
each Present or Null and whose dimensions are empty with no elements, or
non-empty with every length at least 1 and the product of the lengths equal to
the number of elements, `EncodeText` reports not-null and no error and writes
the array literal (the dimension decoration and the nested brace rendering, or
`{}` without dimensions), and `DecodeText` of that text succeeds with status
Present, the same dimensions, and the same elements in the same order with the
same null status and value; assuming that the element text codec decodes what
it encodes for the elements of the array, that no present element is written
as the text `NULL`, and that the tokenizer splits the array literal into the
element tokens and the dimensions.  A Go slice has fewer than 2^63 elements. -/
theorem C2_text_round_trip (c : Codecs) (a dst : TimestamptzArray)
    (hP : a.Status = .Present)
    (hE : ∀ e ∈ a.Elements, e.Status = .Present ∨ e.Status = .Null)
    (hD : (a.Dimensions = [] ∧ a.Elements = []) ∨
      (a.Dimensions ≠ [] ∧ (∀ d ∈ a.Dimensions, 1 ≤ d.Length) ∧
        lengthProduct a.Dimensions = a.Elements.length))
    (hN : a.Elements.length < 9223372036854775808)
    (hcodec : ∀ e ∈ a.Elements, (e.Status = .Present ∨ e.Status = .Null) →
      ∃ nul t e', c.TimestamptzEncodeText e = .ok (nul, t) ∧ (nul = false → t ≠ nullLiteral) ∧
        c.TimestamptzDecodeText (if nul then none else some t) = .ok e' ∧ sameElement e e')
    (htok : c.ParseUntypedTextArray (arrayLiteral c a) =
      .ok ⟨a.Elements.map (elementToken c), a.Dimensions⟩) :
    ∃ t decoded, EncodeText c a = ⟨t, false, .returned none⟩ ∧ t = arrayLiteral c a ∧
      DecodeText c dst (some t) = (decoded, .returned none) ∧
      decoded.Status = .Present ∧ decoded.Dimensions = a.Dimensions ∧
      List.Forall₂ sameElement a.Elements decoded.Elements := by
  have hcodec' : ∀ e ∈ a.Elements, ∃ nul t e', c.TimestamptzEncodeText e = .ok (nul, t) ∧
      (nul = false → t ≠ nullLiteral) ∧
      c.TimestamptzDecodeText (if nul then none else some t) = .ok e' ∧ sameElement e e' :=
    fun e he => hcodec e he (hE e he)
  have henc : ∀ e ∈ a.Elements, ∃ p, c.TimestamptzEncodeText e = .ok p := by
    intro e he
    obtain ⟨nul, t, _, h, _⟩ := hcodec' e he
    exact ⟨_, h⟩
  have hW : EncodeText c a = ⟨arrayLiteral c a, false, .returned none⟩ := by
    rcases hD with ⟨hd0, _⟩ | ⟨hne, hpos, hprod⟩
    · exact EncodeText_no_dimensions c a hP hd0
    · exact EncodeText_present c a hP hne hpos hprod hN henc
  obtain ⟨es', hdec, hsame⟩ := decodeTokens_of_codec c a.Elements hcodec'
  refine ⟨arrayLiteral c a, ⟨es', a.Dimensions, .Present⟩, hW, rfl, ?_, rfl, rfl, hsame⟩
  simp only [DecodeText, htok, hdec]

theorem C2_text_round_trip_witness :
    ∃ t decoded, EncodeText refCodecs sampleArray = ⟨t, false, .returned none⟩ ∧
      t = arrayLiteral refCodecs sampleArray ∧
      DecodeText refCodecs sampleNullArray (some t) = (decoded, .returned none) ∧
      decoded.Status = .Present ∧ decoded.Dimensions = sampleArray.Dimensions ∧
      List.Forall₂ sameElement sampleArray.Elements decoded.Elements :=
  C2_text_round_trip refCodecs sampleArray sampleNullArray rfl (by decide)
    (Or.inr ⟨by decide, by decide, by decide⟩) (by decide)
    (by
      intro e he _
      simp only [sampleArray, List.mem_cons, List.mem_singleton, List.not_mem_nil, or_false] at he
      rcases he with rfl | rfl | rfl | rfl
      · exact ⟨false, [53], ⟨5, .Present⟩, by rfl, by decide, by rfl, by decide⟩
      · exact ⟨true, [], ⟨0, .Null⟩, by rfl, by decide, by rfl, by decide⟩
      · exact ⟨false, [45, 55], ⟨-7, .Present⟩, by rfl, by decide, by rfl, by decide⟩
      · exact ⟨false, [49, 50, 51, 52, 53, 54], ⟨123456, .Present⟩, by rfl, by decide, by rfl,
          by decide⟩)
    rfl

end Pgtype

/-! ## Claim C10 -/

namespace Pipeline

/-- C10: the terminal error of a pipeline session is sticky.  Whatever calls
are made on a session, `Close` returns the first server-reported error of the
response stream (immediate or deferred); a terminal error that a session has
recorded is that first error and no later call clears or replaces it.  In the
division-by-zero batch the error code 22012 is seen through `Err` after the
five rows and is returned by `Close`; in the deferred-constraint batch
`QueryResults` and both row reads report no error and `Close` returns 23505. -/
theorem C10_sticky_terminal_error :
    (∀ (wire : List Frame) (batchSize : Nat) (calls : List Call),
        (Close (run (SendBatch wire batchSize) calls)).2 = firstError wire) ∧
    (∀ (wire : List Frame) (batchSize : Nat) (calls : List Call) (code : Nat),
        (run (SendBatch wire batchSize) calls).terminal = some code →
          firstError wire = some code) ∧
    (∀ (s : PipelineSession) (calls : List Call) (code : Nat),
        s.terminal = some code → (run s calls).terminal = some code) ∧
    ((QueryResults (SendBatch queryErrorWire 2)).2 = .ok () ∧
      (Next (run (SendBatch queryErrorWire 2)
        [.queryResults, .next, .next, .next, .next])).2 = true ∧
      (Next (run (SendBatch queryErrorWire 2)
        [.queryResults, .next, .next, .next, .next, .next])).2 = false ∧
      Err (run (SendBatch queryErrorWire 2)
        [.queryResults, .next, .next, .next, .next, .next, .next]) = some 22012 ∧
      (Close (run (SendBatch queryErrorWire 2)
        [.queryResults, .next, .next, .next, .next, .next, .next])).2 = some 22012) ∧
    ((QueryResults (SendBatch deferredErrorWire 1)).2 = .ok () ∧
      (Next (run (SendBatch deferredErrorWire 1) [.queryResults])).2 = true ∧
      (Next (run (SendBatch deferredErrorWire 1) [.queryResults, .next])).2 = false ∧
      Err (run (SendBatch deferredErrorWire 1) [.queryResults, .next, .next]) = none ∧
      (run (SendBatch deferredErrorWire 1) [.queryResults, .next, .next]).terminal = none ∧
      (Close (run (SendBatch deferredErrorWire 1) [.queryResults, .next, .next])).2
        = some 23505) := by
  refine ⟨Close_after_run, terminal_is_firstError, fun s calls code h => run_keeps_terminal calls s code h,
    ?_, ?_⟩
  · exact ⟨rfl, by decide, by decide, by decide, by decide⟩
  · exact ⟨rfl, by decide, by decide, by decide, by decide, by decide⟩

end Pipeline

/-! ## Claims C11 and C12 -/

namespace Pipeline

/-- C11: draining on early close resynchronizes the stream.  When the response
of a row-returning statement is followed by anything, `QueryResults`, reading
any `k` of its rows (none included) and closing the row stream reads exactly
the first `k` rows and leaves the session right behind the response of that
statement, with the index advanced by one and no error; so the accessor of a
following statement shows that statement's complete result in order.  In the
batch of two `generate_series(0,5)` the first stream yields 0, 1, 2 and the
second, after the early close, all of 0 to 5 with no error; in the batch of a
three-row select and an insert the insert reports 2 rows affected although no
row of the select was read. -/
theorem C11_draining_on_early_close :
    (∀ (p : Bool) (rs : List (List Int)) (r : CommandResult) (rest : List Frame) (b i : Nat)
        (st : Option RowStream) (k : Nat),
      isStreaming ⟨[], b, i, st, none, false⟩ = false → i < b → k ≤ rs.length →
        (QueryResults ⟨responseFrames ⟨p, .rows rs r⟩ ++ rest, b, i, st, none, false⟩).2 = .ok ()
        ∧ (readRows k
            (QueryResults ⟨responseFrames ⟨p, .rows rs r⟩ ++ rest, b, i, st, none, false⟩).1).1
          = rs.take k
        ∧ ∃ st', isStreaming ⟨[], b, i + 1, st', none, false⟩ = false ∧
            closeAfterReading k
                ⟨responseFrames ⟨p, .rows rs r⟩ ++ rest, b, i, st, none, false⟩ =
              ⟨rest, b, i + 1, st', none, false⟩) ∧
    (∀ (p : Bool) (rs : List (List Int)) (r : CommandResult) (viaRow : Bool)
        (x : StatementResponse) (rest : List Frame) (b i : Nat) (st : Option RowStream) (k : Nat),
      isStreaming ⟨[], b, i, st, none, false⟩ = false → i + 1 < b → k ≤ rs.length →
      (viaRow = true → ∃ row r', x.result = .rows [row] r') →
        (consume viaRow x
          (closeAfterReading k
            ⟨responseFrames ⟨p, .rows rs r⟩ ++ (responseFrames x ++ rest), b, i, st, none,
              false⟩)).1 = expected x ∧
        (consume viaRow x
          (closeAfterReading k
            ⟨responseFrames ⟨p, .rows rs r⟩ ++ (responseFrames x ++ rest), b, i, st, none,
              false⟩)).2.wire = rest) ∧
    ((readRows 3 (QueryResults (SendBatch (batchWire seriesBatch) 2)).1).1 = [[0], [1], [2]] ∧
      (consume false ⟨true, .rows [[0], [1], [2], [3], [4], [5]] ⟨.select, 6⟩⟩
        (closeAfterReading 3 (SendBatch (batchWire seriesBatch) 2))).1
        = .rowsRead [[0], [1], [2], [3], [4], [5]] ∧
      Err (consume false ⟨true, .rows [[0], [1], [2], [3], [4], [5]] ⟨.select, 6⟩⟩
        (closeAfterReading 3 (SendBatch (batchWire seriesBatch) 2))).2 = none ∧
      (Close (consume false ⟨true, .rows [[0], [1], [2], [3], [4], [5]] ⟨.select, 6⟩⟩
        (closeAfterReading 3 (SendBatch (batchWire seriesBatch) 2))).2).2 = none) ∧
    ((ExecResults (closeAfterReading 0 (SendBatch (batchWire partialReadInsertBatch) 2))).2
        = .ok ⟨.insert, 2⟩ ∧
      (Close (ExecResults
        (closeAfterReading 0 (SendBatch (batchWire partialReadInsertBatch) 2))).1).2 = none) := by
  refine ⟨?_, ?_, ?_, ?_⟩
  · intro p rs r rest b i st k hst hi hk
    exact closeAfterReading_eq p rs r rest b i st k hst hi hk
  · intro p rs r viaRow x rest b i st k hst hi hk hrow
    obtain ⟨_, _, st', hst', hc⟩ :=
      closeAfterReading_eq p rs r (responseFrames x ++ rest) b i st k hst (by omega) hk
    rw [hc]
    obtain ⟨px, res⟩ := x
    cases res with
    | command r2 =>
      rw [consume_command viaRow px r2 rest b (i + 1) st' hst' hi]
      exact ⟨rfl, rfl⟩
    | rows rs2 r2 =>
      cases viaRow with
      | false =>
        rw [consume_rows px rs2 r2 rest b (i + 1) st' hst' hi]
        exact ⟨rfl, rfl⟩
      | true =>
        obtain ⟨row, r', hrow'⟩ := hrow rfl
        simp only [StatementResult.rows.injEq] at hrow'
        obtain ⟨rfl, rfl⟩ := hrow'
        rw [consume_row px row r2 rest b (i + 1) st' hst' hi]
        exact ⟨rfl, rfl⟩
  · exact ⟨by decide, by decide, by decide, by decide⟩
  · exact ⟨by rfl, by decide⟩

/-- C12: in-order consumption of batch results.  For every batch of queued
statements whose responses arrive in program order, the accessor calls made in
order (`ExecResults` for a statement without rows, `QueryResults` with the row
loop or, for a single row, `QueryRowResults` with its scan) show for each
statement its own command result or its rows in server order, and after `j`
calls the next-statement index has advanced by `j` and the response stream is
read up to the response of the next statement.  After the last statement every
further accessor fails with a sequencing error, and no call ever decreases the
next-statement index.  In the ledger batch the three inserts each report 1 row
affected, the select yields (1,q1,1), (2,q2,2), (3,q3,3) and the aggregate 6;
in the prepared batch each of the three streams yields 0 to 5. -/
theorem C12_in_order_consumption :
    (∀ (plan : List (Bool × StatementResponse)) (rest : List Frame) (b i : Nat)
        (st : Option RowStream),
      (∀ q ∈ plan, q.1 = true → ∃ row r, q.2.result = .rows [row] r) →
      isStreaming ⟨[], b, i, st, none, false⟩ = false → i + plan.length ≤ b →
        ∃ st', isStreaming ⟨[], b, i, st', none, false⟩ = false ∧
          consumeAll plan
              ⟨(plan.map (fun q => q.2)).flatMap responseFrames ++ rest, b, i, st, none,
                false⟩ =
            (plan.map (fun q => expected q.2), ⟨rest, b, i + plan.length, st', none, false⟩)) ∧
    (∀ (plan : List (Bool × StatementResponse)),
      (∀ q ∈ plan, q.1 = true → ∃ row r, q.2.result = .rows [row] r) →
        (consumeAll plan (SendBatch (batchWire (plan.map (fun q => q.2))) plan.length)).1 =
          plan.map (fun q => expected q.2) ∧
        (consumeAll plan
          (SendBatch (batchWire (plan.map (fun q => q.2))) plan.length)).2.nextIndex =
          plan.length ∧
        (ExecResults (consumeAll plan
          (SendBatch (batchWire (plan.map (fun q => q.2))) plan.length)).2).2 =
          .error .sequencing ∧
        (QueryResults (consumeAll plan
          (SendBatch (batchWire (plan.map (fun q => q.2))) plan.length)).2).2 =
          .error .sequencing ∧
        (RowScan (QueryRowResults (consumeAll plan
          (SendBatch (batchWire (plan.map (fun q => q.2))) plan.length)).2)).2 =
          .error .sequencing ∧
        (Close (consumeAll plan
          (SendBatch (batchWire (plan.map (fun q => q.2))) plan.length)).2).2 = none) ∧
    (∀ (s : PipelineSession) (calls : List Call), s.nextIndex ≤ (run s calls).nextIndex) ∧
    ((consumeAll ledgerPlan (SendBatch (batchWire ledgerBatch) 5)).1 =
        [.affected ⟨.insert, 1⟩, .affected ⟨.insert, 1⟩, .affected ⟨.insert, 1⟩,
          .rowsRead [[1, 29009, 1], [2, 29010, 2], [3, 29011, 3]], .rowsRead [[6]]] ∧
      (Close (consumeAll ledgerPlan (SendBatch (batchWire ledgerBatch) 5)).2).2 = none ∧
      (consumeAll (preparedBatch.map (fun x => (false, x)))
        (SendBatch (batchWire preparedBatch) 3)).1 =
        List.replicate 3 (.rowsRead [[0], [1], [2], [3], [4], [5]])) := by
  refine ⟨?_, ?_, fun s calls => run_nextIndex_le calls s, ?_⟩
  · intro plan rest b i st hplan hst hlen
    exact consumeAll_in_order plan hplan rest b i st hst hlen
  · intro plan hplan
    obtain ⟨st', hst', hc⟩ := consumeAll_in_order plan hplan [.readyForNext] plan.length 0 none
      rfl (by omega)
    have hs : SendBatch (batchWire (plan.map (fun q => q.2))) plan.length =
        ⟨(plan.map (fun q => q.2)).flatMap responseFrames ++ [.readyForNext], plan.length, 0,
          none, none, false⟩ := rfl
    rw [Nat.zero_add] at hc
    rw [hs, hc]
    have hg : accessorGuard ⟨[.readyForNext], plan.length, plan.length, st', none, false⟩ =
        some .sequencing := by
      simp [accessorGuard]
    have hstr : isStreaming ⟨[.readyForNext], plan.length, plan.length, st', none, false⟩
        = false := hst'
    have hrc : RowClose ⟨[.readyForNext], plan.length, plan.length, st', none, false⟩ =
        ⟨[.readyForNext], plan.length, plan.length, st', none, false⟩ := by
      simp only [RowClose, hstr, Bool.false_eq_true, if_false]
    refine ⟨rfl, rfl, ?_, ?_, ?_, ?_⟩
    · simp only [ExecResults, hg]
    · simp only [QueryResults, hg]
    · simp only [QueryRowResults, QueryResults, hg, RowScan]
    · simp only [Close, Bool.false_eq_true, if_false, hrc, Nat.sub_self, drainStatements,
        awaitReady, recordOpt]
  · exact ⟨by decide, by decide, by decide⟩

end Pipeline

/-! ## Claims C13 to C19 -/

namespace Pgtype

/-- C13, as stated, fails twice.  A Present array with one element and no
dimension meets the conditions of the claim (no length is below 1 and the empty
product is 1), its rendering over no dimension is the text of the element, and
`EncodeText` writes `{}`.  A Present array of two elements with the dimension
length 2 whose second element does not encode makes `EncodeText` return the
element's error after the text `{5,` was written, which is neither the
rendering nor balanced. -/
theorem C13_flat_braces_counterexample :
    (noDimensionsArray.Status = .Present ∧
      (∀ d ∈ noDimensionsArray.Dimensions, 1 ≤ d.Length) ∧
      lengthProduct noDimensionsArray.Dimensions = noDimensionsArray.Elements.length ∧
      (EncodeText refCodecs noDimensionsArray).written = [123, 125] ∧
      refCodecs.EncodeTextArrayDimensions noDimensionsArray.Dimensions ++
        render (lengthsOf noDimensionsArray.Dimensions)
          (noDimensionsArray.Elements.map (elementText refCodecs)) = [53]) ∧
    (undefinedElementArray.Status = .Present ∧
      (∀ d ∈ undefinedElementArray.Dimensions, 1 ≤ d.Length) ∧
      lengthProduct undefinedElementArray.Dimensions = undefinedElementArray.Elements.length ∧
      EncodeText refCodecs undefinedElementArray =
        ⟨[123, 53, 44], false, .returned (some .errUndefined)⟩ ∧
      braceDepth [123, 53, 44] 0 = some 1) := by
  refine ⟨⟨by decide, by decide, by decide, by decide, by decide⟩,
    ⟨by decide, by decide, by decide, by decide, by decide⟩⟩

/-- C13, amended: the flat brace bookkeeping of `EncodeText` equals recursive
brace emission.  For every Present array with non-empty dimensions whose
lengths are all at least 1, whose number of elements equals the product of the
lengths and whose elements encode without error, `EncodeText` returns no error
and the text written after the dimension decoration is the rendering of the
element texts over the lengths: for no dimension and a single element the text
of the element, for the lengths `l :: rest` an opening brace, the
comma-separated renderings over `rest` of the `l` equal consecutive chunks, and
a closing brace.  When no element text holds a brace or a comma, the braces
written are balanced and well nested and exactly one comma less than there are
elements is written.  A Go slice has fewer than 2^63 elements. -/
theorem C13_flat_braces_refine_render (c : Codecs) (a : TimestamptzArray)
    (hP : a.Status = .Present) (hne : a.Dimensions ≠ [])
    (hpos : ∀ d ∈ a.Dimensions, 1 ≤ d.Length)
    (hprod : lengthProduct a.Dimensions = a.Elements.length)
    (hN : a.Elements.length < 9223372036854775808)
    (henc : ∀ e ∈ a.Elements, ∃ p, c.TimestamptzEncodeText e = .ok p) :
    EncodeText c a =
      ⟨c.EncodeTextArrayDimensions a.Dimensions ++
        render (lengthsOf a.Dimensions) (a.Elements.map (elementText c)), false,
        .returned none⟩ ∧
    ((∀ e ∈ a.Elements, plainText (elementText c e)) →
      braceDepth (render (lengthsOf a.Dimensions) (a.Elements.map (elementText c))) 0 = some 0 ∧
      (render (lengthsOf a.Dimensions) (a.Elements.map (elementText c))).count 44 =
        a.Elements.length - 1) := by
  constructor
  · rw [EncodeText_present c a hP hne hpos hprod hN henc]
    simp [arrayLiteral, hne]
  · intro hplain
    have hts : ∀ t ∈ a.Elements.map (elementText c), plainText t := by
      intro t ht
      obtain ⟨e, he, rfl⟩ := List.mem_map.1 ht
      exact hplain e he
    refine ⟨braceDepth_render _ _ hts 0, ?_⟩
    rw [← flatBody_eq_render _ (lengthsOf_pos a.Dimensions hpos) _ (texts_length c a hpos hprod),
      count_flatBody _ _ hts 0]
    simp

theorem C13_flat_braces_refine_render_witness :
    EncodeText refCodecs sampleArray =
      ⟨refCodecs.EncodeTextArrayDimensions sampleArray.Dimensions ++
        render (lengthsOf sampleArray.Dimensions)
          (sampleArray.Elements.map (elementText refCodecs)), false, .returned none⟩ ∧
    ((∀ e ∈ sampleArray.Elements, plainText (elementText refCodecs e)) →
      braceDepth (render (lengthsOf sampleArray.Dimensions)
        (sampleArray.Elements.map (elementText refCodecs))) 0 = some 0 ∧
      (render (lengthsOf sampleArray.Dimensions)
        (sampleArray.Elements.map (elementText refCodecs))).count 44 =
        sampleArray.Elements.length - 1) :=
  C13_flat_braces_refine_render refCodecs sampleArray rfl (by decide) (by decide) (by decide)
    (by decide) (by
      intro e he
      simp only [sampleArray, List.mem_cons, List.mem_singleton, List.not_mem_nil, or_false] at he
      rcases he with rfl | rfl | rfl | rfl <;> exact ⟨_, rfl⟩)

end Pgtype

namespace Pgtype

/-- C14: `DecodeBinary` on a malformed body, evaluated where the code departs
from the claim.  Whenever the header decodes to a negative `int32` element
count, and whenever it decodes to a positive count with fewer than four bytes
behind the header, the call ends in a runtime panic and not in an error.  With
the reference header codec that is the case for a header of one element with
nothing behind it, with two bytes behind it, with the length prefix 8 and only
three payload bytes behind it, and for a dimension of length -1. -/
theorem C14_decode_binary_panics :
    (∀ (c : Codecs) (dst : TimestamptzArray) (src : Bytes) (hdr : ArrayHeader) (rp : Nat)
        (d0 : ArrayDimension) (ds : List ArrayDimension),
      c.ArrayHeaderDecodeBinary src = .ok (hdr, rp) → hdr.Dimensions = d0 :: ds →
      elementCount d0 ds < 0 → DecodeBinary c dst (some src) = (dst, .panicked)) ∧
    (∀ (c : Codecs) (dst : TimestamptzArray) (src : Bytes) (hdr : ArrayHeader) (rp : Nat)
        (d0 : ArrayDimension) (ds : List ArrayDimension),
      c.ArrayHeaderDecodeBinary src = .ok (hdr, rp) → hdr.Dimensions = d0 :: ds →
      0 < elementCount d0 ds → src.length < rp + 4 →
      DecodeBinary c dst (some src) = (dst, .panicked)) ∧
    DecodeBinary refCodecs sampleNullArray (some headerOnlyBinary) =
      (sampleNullArray, .panicked) ∧
    DecodeBinary refCodecs sampleNullArray (some shortPrefixBinary) =
      (sampleNullArray, .panicked) ∧
    DecodeBinary refCodecs sampleNullArray (some shortPayloadBinary) =
      (sampleNullArray, .panicked) ∧
    DecodeBinary refCodecs sampleNullArray (some negativeCountBinary) =
      (sampleNullArray, .panicked) ∧
    headerOnlyBinary = refArrayHeaderEncodeBinary ⟨false, 1184, [⟨1, 1⟩]⟩ ∧
    negativeCountBinary = refArrayHeaderEncodeBinary ⟨false, 1184, [⟨-1, 1⟩]⟩ := by
  refine ⟨DecodeBinary_negative_count, DecodeBinary_short_body, by decide, by decide, by decide,
    by decide, by decide, by decide⟩

/-- C15: a Present array with a dimension of length 0, evaluated where the code
departs from the claim.  Every Present array with non-empty dimensions and no
element has `EncodeText` write the dimension decoration only, without any
brace, and return not-null and no error; the array with the single dimension
length 0 satisfies the ArrayValue invariant and with the reference collaborators
the text written for it is empty. -/
theorem C15_zero_length_writes_no_brace :
    (∀ (c : Codecs) (a : TimestamptzArray), a.Status = .Present → a.Dimensions ≠ [] →
      a.Elements = [] →
        EncodeText c a = ⟨c.EncodeTextArrayDimensions a.Dimensions, false, .returned none⟩) ∧
    zeroLengthArray.Status = .Present ∧
    lengthProduct zeroLengthArray.Dimensions = zeroLengthArray.Elements.length ∧
    EncodeText refCodecs zeroLengthArray = ⟨[], false, .returned none⟩ := by
  refine ⟨?_, by decide, by decide, by decide⟩
  intro c a hP hne hE
  have hl : ¬ (a.Dimensions.length = 0) := fun h0 => hne (List.length_eq_zero.1 h0)
  simp only [EncodeText, hP, hl, if_false, hE, encodeTextElements]

/-- C17: decoding is atomic on failure.  For every destination and every
source, when `DecodeText` or `DecodeBinary` does not return nil, be it an
error of the tokenizer, of the header decoder or of an element decoder, the
destination is left as it was; a destination that differs afterwards means the
decode returned nil. -/
theorem C17_decode_atomic (c : Codecs) (dst : TimestamptzArray) (src : Option Bytes) :
    (∀ e, (DecodeText c dst src).2 = .returned (some e) → (DecodeText c dst src).1 = dst) ∧
    (∀ e, (DecodeBinary c dst src).2 = .returned (some e) → (DecodeBinary c dst src).1 = dst) ∧
    ((DecodeText c dst src).1 ≠ dst → (DecodeText c dst src).2 = .returned none) ∧
    ((DecodeBinary c dst src).1 ≠ dst → (DecodeBinary c dst src).2 = .returned none) ∧
    (∀ b e, c.ParseUntypedTextArray b = .error e →
      DecodeText c dst (some b) = (dst, .returned (some e))) ∧
    (∀ b e, c.ArrayHeaderDecodeBinary b = .error e →
      DecodeBinary c dst (some b) = (dst, .returned (some e))) := by
  refine ⟨?_, ?_, ?_, ?_, ?_, ?_⟩
  · intro e he
    rcases DecodeText_atomic c dst src with h | h
    · rw [h] at he
      exact absurd he (by simp)
    · exact h
  · intro e he
    rcases DecodeBinary_atomic c dst src with h | h
    · rw [h] at he
      exact absurd he (by simp)
    · exact h
  · intro hne
    rcases DecodeText_atomic c dst src with h | h
    · exact h
    · exact absurd h hne
  · intro hne
    rcases DecodeBinary_atomic c dst src with h | h
    · exact h
    · exact absurd h hne
  · intro b e hb
    simp only [DecodeText, hb]
  · intro b e hb
    simp only [DecodeBinary, hb]

end Pgtype

namespace Pgtype

/-- C16, counterexample to the last clause: the Present array with one element
and four dimensions of length 65536 has no dimension of length 0, yet its table
holds the entry 0 (the product 2^64 wraps to 0 in a Go `int`) and `EncodeText`
ends in the division-by-zero panic. -/
theorem C16_zero_divisor_without_zero_length :
    wrappedTableArray.Status = .Present ∧ wrappedTableArray.Dimensions ≠ [] ∧
    wrappedTableArray.Elements ≠ [] ∧
    (∀ d ∈ wrappedTableArray.Dimensions, d.Length ≠ 0) ∧
    dimElemCounts wrappedTableArray.Dimensions = [0, 281474976710656, 4294967296, 65536] ∧
    (EncodeText refCodecs wrappedTableArray).outcome = .panicked := by
  refine ⟨by decide, by decide, by decide, by decide, by decide, by decide⟩

/-- C16, amended: for every Present array with non-empty Dimensions whose
number of elements equals the product of the dimension lengths (a Go slice
length, below 2^63), the index accesses that build `dimElemCounts` are within
bounds and give the table, no entry of the table is zero when there is an
element, and `EncodeText` does not panic.  For every array, a panic of
`EncodeText` means that Elements is non-empty and the table holds a zero
entry; when the suffix products of the lengths fit a Go `int` that means that
some dimension length is 0; and a Present array with a dimension of length 0
and an element does panic. -/
theorem C16_no_division_by_zero (c : Codecs) (a : TimestamptzArray)
    (hP : a.Status = .Present) (hne : a.Dimensions ≠ [])
    (hprod : lengthProduct a.Dimensions = a.Elements.length)
    (hN : a.Elements.length < 9223372036854775808) :
    dimElemCountsIndexed a.Dimensions = some (dimElemCounts a.Dimensions) ∧
    (a.Elements ≠ [] → ∀ x ∈ dimElemCounts a.Dimensions, x ≠ 0) ∧
    (EncodeText c a).outcome ≠ .panicked ∧
    (∀ (c1 : Codecs) (b : TimestamptzArray), (EncodeText c1 b).outcome = .panicked →
      b.Elements ≠ [] ∧ (0 : Int) ∈ dimElemCounts b.Dimensions) ∧
    (∀ (c1 : Codecs) (b : TimestamptzArray),
      (∀ k, k < b.Dimensions.length → fitsInt (lengthProduct (b.Dimensions.drop k))) →
      (EncodeText c1 b).outcome = .panicked →
        b.Elements ≠ [] ∧ ∃ d ∈ b.Dimensions, d.Length = 0) ∧
    (∀ (c1 : Codecs) (b : TimestamptzArray), b.Status = .Present →
      (∃ d ∈ b.Dimensions, d.Length = 0) → b.Elements ≠ [] →
        (EncodeText c1 b).outcome = .panicked) := by
  refine ⟨dimElemCountsIndexed_eq _ hne, dimElemCounts_ne_zero a hprod hN, ?_, ?_, ?_, ?_⟩
  · have hl : ¬ (a.Dimensions.length = 0) := fun h0 => hne (List.length_eq_zero.1 h0)
    unfold EncodeText
    rw [hP]
    simp only [hl, if_false]
    by_cases hes : a.Elements = []
    · rw [hes]
      simp [encodeTextElements]
    · exact encodeTextElements_no_panic c _ (dimElemCounts_ne_zero a hprod hN hes) _ _ _
  · intro c1 b hb
    have := EncodeText_panicked c1 b hb
    exact ⟨this.2.2.1, this.2.2.2⟩
  · intro c1 b hfit hb
    have h := EncodeText_panicked c1 b hb
    refine ⟨h.2.2.1, ?_⟩
    by_contra hno
    have hl : ∀ d ∈ b.Dimensions, d.Length ≠ 0 := by
      intro d hd h0
      exact hno ⟨d, hd, h0⟩
    have hz := h.2.2.2
    rw [dimElemCounts_eq_suffixProducts _ hfit] at hz
    exact suffixProducts_ne_zero _ hl 0 hz rfl
  · intro c1 b hbP hz hes
    have hl : ¬ (b.Dimensions.length = 0) := by
      obtain ⟨d, hd, _⟩ := hz
      intro h0
      rw [List.length_eq_zero.1 h0] at hd
      simp at hd
    obtain ⟨e, rest, he⟩ := List.exists_cons_of_ne_nil hes
    unfold EncodeText
    rw [hbP]
    simp only [hl, if_false, he]
    exact encodeTextElements_zero_mem c1 _ (zero_mem_dimElemCounts _ hz) e rest 0 _

/-- C16, witness: the two-by-two sample array meets the hypotheses. -/
theorem C16_no_division_by_zero_witness :
    sampleArray.Status = .Present ∧ sampleArray.Dimensions ≠ [] ∧
    lengthProduct sampleArray.Dimensions = sampleArray.Elements.length ∧
    dimElemCountsIndexed sampleArray.Dimensions = some (dimElemCounts sampleArray.Dimensions) ∧
    (EncodeText refCodecs sampleArray).outcome ≠ .panicked :=
  ⟨by decide, by decide, by decide,
    (C16_no_division_by_zero refCodecs sampleArray (by decide) (by decide) (by decide)
      (by decide)).1,
    (C16_no_division_by_zero refCodecs sampleArray (by decide) (by decide) (by decide)
      (by decide)).2.2.1⟩

end Pgtype

namespace Pgtype

/-- C18, counterexample: for a slice of 2^31 times `ConvertFrom` succeeds and
stores 2^31 elements, but the one dimension has Length -2^31, the `int32`
conversion of the length, so neither is Length equal to `len(s)` nor is the
product of the dimension lengths equal to the number of elements. -/
theorem C18_convert_from_counterexample :
    manyTimes.length = 2147483648 ∧
    ConvertFrom refConversions sampleNullArray (.times (some manyTimes)) =
      (⟨List.replicate 2147483648 ⟨0, .Present⟩, [⟨-2147483648, 1⟩], .Present⟩,
        .returned none) ∧
    lengthProduct [⟨-2147483648, 1⟩] ≠
      (((List.replicate 2147483648 (⟨0, .Present⟩ : Timestamptz)).length : Nat) : Int) := by
  have hlen : manyTimes.length = 2147483648 := by
    unfold manyTimes
    rw [List.length_replicate]
  have hne : manyTimes ≠ [] := by
    intro h
    rw [h] at hlen
    exact absurd hlen (by decide)
  refine ⟨hlen, ?_, ?_⟩
  · rw [ConvertFrom_times refConversions sampleNullArray manyTimes _ hne
      (convertElements_replicate 2147483648 0), List.length_replicate]
    rfl
  · rw [List.length_replicate]
    decide

/-- C18, amended: `ConvertFrom` of a slice of times `s` with fewer than 2^31
entries.  When `s` is non-empty and every entry converts, element i being the
conversion of `s[i]`, the destination becomes Present with these elements, in
number `len(s)`, and exactly one dimension with Length `len(s)` and LowerBound
1, so the product of the dimension lengths is the number of elements; a nil
slice gives Null and an empty non-nil slice gives Present, both without
elements and dimensions; and when the conversion of an entry fails, that error
is returned and the destination is unchanged. -/
theorem C18_convert_from_times (cv : Conversions) (dst : TimestamptzArray) (s : List Int)
    (es : List Timestamptz) (hne : s ≠ []) (hlen : s.length < 2147483648)
    (hconv : List.Forall₂ (fun t e => cv.TimestamptzConvertFrom t = .ok e) s es) :
    ConvertFrom cv dst (.times (some s)) =
      (⟨es, [⟨(s.length : Int), 1⟩], .Present⟩, .returned none) ∧
    es.length = s.length ∧
    lengthProduct [⟨(s.length : Int), 1⟩] = (es.length : Int) ∧
    ConvertFrom cv dst (.times none) = (⟨[], [], .Null⟩, .returned none) ∧
    ConvertFrom cv dst (.times (some [])) = (⟨[], [], .Present⟩, .returned none) ∧
    (∀ (pre : List Int) (t : Int) (post : List Int) (e : Error),
      (∀ x ∈ pre, ∃ y, cv.TimestamptzConvertFrom x = .ok y) →
      cv.TimestamptzConvertFrom t = .error e →
        ConvertFrom cv dst (.times (some (pre ++ t :: post))) = (dst, .returned (some e))) := by
  have hl : es.length = s.length := (List.Forall₂.length_eq hconv).symm
  refine ⟨?_, hl, ?_, rfl, rfl, ?_⟩
  · rw [ConvertFrom_times cv dst s es hne (convertElements_ok cv s es hconv), hl,
      int32_of_range _ (by omega) (by omega)]
  · rw [hl]
    simp [lengthProduct]
  · intro pre t post e hpre ht
    have hl2 : ¬ ((pre ++ t :: post).length = 0) := by simp
    rw [ConvertFrom]
    simp only [hl2, if_false, convertElements_error cv pre t post e hpre ht]

/-- C18, witness: the reference conversion of a slice of three times. -/
theorem C18_convert_from_times_witness :
    sampleTimes ≠ [] ∧ sampleTimes.length < 2147483648 ∧
    ConvertFrom refConversions sampleNullArray (.times (some sampleTimes)) =
      (⟨sampleConverted, [⟨3, 1⟩], .Present⟩, .returned none) :=
  ⟨by decide, by decide,
    (C18_convert_from_times refConversions sampleNullArray sampleTimes sampleConverted
      (by decide) (by decide) (.cons rfl (.cons rfl (.cons rfl .nil)))).1⟩

/-- C19: `ConvertFrom` followed by `AssignTo` is the identity on slices of
times.  When for every entry of `s` the element conversion succeeds and the
element assignment of the result gives the entry back, `ConvertFrom` of `s`
returns nil and `AssignTo` of the result into a `*[]time.Time`, whatever it
held, returns nil and leaves `s` there; a nil slice comes back nil and an empty
non-nil slice comes back empty and non-nil; and for every array whose Status
is not Present `AssignTo` sets the destination to nil. -/
theorem C19_convert_assign_round_trip (cv : Conversions) (dst0 : TimestamptzArray)
    (v0 : Option (List Int)) (s : List Int)
    (hrt : ∀ t ∈ s, ∃ e, cv.TimestamptzConvertFrom t = .ok e ∧ cv.TimestamptzAssignTo e = .ok t) :
    (ConvertFrom cv dst0 (.times (some s))).2 = .returned none ∧
    AssignTo cv (ConvertFrom cv dst0 (.times (some s))).1 (.times v0) =
      (.times (some s), .returned none) ∧
    AssignTo cv (ConvertFrom cv dst0 (.times none)).1 (.times v0) =
      (.times none, .returned none) ∧
    AssignTo cv (ConvertFrom cv dst0 (.times (some []))).1 (.times v0) =
      (.times (some []), .returned none) ∧
    (∀ a : TimestamptzArray, a.Status ≠ .Present →
      AssignTo cv a (.times v0) = (.times none, .returned none)) := by
  have hnot : ∀ a : TimestamptzArray, a.Status ≠ .Present →
      AssignTo cv a (.times v0) = (.times none, .returned none) := by
    intro a ha
    rw [AssignTo]
    cases hs : a.Status with
    | Present => exact absurd hs ha
    | Null => rfl
    | Undefined => rfl
  have hempty : AssignTo cv (ConvertFrom cv dst0 (.times (some []))).1 (.times v0) =
      (.times (some []), .returned none) := rfl
  refine ⟨?_, ?_, rfl, hempty, hnot⟩
  · cases s with
    | nil => rfl
    | cons t rest =>
      obtain ⟨es, h1, _⟩ := exists_converted cv (t :: rest) hrt
      rw [ConvertFrom_times cv dst0 (t :: rest) es (by simp) (convertElements_ok cv _ es h1)]
  · cases s with
    | nil => exact hempty
    | cons t rest =>
      obtain ⟨es, h1, h2⟩ := exists_converted cv (t :: rest) hrt
      rw [ConvertFrom_times cv dst0 (t :: rest) es (by simp) (convertElements_ok cv _ es h1)]
      rw [AssignTo]
      simp only [assignElements_ok cv es (t :: rest) h2]

/-- C19, witness: the reference conversions on a slice of three times. -/
theorem C19_convert_assign_round_trip_witness :
    (∀ t ∈ sampleTimes, ∃ e, refConversions.TimestamptzConvertFrom t = .ok e ∧
      refConversions.TimestamptzAssignTo e = .ok t) ∧
    AssignTo refConversions
      (ConvertFrom refConversions sampleNullArray (.times (some sampleTimes))).1 (.times none) =
      (.times (some sampleTimes), .returned none) :=
  ⟨fun t _ => ⟨⟨t, .Present⟩, rfl, rfl⟩,
    (C19_convert_assign_round_trip refConversions sampleNullArray none sampleTimes
      (fun t _ => ⟨⟨t, .Present⟩, rfl, rfl⟩)).2.1⟩

end Pgtype
